import Mathlib

/-!
# cnd_event.cpp: the descriptor watch registry and its dispatcher

A shallow embedding of `src/cnd/src/cnd_event.cpp`.

* Records (`struct cnd_event`) live in caller-owned memory and are addressed by
  pointers.  `Ptr.ev a` is the address of the caller's record number `a`,
  `Ptr.pending_list` is the address of the static sentinel `pending_list`, and a
  C pointer that may be `NULL` is an `Option Ptr`.
* `fd_set` is the finite set of descriptors whose bit is set.  `FD_SET`, `FD_CLR`
  and `FD_ISSET` are insertion, removal and membership (the bound `FD_SETSIZE`
  of the bit array is not modelled; C `int`s are unbounded integers, as no
  descriptor that `FD_SET` accepts can make `fd + 1` overflow).
* `MAX_FD_EVENTS` comes from the header `cnd_event.h`, which is not part of the
  sources; every function that loops over `watch_table` takes it as a parameter.
* `pthread_mutex_lock` on the (default, non-recursive) mutex never returns when
  the mutex is already held by the only thread of the model; this outcome, a
  `NULL` dereference and running out of loop fuel are the three faults.
* A callback `ev->func` is a function pointer; it is an identifier `func : Nat`
  into a table `Callbacks` giving, for the arguments it is called with, the
  registry calls (`cnd_event_add` / `cnd_event_del`) the callback makes.  The
  field `State.fired` is a ghost log of the invocations `ev->func(fd, param)`.
-/

namespace CndEvent

/-- Addresses of `struct cnd_event` objects. -/
inductive Ptr where
  | pending_list : Ptr
  | ev (a : Nat) : Ptr
deriving DecidableEq

/-- The record `struct cnd_event`. -/
structure cnd_event where
  next : Option Ptr
  prev : Option Ptr
  fd : Int
  index : Int
  persist : Int
  func : Nat
  param : Nat
deriving DecidableEq

/-- Ways in which a call does not return normally. -/
inductive Fault where
  | deadlock : Fault
  | nullDeref : Fault
  | outOfFuel : Fault
deriving DecidableEq

/-- One invocation `ev->func(ev->fd, ev->param)`. -/
structure Fired where
  ev : Nat
  func : Nat
  fd : Int
  param : Nat
deriving DecidableEq

/-- The file-level state: record memory and the static variables
`watch_table`, `readFds`, `nfds`, `listMutex` (true when locked). -/
structure State where
  mem : Ptr → cnd_event
  watch_table : Nat → Option Nat
  readFds : Finset Int
  nfds : Int
  listMutex : Bool
  fired : List Fired

/-- Registry calls a callback can make. -/
inductive Action where
  | add (ev : Nat) : Action
  | del (ev : Nat) : Action
deriving DecidableEq

/-- The callback table: `cb func fd param s` lists the registry calls made by
the function `func` when invoked as `func(fd, param)` in state `s`. -/
abbrev Callbacks := Nat → Int → Nat → State → List Action

/-! ## fd_set primitives -/

def FD_ZERO : Finset Int := ∅

def FD_SET (fd : Int) (set : Finset Int) : Finset Int := insert fd set

def FD_CLR (fd : Int) (set : Finset Int) : Finset Int := set.erase fd

def FD_ISSET (fd : Int) (set : Finset Int) : Bool := decide (fd ∈ set)

/-! ## Field stores -/

def setNext (s : State) (p : Ptr) (v : Option Ptr) : State :=
  { s with mem := Function.update s.mem p { s.mem p with next := v } }

def setPrev (s : State) (p : Ptr) (v : Option Ptr) : State :=
  { s with mem := Function.update s.mem p { s.mem p with prev := v } }

def setIndex (s : State) (p : Ptr) (v : Int) : State :=
  { s with mem := Function.update s.mem p { s.mem p with index := v } }

/-! ## The mutex -/

def MUTEX_INIT (s : State) : State := { s with listMutex := false }

def MUTEX_ACQUIRE (s : State) : Except Fault State :=
  if s.listMutex then .error .deadlock else .ok { s with listMutex := true }

def MUTEX_RELEASE (s : State) : State := { s with listMutex := false }

/-! ## The pending list -/

/-- The function `init_list`: zero the node, link it to itself, `fd = -1`. -/
def init_list (s : State) (list : Ptr) : State :=
  let node : cnd_event :=
    { next := some list, prev := some list, fd := -1, index := 0, persist := 0,
      func := 0, param := 0 }
  { s with mem := Function.update s.mem list node }

/-- The function `addToList`. -/
def addToList (s : State) (ev list : Ptr) : Except Fault State :=
  let s1 := setNext s ev (some list)
  let s2 := setPrev s1 ev (s1.mem list).prev
  match (s2.mem ev).prev with
  | none => .error .nullDeref
  | some p =>
    let s3 := setNext s2 p (some ev)
    .ok (setPrev s3 list (some ev))

/-- The function `removeFromList`. -/
def removeFromList (s : State) (ev : Ptr) : Except Fault State :=
  match (s.mem ev).next with
  | none => .error .nullDeref
  | some nx =>
    let s1 := setPrev s nx (s.mem ev).prev
    match (s1.mem ev).prev with
    | none => .error .nullDeref
    | some pv =>
      let s2 := setNext s1 pv (s1.mem ev).next
      .ok (setPrev (setNext s2 ev none) ev none)

/-! ## The watch table -/

/-- The rescan loop of `removeWatch`: `k` iterations remain, `i` is the loop
index, `n` the running maximum. -/
def removeWatch_scan (s : State) : Nat → Nat → Int → Int
  | 0, _, n => n
  | k + 1, i, n =>
    match s.watch_table i with
    | some rev =>
      if (s.mem (.ev rev)).fd > n then removeWatch_scan s k (i + 1) (s.mem (.ev rev)).fd
      else removeWatch_scan s k (i + 1) n
    | none => removeWatch_scan s k (i + 1) n

/-- The function `removeWatch`. -/
def removeWatch (MAX_FD_EVENTS : Nat) (s : State) (ev : Nat) (index : Nat) : State :=
  let s1 := { s with watch_table := Function.update s.watch_table index none }
  let s2 := setIndex s1 (.ev ev) (-1)
  let s3 := { s2 with readFds := FD_CLR (s2.mem (.ev ev)).fd s2.readFds }
  if (s3.mem (.ev ev)).fd + 1 = s3.nfds then
    { s3 with nfds := removeWatch_scan s3 MAX_FD_EVENTS 0 0 + 1 }
  else s3

/-- The loop of `processReadReadyEvent`: `k` iterations remain before
`i < MAX_FD_EVENTS` fails, `n` is the count of matches still expected. -/
def processReadReadyEvent_loop (MAX_FD_EVENTS : Nat) (rfds : Finset Int) :
    Nat → Nat → Int → State → Except Fault State
  | 0, _, _, s => .ok s
  | k + 1, i, n, s =>
    if n > 0 then
      match s.watch_table i with
      | some rev =>
        if FD_ISSET (s.mem (.ev rev)).fd rfds then
          match addToList s (.ev rev) .pending_list with
          | .error e => .error e
          | .ok s1 =>
            let s2 := if (s1.mem (.ev rev)).persist = 0 then removeWatch MAX_FD_EVENTS s1 rev i
                      else s1
            processReadReadyEvent_loop MAX_FD_EVENTS rfds k (i + 1) (n - 1) s2
        else processReadReadyEvent_loop MAX_FD_EVENTS rfds k (i + 1) n s
      | none => processReadReadyEvent_loop MAX_FD_EVENTS rfds k (i + 1) n s
    else .ok s

/-- The function `processReadReadyEvent`. -/
def processReadReadyEvent (MAX_FD_EVENTS : Nat) (rfds : Finset Int) (n : Int) (s : State) :
    Except Fault State :=
  match MUTEX_ACQUIRE s with
  | .error e => .error e
  | .ok s1 =>
    match processReadReadyEvent_loop MAX_FD_EVENTS rfds MAX_FD_EVENTS 0 n s1 with
    | .error e => .error e
    | .ok s2 => .ok (MUTEX_RELEASE s2)

/-- The function `cnd_event_init`; `svc` is the status returned by the external
`cne_svc_init`.  The static `nfds` is not assigned here. -/
def cnd_event_init (svc : Int) (s : State) : Int × State :=
  let s1 := MUTEX_INIT s
  let s2 := { s1 with readFds := FD_ZERO }
  let s3 := init_list s2 .pending_list
  (svc, { s3 with watch_table := fun _ => none })

/-- The function `cnd_event_set` (the `fcntl` call acts on the descriptor only). -/
def cnd_event_set (s : State) (ev : Nat) (fd : Int) (persist : Int) (func : Nat)
    (param : Nat) : State :=
  let rec0 : cnd_event :=
    { next := none, prev := none, fd := fd, index := -1, persist := persist,
      func := func, param := param }
  { s with mem := Function.update s.mem (.ev ev) rec0 }

/-- The loop of `cnd_event_add`, up to and including its `break`. -/
def cnd_event_add_loop (ev : Nat) : Nat → Nat → State → State
  | 0, _, s => s
  | k + 1, i, s =>
    match s.watch_table i with
    | none =>
      let s1 := { s with watch_table := Function.update s.watch_table i (some ev) }
      let s2 := setIndex s1 (.ev ev) i
      let s3 := { s2 with readFds := FD_SET (s2.mem (.ev ev)).fd s2.readFds }
      if (s3.mem (.ev ev)).fd ≥ s3.nfds then { s3 with nfds := (s3.mem (.ev ev)).fd + 1 }
      else s3
    | some _ => cnd_event_add_loop ev k (i + 1) s

/-- The function `cnd_event_add`. -/
def cnd_event_add (MAX_FD_EVENTS : Nat) (s : State) (ev : Nat) : Except Fault State :=
  match MUTEX_ACQUIRE s with
  | .error e => .error e
  | .ok s1 => .ok (MUTEX_RELEASE (cnd_event_add_loop ev MAX_FD_EVENTS 0 s1))

/-- The function `cnd_event_del`; the branch for an invalid index returns
without `MUTEX_RELEASE`. -/
def cnd_event_del (MAX_FD_EVENTS : Nat) (s : State) (ev : Nat) : Except Fault State :=
  match MUTEX_ACQUIRE s with
  | .error e => .error e
  | .ok s1 =>
    if (s1.mem (.ev ev)).index < 0 ∨ (s1.mem (.ev ev)).index ≥ MAX_FD_EVENTS then .ok s1
    else .ok (MUTEX_RELEASE (removeWatch MAX_FD_EVENTS s1 ev (s1.mem (.ev ev)).index.toNat))

/-- Runs the registry calls made by a callback, in order. -/
def runActions (MAX_FD_EVENTS : Nat) : List Action → State → Except Fault State
  | [], s => .ok s
  | .add e :: rest, s =>
    match cnd_event_add MAX_FD_EVENTS s e with
    | .error f => .error f
    | .ok s1 => runActions MAX_FD_EVENTS rest s1
  | .del e :: rest, s =>
    match cnd_event_del MAX_FD_EVENTS s e with
    | .error f => .error f
    | .ok s1 => runActions MAX_FD_EVENTS rest s1

/-- The invocation `ev->func(ev->fd, ev->param)`: log it, then run the calls the
callback makes. -/
def invoke (MAX_FD_EVENTS : Nat) (cb : Callbacks) (s : State) (ev : Nat) :
    Except Fault State :=
  let r := s.mem (.ev ev)
  let s1 := { s with fired := s.fired ++ [{ ev := ev, func := r.func, fd := r.fd,
                                            param := r.param }] }
  runActions MAX_FD_EVENTS (cb r.func r.fd r.param s1) s1

/-- The `while` loop of `firePendingEvent`, with `fuel` bounding the number of
iterations; `ev` is the loop variable. -/
def firePendingEvent_loop (MAX_FD_EVENTS : Nat) (cb : Callbacks) :
    Nat → Option Ptr → State → Except Fault State
  | 0, _, _ => .error .outOfFuel
  | fuel + 1, ev, s =>
    match ev with
    | none => .error .nullDeref
    | some .pending_list => .ok s
    | some (.ev a) =>
      let next := (s.mem (.ev a)).next
      match removeFromList s (.ev a) with
      | .error f => .error f
      | .ok s1 =>
        match invoke MAX_FD_EVENTS cb s1 a with
        | .error f => .error f
        | .ok s2 => firePendingEvent_loop MAX_FD_EVENTS cb fuel next s2

/-- The function `firePendingEvent`. -/
def firePendingEvent (MAX_FD_EVENTS : Nat) (cb : Callbacks) (fuel : Nat) (s : State) :
    Except Fault State :=
  firePendingEvent_loop MAX_FD_EVENTS cb fuel (s.mem .pending_list).next s

/-- One dispatch cycle of `cnd_event_loop` after `select` returned `n ≥ 0` with
ready set `rfds`: `processReadReadyEvent(&rfds, n)` then `firePendingEvent()`. -/
def dispatchCycle (MAX_FD_EVENTS : Nat) (cb : Callbacks) (fuel : Nat) (rfds : Finset Int)
    (n : Int) (s : State) : Except Fault State :=
  match processReadReadyEvent MAX_FD_EVENTS rfds n s with
  | .error f => .error f
  | .ok s1 => firePendingEvent MAX_FD_EVENTS cb fuel s1

/-- The program state before `cnd_event_init`: statics are zero-initialised
(`nfds = 0`), record memory is `mem`. -/
def startState (mem : Nat → cnd_event) : State :=
  { mem := fun p =>
      match p with
      | .pending_list =>
        { next := none, prev := none, fd := 0, index := 0, persist := 0, func := 0, param := 0 }
      | .ev a => mem a
    watch_table := fun _ => none
    readFds := ∅
    nfds := 0
    listMutex := false
    fired := [] }

/-- The state left by `cnd_event_init` at program start. -/
def initState (mem : Nat → cnd_event) : State := (cnd_event_init 0 (startState mem)).2

/-! ## Vocabulary of the specification -/

/-- The state `cnd_event_set` leaves a record in: unlinked and unregistered. -/
def Configured (r : cnd_event) : Prop := r.next = none ∧ r.prev = none ∧ r.index = -1

/-- No slot of `watch_table` holds the record `ev`. -/
def Unregistered (MAX_FD_EVENTS : Nat) (s : State) (ev : Nat) : Prop :=
  ∀ i, i < MAX_FD_EVENTS → s.watch_table i ≠ some ev

/-- No record held in `watch_table` has the descriptor of the record `ev`. -/
def FreshFd (MAX_FD_EVENTS : Nat) (s : State) (ev : Nat) : Prop :=
  ∀ i a, i < MAX_FD_EVENTS → s.watch_table i = some a →
    (s.mem (.ev a)).fd ≠ (s.mem (.ev ev)).fd

/-- Some occupied slot of `watch_table` holds a record with descriptor `d`. -/
def Watched (MAX_FD_EVENTS : Nat) (s : State) (d : Int) : Prop :=
  ∃ i, i < MAX_FD_EVENTS ∧ ∃ a, s.watch_table i = some a ∧ (s.mem (.ev a)).fd = d

/-- The states reached from `s0` by a sequence of `cnd_event_add` and
`cnd_event_del` calls that return, each `cnd_event_add s ev` made under the
precondition `pre s ev`. -/
inductive RegSeq (MAX_FD_EVENTS : Nat) (pre : State → Nat → Prop) (s0 : State) :
    State → Prop where
  | start : RegSeq MAX_FD_EVENTS pre s0 s0
  | add {s s1 : State} (ev : Nat) : RegSeq MAX_FD_EVENTS pre s0 s → pre s ev →
      cnd_event_add MAX_FD_EVENTS s ev = .ok s1 → RegSeq MAX_FD_EVENTS pre s0 s1
  | del {s s1 : State} (ev : Nat) : RegSeq MAX_FD_EVENTS pre s0 s →
      cnd_event_del MAX_FD_EVENTS s ev = .ok s1 → RegSeq MAX_FD_EVENTS pre s0 s1

/-- Slots and records correspond: a valid index points at a slot holding the
record, an occupied slot holds a record whose index is that slot, and every
index is `-1` or a slot number. -/
structure RegInv (MAX_FD_EVENTS : Nat) (s : State) : Prop where
  back : ∀ a i, i < MAX_FD_EVENTS → (s.mem (.ev a)).index = (i : Int) →
    s.watch_table i = some a
  slot : ∀ i a, i < MAX_FD_EVENTS → s.watch_table i = some a →
    (s.mem (.ev a)).index = (i : Int)
  range : ∀ a, (s.mem (.ev a)).index = -1 ∨
    (0 ≤ (s.mem (.ev a)).index ∧ (s.mem (.ev a)).index < MAX_FD_EVENTS)

/-- The state `cnd_event_add` produces when it stores `ev` in slot `i`. -/
def addAt (s : State) (ev i : Nat) : State :=
  { mem := Function.update s.mem (.ev ev) { s.mem (.ev ev) with index := i }
    watch_table := Function.update s.watch_table i (some ev)
    readFds := insert (s.mem (.ev ev)).fd s.readFds
    nfds := if (s.mem (.ev ev)).fd ≥ s.nfds then (s.mem (.ev ev)).fd + 1 else s.nfds
    listMutex := false
    fired := s.fired }

/-- The chain of `next` / `prev` links that starts at node `p`, runs through the
records `L` in order and closes at the sentinel `pending_list`. -/
def Linked (s : State) : Ptr → List Nat → Prop
  | p, [] => (s.mem p).next = some .pending_list ∧ (s.mem .pending_list).prev = some p
  | p, a :: L =>
    (s.mem p).next = some (.ev a) ∧ (s.mem (.ev a)).prev = some p ∧ Linked s (.ev a) L

/-- The pending list holds exactly the records `L`, head first. -/
def Queue (s : State) (L : List Nat) : Prop := L.Nodup ∧ Linked s .pending_list L

/-- Whether the chain of links from `p` runs through `L` is decidable. -/
def Linked.decide (s : State) : (L : List Nat) → (p : Ptr) → Decidable (Linked s p L)
  | [], p =>
    inferInstanceAs (Decidable ((s.mem p).next = some .pending_list ∧
      (s.mem .pending_list).prev = some p))
  | a :: L, _ =>
    @instDecidableAnd _ _ inferInstance
      (@instDecidableAnd _ _ inferInstance (Linked.decide s L (.ev a)))

instance (s : State) (p : Ptr) (L : List Nat) : Decidable (Linked s p L) :=
  Linked.decide s L p

instance (s : State) (L : List Nat) : Decidable (Queue s L) := by
  unfold Queue; exact inferInstance

/-- The node a traversal of `L` starts at: its head, or the sentinel. -/
def headPtr : List Nat → Ptr
  | [] => .pending_list
  | a :: _ => .ev a

/-- The last node of the chain that starts at `p` and runs through `L`. -/
def lastPtr : Ptr → List Nat → Ptr
  | p, [] => p
  | _, a :: L => lastPtr (.ev a) L

/-- The test `rev != NULL && FD_ISSET(rev->fd, rfds)` on slot `i`. -/
def slotReady (s : State) (rfds : Finset Int) (i : Nat) : Bool :=
  match s.watch_table i with
  | some rev => FD_ISSET (s.mem (.ev rev)).fd rfds
  | none => false

/-- The slots at which the loop of `processReadReadyEvent` finds a match when
run for `k` iterations from index `i` with `n` matches expected. -/
def readySlots (s : State) (rfds : Finset Int) : Nat → Nat → Int → List Nat
  | 0, _, _ => []
  | k + 1, i, n =>
    if n > 0 then
      if slotReady s rfds i then i :: readySlots s rfds k (i + 1) (n - 1)
      else readySlots s rfds k (i + 1) n
    else []

/-- The log entry of an invocation of the callback of record `a`. -/
def firedOf (s : State) (a : Nat) : Fired :=
  { ev := a, func := (s.mem (.ev a)).func, fd := (s.mem (.ev a)).fd,
    param := (s.mem (.ev a)).param }

/-- The two states agree on every link field. -/
def LinksEq (s s1 : State) : Prop :=
  ∀ p, (s1.mem p).next = (s.mem p).next ∧ (s1.mem p).prev = (s.mem p).prev

/-- The two states agree on the fields of every record that no function of the
file assigns after `cnd_event_set`. -/
def DataEq (s s1 : State) : Prop :=
  ∀ p, (s1.mem p).fd = (s.mem p).fd ∧ (s1.mem p).persist = (s.mem p).persist ∧
    (s1.mem p).func = (s.mem p).func ∧ (s1.mem p).param = (s.mem p).param

/-- The two states differ at most in link fields. -/
def RegEq (s s1 : State) : Prop :=
  s1.watch_table = s.watch_table ∧ s1.readFds = s.readFds ∧ s1.nfds = s.nfds ∧
    s1.listMutex = s.listMutex ∧ s1.fired = s.fired ∧
    (∀ p, (s1.mem p).index = (s.mem p).index) ∧ DataEq s s1

/-- The interest set is exactly the set of descriptors of the records held in
`watch_table`, and no two of those records share a descriptor. -/
structure FdInv (MAX_FD_EVENTS : Nat) (s : State) : Prop where
  iff : ∀ d, d ∈ s.readFds ↔ Watched MAX_FD_EVENTS s d
  distinct : ∀ i j a b, i < MAX_FD_EVENTS → j < MAX_FD_EVENTS →
    s.watch_table i = some a → s.watch_table j = some b →
    (s.mem (.ev a)).fd = (s.mem (.ev b)).fd → a = b

instance (MAX_FD_EVENTS : Nat) (s : State) (ev : Nat) :
    Decidable (Unregistered MAX_FD_EVENTS s ev) :=
  Nat.decidableBallLT MAX_FD_EVENTS fun i _ => s.watch_table i ≠ some ev

instance (MAX_FD_EVENTS : Nat) (s : State) (ev : Nat) :
    Decidable (FreshFd MAX_FD_EVENTS s ev) :=
  decidable_of_iff
    (∀ i, i < MAX_FD_EVENTS → ∀ a, a ∈ s.watch_table i →
      (s.mem (.ev a)).fd ≠ (s.mem (.ev ev)).fd)
    ⟨fun h i a hi ha => h i hi a ha, fun h i hi a ha => h i a hi ha⟩

instance (MAX_FD_EVENTS : Nat) (s : State) (d : Int) :
    Decidable (Watched MAX_FD_EVENTS s d) :=
  decidable_of_iff
    (∃ i, i < MAX_FD_EVENTS ∧ ∃ a, a ∈ s.watch_table i ∧ (s.mem (.ev a)).fd = d)
    Iff.rfl

instance (r : cnd_event) : Decidable (Configured r) := by
  unfold Configured; exact inferInstance

/-- The two states have the same registry and the same record fields other
than links; the ghost log may differ. -/
def SameReg (s s1 : State) : Prop :=
  s1.watch_table = s.watch_table ∧ s1.readFds = s.readFds ∧ s1.nfds = s.nfds ∧
    s1.listMutex = s.listMutex ∧ (∀ p, (s1.mem p).index = (s.mem p).index) ∧ DataEq s s1

/-- What a run of the loop of `processReadReadyEvent` that matched the slots
`slots` has done to the registry: `s` is the state before, `s1` the state
after. -/
structure ScanPost (s s1 : State) (slots : List Nat) : Prop where
  data : DataEq s s1
  fired : s1.fired = s.fired
  mutex : s1.listMutex = s.listMutex
  keep : ∀ j, j ∉ slots → s1.watch_table j = s.watch_table j
  keepPersist : ∀ j a, s.watch_table j = some a → (s.mem (.ev a)).persist ≠ 0 →
    s1.watch_table j = some a
  drop : ∀ j a, j ∈ slots → s.watch_table j = some a → (s.mem (.ev a)).persist = 0 →
    s1.watch_table j = none ∧ (s1.mem (.ev a)).index = -1 ∧ (s.mem (.ev a)).fd ∉ s1.readFds
  sub : ∀ d, d ∈ s1.readFds → d ∈ s.readFds
  stay : ∀ d, d ∈ s.readFds →
    (∀ j a, j ∈ slots → s.watch_table j = some a → (s.mem (.ev a)).persist = 0 →
      (s.mem (.ev a)).fd ≠ d) → d ∈ s1.readFds
  index : ∀ a, (∀ j, j ∈ slots → s.watch_table j = some a → (s.mem (.ev a)).persist ≠ 0) →
    (s1.mem (.ev a)).index = (s.mem (.ev a)).index
  indexCases : ∀ a, (s1.mem (.ev a)).index = (s.mem (.ev a)).index ∨
    (s1.mem (.ev a)).index = -1

/-- No record occupies two slots of `watch_table`. -/
def SlotsDistinct (MAX_FD_EVENTS : Nat) (s : State) : Prop :=
  ∀ j j2 a, j < MAX_FD_EVENTS → j2 < MAX_FD_EVENTS → s.watch_table j = some a →
    s.watch_table j2 = some a → j = j2

instance (MAX_FD_EVENTS : Nat) (s : State) : Decidable (SlotsDistinct MAX_FD_EVENTS s) :=
  decidable_of_iff
    (∀ j, j < MAX_FD_EVENTS → ∀ j2, j2 < MAX_FD_EVENTS → ∀ a, a ∈ s.watch_table j →
      a ∈ s.watch_table j2 → j = j2)
    ⟨fun h j j2 a hj hj2 h1 h2 => h j hj j2 hj2 a h1 h2,
      fun h j hj j2 hj2 a h1 h2 => h j j2 a hj hj2 h1 h2⟩

/-- The pending list is empty: the sentinel is linked to itself. -/
def QueueEmpty (s : State) : Prop :=
  (s.mem .pending_list).next = some .pending_list ∧
    (s.mem .pending_list).prev = some .pending_list

instance (s : State) : Decidable (QueueEmpty s) := by
  unfold QueueEmpty; exact inferInstance

/-- The record `a` sits in slot `i`, is persistent, has its descriptor in the
interest set and shares it with no other record; valid indices point back at
their slot. -/
structure Stays (MAX_FD_EVENTS : Nat) (a i : Nat) (s : State) : Prop where
  back : ∀ b k, k < MAX_FD_EVENTS → (s.mem (.ev b)).index = (k : Int) →
    s.watch_table k = some b
  slot : s.watch_table i = some a
  fd : (s.mem (.ev a)).fd ∈ s.readFds
  persist : (s.mem (.ev a)).persist ≠ 0
  fresh : ∀ b, b ≠ a → (s.mem (.ev b)).fd ≠ (s.mem (.ev a)).fd

/-- The states reached from `s0` by a sequence of `cnd_event_add`,
`cnd_event_del` and `processReadReadyEvent` calls that return, each
`cnd_event_add s ev` made under the precondition `pre s ev`; a scan takes any
ready set `rfds` and any count `n`. -/
inductive Reach (MAX_FD_EVENTS : Nat) (pre : State → Nat → Prop) (s0 : State) :
    State → Prop where
  | start : Reach MAX_FD_EVENTS pre s0 s0
  | add {s s1 : State} (ev : Nat) : Reach MAX_FD_EVENTS pre s0 s → pre s ev →
      cnd_event_add MAX_FD_EVENTS s ev = .ok s1 → Reach MAX_FD_EVENTS pre s0 s1
  | del {s s1 : State} (ev : Nat) : Reach MAX_FD_EVENTS pre s0 s →
      cnd_event_del MAX_FD_EVENTS s ev = .ok s1 → Reach MAX_FD_EVENTS pre s0 s1
  | scan {s s1 : State} (rfds : Finset Int) (n : Int) : Reach MAX_FD_EVENTS pre s0 s →
      processReadReadyEvent MAX_FD_EVENTS rfds n s = .ok s1 → Reach MAX_FD_EVENTS pre s0 s1

/-- Every descriptor of the interest set is carried by a registered record, and
`nfds` exceeds the descriptor of every registered record. -/
structure NfdsInv (MAX_FD_EVENTS : Nat) (s : State) : Prop where
  sub : ∀ d, d ∈ s.readFds → Watched MAX_FD_EVENTS s d
  bound : ∀ i a, i < MAX_FD_EVENTS → s.watch_table i = some a →
    (s.mem (.ev a)).fd + 1 ≤ s.nfds

/-- Registered descriptors are non-negative; `nfds` is the descriptor of some
registered record plus one when a slot is occupied, and `0` or `1` when none
is. -/
structure NfdsTop (MAX_FD_EVENTS : Nat) (s : State) : Prop where
  nonneg : ∀ i a, i < MAX_FD_EVENTS → s.watch_table i = some a → 0 ≤ (s.mem (.ev a)).fd
  attained : ∀ i a, i < MAX_FD_EVENTS → s.watch_table i = some a →
    ∃ j b, j < MAX_FD_EVENTS ∧ s.watch_table j = some b ∧ s.nfds = (s.mem (.ev b)).fd + 1
  empty : (∀ i, i < MAX_FD_EVENTS → s.watch_table i = none) → s.nfds = 0 ∨ s.nfds = 1

/-- What one call `select(nfds, &rfds, NULL, NULL, NULL)` reports: the value `n`
it returns, the ready set it leaves in `rfds`, and the value of `errno`. -/
structure SelectResult where
  n : Int
  rfds : Finset Int
  errno : Int

/-- The value of `EINTR` in `errno.h`. -/
def EINTR : Int := 4

/-- The function `cnd_event_loop`.  The successive calls of `select` are
answered, in order, by the list `sel`, and `fuel` bounds each run of
`firePendingEvent`.  The loop `for (;;)` is left only by the `return` after a
failed `select`; when the answers run out the result is `Fault.outOfFuel`. -/
def cnd_event_loop (MAX_FD_EVENTS : Nat) (cb : Callbacks) (fuel : Nat) :
    List SelectResult → State → Except Fault State
  | [], _ => .error .outOfFuel
  | r :: sel, s =>
    if r.n < 0 then
      if r.errno = EINTR then cnd_event_loop MAX_FD_EVENTS cb fuel sel s
      else .ok s
    else
      match processReadReadyEvent MAX_FD_EVENTS r.rfds r.n s with
      | .error f => .error f
      | .ok s1 =>
        match firePendingEvent MAX_FD_EVENTS cb fuel s1 with
        | .error f => .error f
        | .ok s2 => cnd_event_loop MAX_FD_EVENTS cb fuel sel s2

/-- The reference scan that `processReadReadyEvent` is compared with: the loop
visits all `k` remaining slots, with no test on the count of matches; a slot
is handled as in `processReadReadyEvent_loop`. -/
def scanAllSlots_loop (MAX_FD_EVENTS : Nat) (rfds : Finset Int) :
    Nat → Nat → State → Except Fault State
  | 0, _, s => .ok s
  | k + 1, i, s =>
    match s.watch_table i with
    | some rev =>
      if FD_ISSET (s.mem (.ev rev)).fd rfds then
        match addToList s (.ev rev) .pending_list with
        | .error e => .error e
        | .ok s1 =>
          let s2 := if (s1.mem (.ev rev)).persist = 0 then removeWatch MAX_FD_EVENTS s1 rev i
                    else s1
          scanAllSlots_loop MAX_FD_EVENTS rfds k (i + 1) s2
      else scanAllSlots_loop MAX_FD_EVENTS rfds k (i + 1) s
    | none => scanAllSlots_loop MAX_FD_EVENTS rfds k (i + 1) s

/-- The reference scan of all `MAX_FD_EVENTS` slots without early exit, under
the mutex. -/
def scanAllSlots (MAX_FD_EVENTS : Nat) (rfds : Finset Int) (s : State) :
    Except Fault State :=
  match MUTEX_ACQUIRE s with
  | .error e => .error e
  | .ok s1 =>
    match scanAllSlots_loop MAX_FD_EVENTS rfds MAX_FD_EVENTS 0 s1 with
    | .error e => .error e
    | .ok s2 => .ok (MUTEX_RELEASE s2)

/-- Appends the records of the list to the pending list, in order, each with
`addToList(ev, &pending_list)`. -/
def addAllToList : List Nat → State → Except Fault State
  | [], s => .ok s
  | a :: L, s =>
    match addToList s (.ev a) .pending_list with
    | .error f => .error f
    | .ok s1 => addAllToList L s1

/-! ## Concrete records used in examples -/

/-- Records that all carry descriptor 5: record `a` is one-shot when `a` is
even (so record 0 is one-shot and record 1 persistent), with callback `a`. -/
def sameFdMem : Nat → cnd_event := fun a =>
  { next := none, prev := none, fd := 5, index := -1, persist := (a % 2 : Nat), func := a,
    param := 0 }

/-- Records with pairwise distinct descriptors: record `a` has descriptor
`9 - 2 * a` when `a ≤ 3` (records 0, 1, 2, 3 carry 9, 7, 5, 3) and `10 + a`
otherwise; it is one-shot when `a` is odd, and has callback `a`. -/
def distinctFdMem : Nat → cnd_event := fun a =>
  { next := none, prev := none, fd := if a ≤ 3 then 9 - 2 * (a : Int) else 10 + (a : Int),
    index := -1, persist := ((a + 1) % 2 : Nat), func := a, param := 0 }

/-- Callbacks that make no registry call. -/
def idleCallbacks : Callbacks := fun _ _ _ _ => []

/-- Callbacks for examples: the callback of record 0 registers record 3, the
callback of record 1 registers record 1 again, the others make no call. -/
def busyCallbacks : Callbacks := fun f _ _ _ =>
  if f = 0 then [.add 3] else if f = 1 then [.add 1] else []

/-- The state a call returned, or `d` when it did not return. -/
def stateOf (r : Except Fault State) (d : State) : State :=
  match r with
  | .ok s => s
  | .error _ => d

/-- Example with `MAX_FD_EVENTS = 8`: records 0 (descriptor 9, persistent) and
1 (descriptor 7, one-shot) registered on the initial registry, in slots 0
and 1. -/
def twoRegistered : State :=
  stateOf (runActions 8 [.add 0, .add 1] (initState distinctFdMem)) (initState distinctFdMem)

/-- The state `twoRegistered` after the cycle in which descriptors 7 and 9 are
ready (`n = 2`), with the callbacks `busyCallbacks`. -/
def twoRegisteredFired : State :=
  stateOf (dispatchCycle 8 busyCallbacks 8 {7, 9} 2 twoRegistered) twoRegistered

/-- Example with `MAX_FD_EVENTS = 8`: after six registrations and four
deregistrations, slot 2 holds record 0 (descriptor 9) and slot 5 holds record 3
(descriptor 3); the other slots are empty. -/
def slotsTwoAndFive : State :=
  stateOf
    (runActions 8
      [.add 4, .add 5, .add 0, .add 6, .add 7, .add 3, .del 4, .del 5, .del 6, .del 7]
      (initState distinctFdMem))
    (initState distinctFdMem)

/-- The state `slotsTwoAndFive` after the cycle in which descriptors 3 and 9
are ready (`n = 2`), with callbacks that make no registry call. -/
def slotsTwoAndFiveFired : State :=
  stateOf (dispatchCycle 8 idleCallbacks 8 {3, 9} 2 slotsTwoAndFive) slotsTwoAndFive

/-- Callbacks for the example of a deregistration in mid-fire: the callback
of record 0 calls `cnd_event_del` on record `b`, the others make no call. -/
def delCallbacks (b : Nat) : Callbacks := fun f _ _ _ => if f = 0 then [.del b] else []

/-- Example with `MAX_FD_EVENTS = 8`: records 0, 1 and 2 (descriptors 9, 7, 5;
record 1 one-shot, records 0 and 2 persistent) registered on the initial
registry, in slots 0, 1 and 2. -/
def threeRegistered : State :=
  stateOf (runActions 8 [.add 0, .add 1, .add 2] (initState distinctFdMem))
    (initState distinctFdMem)

/-- The state `threeRegistered` after the scan in which descriptors 5, 7 and 9
are ready (`n = 3`). -/
def threeRegisteredScanned : State :=
  stateOf (processReadReadyEvent 8 {5, 7, 9} 3 threeRegistered) threeRegistered

/-- Registration of the record `b` is consistent: valid indices point back at
their slot, a slot holding `b` is the one `b` has as index, and the index of
`b` is `-1` or a slot number. -/
structure RegOf (MAX_FD_EVENTS : Nat) (b : Nat) (s : State) : Prop where
  back : ∀ c k, k < MAX_FD_EVENTS → (s.mem (.ev c)).index = (k : Int) →
    s.watch_table k = some c
  slot : ∀ k, k < MAX_FD_EVENTS → s.watch_table k = some b →
    (s.mem (.ev b)).index = (k : Int)
  range : (s.mem (.ev b)).index = -1 ∨
    (0 ≤ (s.mem (.ev b)).index ∧ (s.mem (.ev b)).index < MAX_FD_EVENTS)

/-- Callbacks for examples: the callback of record 0 calls `cnd_event_del` on
record 2 and the callback of record 2 registers record 2 again. -/
def rearmCallbacks : Callbacks := fun f _ _ _ =>
  if f = 0 then [.del 2] else if f = 2 then [.add 2] else []

/-- The state `threeRegistered` after the cycle in which descriptors 5 and 9
are ready (`n = 2`), with the callbacks `rearmCallbacks`. -/
def threeRegisteredRearmed : State :=
  stateOf (dispatchCycle 8 rearmCallbacks 8 {5, 9} 2 threeRegistered) threeRegistered

/-- The state `threeRegistered` after the cycle in which descriptors 5, 7 and 9
are ready (`n = 3`) and the callback of record 0 calls `cnd_event_del` on the
one-shot record 1. -/
def threeRegisteredDelOne : State :=
  stateOf (dispatchCycle 8 (delCallbacks 1) 8 {5, 7, 9} 3 threeRegistered) threeRegistered

/-- The state `threeRegistered` after the cycle in which descriptors 5, 7 and 9
are ready (`n = 3`) and the callback of record 0 calls `cnd_event_del` on the
persistent record 2. -/
def threeRegisteredDelTwo : State :=
  stateOf (dispatchCycle 8 (delCallbacks 2) 8 {5, 7, 9} 3 threeRegistered) threeRegistered

/-- Example with `MAX_FD_EVENTS = 8`: records 0 (one-shot) and 1 (persistent),
both with descriptor 5, registered on the initial registry in slots 0 and 1. -/
def sharedFdRegistered : State :=
  stateOf (runActions 8 [.add 0, .add 1] (initState sameFdMem)) (initState sameFdMem)

/-- The state `sharedFdRegistered` after `processReadReadyEvent` with ready
set `{5}` and `n = 1`. -/
def sharedFdScanned : State :=
  stateOf (processReadReadyEvent 8 {5} 1 sharedFdRegistered) sharedFdRegistered

/-- The state `sharedFdRegistered` after the scan of all slots with ready set
`{5}`. -/
def sharedFdScannedAll : State :=
  stateOf (scanAllSlots 8 {5} sharedFdRegistered) sharedFdRegistered

/-- Example with `MAX_FD_EVENTS = 8`: record 0 (descriptor 9) registered on the
initial registry. -/
def oneRegistered : State :=
  stateOf (cnd_event_add 8 (initState distinctFdMem) 0) (initState distinctFdMem)

/-- The state `oneRegistered` after `cnd_event_del` on record 0. -/
def lastRemoved : State := stateOf (cnd_event_del 8 oneRegistered 0) oneRegistered

/-- The state `threeRegistered` after `cnd_event_del` on record 0: records 1
and 2 (descriptors 7 and 5) stay registered. -/
def threeRegisteredLessZero : State :=
  stateOf (cnd_event_del 8 threeRegistered 0) threeRegistered

/-! ## The mutex -/

theorem MUTEX_ACQUIRE_free {s : State} (hm : s.listMutex = false) :
    MUTEX_ACQUIRE s = .ok { s with listMutex := true } := by
  simp [MUTEX_ACQUIRE, hm]

theorem MUTEX_ACQUIRE_held {s : State} (hm : s.listMutex = true) :
    MUTEX_ACQUIRE s = .error .deadlock := by
  simp [MUTEX_ACQUIRE, hm]

theorem State.unlock_eq (s : State) (hm : s.listMutex = false) :
    ({ s with listMutex := false } : State) = s := by
  cases s; simp_all

/-! ## removeWatch, field by field -/

@[simp] theorem removeWatch_watch_table (MAX : Nat) (s : State) (ev i : Nat) :
    (removeWatch MAX s ev i).watch_table = Function.update s.watch_table i none := by
  unfold removeWatch; simp only [setIndex]; split <;> rfl

@[simp] theorem removeWatch_readFds (MAX : Nat) (s : State) (ev i : Nat) :
    (removeWatch MAX s ev i).readFds = s.readFds.erase (s.mem (.ev ev)).fd := by
  unfold removeWatch; simp only [setIndex, FD_CLR]; split <;> simp

@[simp] theorem removeWatch_mem (MAX : Nat) (s : State) (ev i : Nat) :
    (removeWatch MAX s ev i).mem =
      Function.update s.mem (.ev ev) { s.mem (.ev ev) with index := -1 } := by
  unfold removeWatch; simp only [setIndex]; split <;> rfl

@[simp] theorem removeWatch_listMutex (MAX : Nat) (s : State) (ev i : Nat) :
    (removeWatch MAX s ev i).listMutex = s.listMutex := by
  unfold removeWatch; simp only [setIndex]; split <;> rfl

@[simp] theorem removeWatch_fired (MAX : Nat) (s : State) (ev i : Nat) :
    (removeWatch MAX s ev i).fired = s.fired := by
  unfold removeWatch; simp only [setIndex]; split <;> rfl

theorem removeWatch_nfds_ne (MAX : Nat) (s : State) (ev i : Nat)
    (h : (s.mem (.ev ev)).fd + 1 ≠ s.nfds) : (removeWatch MAX s ev i).nfds = s.nfds := by
  unfold removeWatch; simp only [setIndex]; split
  · rename_i h1; simp at h1; exact absurd h1 h
  · rfl

/-! ## cnd_event_del, branch by branch -/

theorem cnd_event_del_valid_eq (MAX : Nat) (s : State) (ev : Nat)
    (hm : s.listMutex = false)
    (h0 : 0 ≤ (s.mem (.ev ev)).index) (h1 : (s.mem (.ev ev)).index < MAX) :
    cnd_event_del MAX s ev = .ok (MUTEX_RELEASE
      (removeWatch MAX { s with listMutex := true } ev (s.mem (.ev ev)).index.toNat)) := by
  have hg : ¬ ((s.mem (.ev ev)).index < 0 ∨ (s.mem (.ev ev)).index ≥ MAX) := by omega
  simp only [cnd_event_del, MUTEX_ACQUIRE_free hm]
  rw [if_neg hg]

theorem cnd_event_del_invalid_eq (MAX : Nat) (s : State) (ev : Nat)
    (hm : s.listMutex = false)
    (h : (s.mem (.ev ev)).index < 0 ∨ (s.mem (.ev ev)).index ≥ MAX) :
    cnd_event_del MAX s ev = .ok { s with listMutex := true } := by
  simp only [cnd_event_del, MUTEX_ACQUIRE_free hm]
  rw [if_pos h]

theorem cnd_event_del_ok_free {MAX : Nat} {s s1 : State} {ev : Nat}
    (h : cnd_event_del MAX s ev = .ok s1) : s.listMutex = false := by
  cases hm : s.listMutex
  · rfl
  · simp [cnd_event_del, MUTEX_ACQUIRE_held hm] at h

theorem cnd_event_add_ok_free {MAX : Nat} {s s1 : State} {ev : Nat}
    (h : cnd_event_add MAX s ev = .ok s1) : s.listMutex = false := by
  cases hm : s.listMutex
  · rfl
  · simp [cnd_event_add, MUTEX_ACQUIRE_held hm] at h

/-! ## cnd_event_add: the slot it takes -/

/-- The body of the loop of `cnd_event_add` at a free slot. -/
theorem cnd_event_add_loop_cases (ev : Nat) : ∀ (k i : Nat) (s : State),
    (∃ j, i ≤ j ∧ j < i + k ∧ s.watch_table j = none ∧
        (∀ l, i ≤ l → l < j → s.watch_table l ≠ none) ∧
        MUTEX_RELEASE (cnd_event_add_loop ev k i s) = addAt s ev j) ∨
      ((∀ l, i ≤ l → l < i + k → s.watch_table l ≠ none) ∧
        cnd_event_add_loop ev k i s = s) := by
  intro k
  induction k with
  | zero =>
    intro i s
    right
    exact ⟨fun l h1 h2 => by omega, rfl⟩
  | succ k ih =>
    intro i s
    cases hi : s.watch_table i with
    | none =>
      left
      refine ⟨i, le_refl _, by omega, hi, fun l h1 h2 => by omega, ?_⟩
      by_cases hc : (s.mem (.ev ev)).fd ≥ s.nfds
      · simp [cnd_event_add_loop, hi, setIndex, FD_SET, MUTEX_RELEASE, addAt, hc]
      · simp [cnd_event_add_loop, hi, setIndex, FD_SET, MUTEX_RELEASE, addAt, hc]
    | some a =>
      have hstep : cnd_event_add_loop ev (k + 1) i s = cnd_event_add_loop ev k (i + 1) s := by
        simp only [cnd_event_add_loop, hi]
      rcases ih (i + 1) s with ⟨j, h1, h2, h3, h4, h5⟩ | ⟨h1, h2⟩
      · left
        refine ⟨j, by omega, by omega, h3, ?_, by rw [hstep]; exact h5⟩
        intro l hl1 hl2
        rcases Nat.eq_or_lt_of_le hl1 with h | h
        · subst h; simp [hi]
        · exact h4 l h hl2
      · right
        refine ⟨?_, by rw [hstep]; exact h2⟩
        intro l hl1 hl2
        rcases Nat.eq_or_lt_of_le hl1 with h | h
        · subst h; simp [hi]
        · exact h1 l h (by omega)

theorem cnd_event_add_cases (MAX : Nat) (s : State) (ev : Nat) (hm : s.listMutex = false) :
    (∃ j, j < MAX ∧ s.watch_table j = none ∧ (∀ l, l < j → s.watch_table l ≠ none) ∧
        cnd_event_add MAX s ev = .ok (addAt s ev j)) ∨
      ((∀ l, l < MAX → s.watch_table l ≠ none) ∧ cnd_event_add MAX s ev = .ok s) := by
  have hadd : cnd_event_add MAX s ev =
      .ok (MUTEX_RELEASE (cnd_event_add_loop ev MAX 0 { s with listMutex := true })) := by
    simp only [cnd_event_add, MUTEX_ACQUIRE_free hm]
  rcases cnd_event_add_loop_cases ev MAX 0 { s with listMutex := true } with
    ⟨j, _, h2, h3, h4, h5⟩ | ⟨h1, h2⟩
  · left
    refine ⟨j, by omega, h3, fun l hl => h4 l (Nat.zero_le _) hl, ?_⟩
    rw [hadd, h5]
    rfl
  · right
    refine ⟨fun l hl => h1 l (Nat.zero_le _) (by omega), ?_⟩
    rw [hadd, h2]
    simp only [MUTEX_RELEASE]
    rw [State.unlock_eq s hm]

/-! ## Sequencing of registry calls -/

theorem runActions_append (MAX : Nat) : ∀ (l1 l2 : List Action) (s : State),
    runActions MAX (l1 ++ l2) s =
      match runActions MAX l1 s with
      | .error f => .error f
      | .ok s1 => runActions MAX l2 s1 := by
  intro l1
  induction l1 with
  | nil => intro l2 s; rfl
  | cons x l1 ih =>
    intro l2 s
    cases x with
    | add e =>
      simp only [List.cons_append, runActions]
      cases cnd_event_add MAX s e with
      | error f => rfl
      | ok s1 => exact ih l2 s1
    | del e =>
      simp only [List.cons_append, runActions]
      cases cnd_event_del MAX s e with
      | error f => rfl
      | ok s1 => exact ih l2 s1

/-- After the first `m` of the calls `cnd_event_add` on the distinct records
`evs`, made on a registry whose slots were all empty, record number `k < m`
sits in slot `k`, the slots from `m` on are empty and no other record changed. -/
theorem add_prefix_fills (MAX : Nat) (s : State) (evs : List Nat)
    (hempty : ∀ i, i < MAX → s.watch_table i = none) (hm : s.listMutex = false)
    (hlen : evs.length = MAX) (hnd : evs.Nodup) :
    ∀ m, m ≤ MAX → ∃ sm, runActions MAX ((evs.take m).map Action.add) s = .ok sm ∧
      sm.listMutex = false ∧
      (∀ k e, k < m → evs[k]? = some e →
        (sm.mem (.ev e)).index = (k : Int) ∧ sm.watch_table k = some e) ∧
      (∀ i, m ≤ i → i < MAX → sm.watch_table i = none) ∧
      (∀ a, a ∉ evs → sm.mem (.ev a) = s.mem (.ev a)) := by
  intro m
  induction m with
  | zero =>
    intro _
    exact ⟨s, rfl, hm, fun k e hk => by omega, fun i _ hi => hempty i hi, fun a _ => rfl⟩
  | succ m ih =>
    intro hle
    obtain ⟨sm, hrun, hfree, hfill, hrest, hother⟩ := ih (by omega)
    have hmlt : m < evs.length := by omega
    have htake : evs.take (m + 1) = evs.take m ++ [evs[m]] := by
      rw [List.take_succ, List.getElem?_eq_getElem hmlt]; rfl
    have hslot : sm.watch_table m = none := hrest m (le_refl _) (by omega)
    rcases cnd_event_add_cases MAX sm evs[m] hfree with ⟨j, hj, hjn, hjmin, hadd⟩ | ⟨hfull, _⟩
    · have hjm : j = m := by
        rcases Nat.lt_trichotomy j m with h | h | h
        · have := (hfill j evs[j] h (List.getElem?_eq_getElem (by omega))).2
          rw [hjn] at this; cases this
        · exact h
        · exact absurd hslot (hjmin m h)
      subst hjm
      refine ⟨addAt sm evs[j] j, ?_, rfl, ?_, ?_, ?_⟩
      · rw [htake, List.map_append, runActions_append, hrun]
        simp only [List.map_cons, List.map_nil, runActions, hadd]
      · intro k e hk hke
        rcases Nat.lt_succ_iff_lt_or_eq.mp hk with h | h
        · obtain ⟨h1, h2⟩ := hfill k e h hke
          have hne : e ≠ evs[j] := by
            intro heq
            have hk' : k < evs.length := by omega
            have : evs[k] = evs[j] := by
              rw [List.getElem?_eq_getElem hk'] at hke
              cases hke; exact heq
            have := (List.Nodup.getElem_inj_iff hnd).mp this
            omega
          have hne' : Ptr.ev e ≠ Ptr.ev evs[j] := fun h => hne (Ptr.ev.inj h)
          simp only [addAt, Function.update_noteq hne', Function.update_noteq (Nat.ne_of_lt h)]
          exact ⟨h1, h2⟩
        · subst h
          rw [List.getElem?_eq_getElem hmlt] at hke
          cases hke
          simp [addAt]
      · intro i hi1 hi2
        have hne : i ≠ j := by omega
        simp only [addAt, Function.update_noteq hne]
        exact hrest i (by omega) hi2
      · intro a ha
        have hne : a ≠ evs[j] := fun h => ha (h ▸ List.getElem_mem _)
        have hne' : Ptr.ev a ≠ Ptr.ev evs[j] := fun h => hne (Ptr.ev.inj h)
        simp only [addAt, Function.update_noteq hne']
        exact hother a ha
    · exact absurd hslot (hfull m (by omega))

/-! ## The correspondence between slots and records -/

theorem initState_watch_table (mem0 : Nat → cnd_event) (i : Nat) :
    (initState mem0).watch_table i = none := rfl

theorem initState_mem_ev (mem0 : Nat → cnd_event) (a : Nat) :
    (initState mem0).mem (.ev a) = mem0 a := rfl

theorem initState_readFds (mem0 : Nat → cnd_event) : (initState mem0).readFds = ∅ := rfl

theorem initState_listMutex (mem0 : Nat → cnd_event) : (initState mem0).listMutex = false := rfl

theorem initState_RegInv (MAX : Nat) (mem0 : Nat → cnd_event)
    (hcfg : ∀ a, Configured (mem0 a)) : RegInv MAX (initState mem0) := by
  refine ⟨?_, ?_, ?_⟩
  · intro a i _ h
    rw [initState_mem_ev, (hcfg a).2.2] at h
    omega
  · intro i a _ h
    rw [initState_watch_table] at h
    cases h
  · intro a
    left
    rw [initState_mem_ev]
    exact (hcfg a).2.2

theorem initState_FdInv (MAX : Nat) (mem0 : Nat → cnd_event) : FdInv MAX (initState mem0) := by
  refine ⟨?_, ?_⟩
  · intro d
    rw [initState_readFds]
    constructor
    · intro h; simp at h
    · rintro ⟨i, _, a, h, _⟩
      rw [initState_watch_table] at h
      cases h
  · intro i j a b _ _ h
    rw [initState_watch_table] at h
    cases h

theorem RegInv_lock {MAX : Nat} {s : State} (b : Bool) (h : RegInv MAX s) :
    RegInv MAX { s with listMutex := b } := ⟨h.back, h.slot, h.range⟩

theorem FdInv_lock {MAX : Nat} {s : State} (b : Bool) (h : FdInv MAX s) :
    FdInv MAX { s with listMutex := b } := ⟨h.iff, h.distinct⟩

theorem RegInv_addAt {MAX : Nat} {s : State} {ev j : Nat} (h : RegInv MAX s)
    (hj : j < MAX) (hfree : s.watch_table j = none) (hun : Unregistered MAX s ev) :
    RegInv MAX (addAt s ev j) := by
  refine ⟨?_, ?_, ?_⟩
  · intro a i hi hidx
    by_cases ha : a = ev
    · subst ha
      simp [addAt] at hidx
      subst hidx
      simp [addAt]
    · have hne : Ptr.ev a ≠ Ptr.ev ev := fun h => ha (Ptr.ev.inj h)
      simp only [addAt, Function.update_noteq hne] at hidx
      have := h.back a i hi hidx
      have hij : i ≠ j := by intro e; subst e; rw [hfree] at this; cases this
      simp only [addAt, Function.update_noteq hij]
      exact this
  · intro i a hi htab
    by_cases hij : i = j
    · subst hij
      simp [addAt] at htab
      subst htab
      simp [addAt]
    · simp only [addAt, Function.update_noteq hij] at htab
      have ha : a ≠ ev := by intro e; subst e; exact hun i hi htab
      have hne : Ptr.ev a ≠ Ptr.ev ev := fun h => ha (Ptr.ev.inj h)
      simp only [addAt, Function.update_noteq hne]
      exact h.slot i a hi htab
  · intro a
    by_cases ha : a = ev
    · subst ha
      right
      simp [addAt]
      exact_mod_cast hj
    · have hne : Ptr.ev a ≠ Ptr.ev ev := fun h => ha (Ptr.ev.inj h)
      simp only [addAt, Function.update_noteq hne]
      exact h.range a

theorem addAt_fd (s : State) (ev j a : Nat) :
    ((addAt s ev j).mem (.ev a)).fd = (s.mem (.ev a)).fd := by
  by_cases ha : a = ev
  · subst ha; simp [addAt]
  · have hne : Ptr.ev a ≠ Ptr.ev ev := fun h => ha (Ptr.ev.inj h)
    simp only [addAt, Function.update_noteq hne]

theorem FdInv_addAt {MAX : Nat} {s : State} {ev j : Nat} (h : FdInv MAX s)
    (hj : j < MAX) (hfree : s.watch_table j = none) (hfresh : FreshFd MAX s ev) :
    FdInv MAX (addAt s ev j) := by
  have htab : ∀ i, i ≠ j → (addAt s ev j).watch_table i = s.watch_table i := by
    intro i hi; simp only [addAt, Function.update_noteq hi]
  have htabj : (addAt s ev j).watch_table j = some ev := by simp [addAt]
  refine ⟨?_, ?_⟩
  · intro d
    have hrd : (addAt s ev j).readFds = insert (s.mem (.ev ev)).fd s.readFds := rfl
    rw [hrd, Finset.mem_insert]
    constructor
    · rintro (hd | hd)
      · exact ⟨j, hj, ev, htabj, by rw [addAt_fd, hd]⟩
      · obtain ⟨i, hi, a, hia, hfd⟩ := (h.iff d).mp hd
        have hij : i ≠ j := by intro e; subst e; rw [hfree] at hia; cases hia
        exact ⟨i, hi, a, by rw [htab i hij]; exact hia, by rw [addAt_fd]; exact hfd⟩
    · rintro ⟨i, hi, a, hia, hfd⟩
      rw [addAt_fd] at hfd
      by_cases hij : i = j
      · subst hij
        rw [htabj] at hia
        cases hia
        exact Or.inl hfd.symm
      · rw [htab i hij] at hia
        exact Or.inr ((h.iff d).mpr ⟨i, hi, a, hia, hfd⟩)
  · intro i i' a b hi hi' hia hib hfd
    rw [addAt_fd, addAt_fd] at hfd
    by_cases hij : i = j
    · subst hij
      rw [htabj] at hia
      cases hia
      by_cases hij' : i' = i
      · subst hij'
        rw [htabj] at hib
        cases hib
        rfl
      · rw [htab i' hij'] at hib
        exact absurd hfd.symm (hfresh i' b hi' hib)
    · rw [htab i hij] at hia
      by_cases hij' : i' = j
      · subst hij'
        rw [htabj] at hib
        cases hib
        exact absurd hfd (hfresh i a hi hia)
      · rw [htab i' hij'] at hib
        exact h.distinct i i' a b hi hi' hia hib hfd

theorem removeWatch_mem_fd (MAX : Nat) (s : State) (ev i : Nat) (p : Ptr) :
    ((removeWatch MAX s ev i).mem p).fd = (s.mem p).fd := by
  rw [removeWatch_mem]
  by_cases hp : p = .ev ev
  · subst hp; simp
  · simp only [Function.update_noteq hp]

theorem removeWatch_mem_index_self (MAX : Nat) (s : State) (ev i : Nat) :
    ((removeWatch MAX s ev i).mem (.ev ev)).index = -1 := by
  rw [removeWatch_mem]; simp

theorem removeWatch_mem_other (MAX : Nat) (s : State) (ev i : Nat) (p : Ptr)
    (hp : p ≠ .ev ev) : (removeWatch MAX s ev i).mem p = s.mem p := by
  rw [removeWatch_mem, Function.update_noteq hp]

theorem RegInv_removeWatch {MAX : Nat} {s : State} {ev i : Nat} (h : RegInv MAX s)
    (hi : i < MAX) (htab : s.watch_table i = some ev) :
    RegInv MAX (removeWatch MAX s ev i) := by
  refine ⟨?_, ?_, ?_⟩
  · intro a k hk hidx
    by_cases ha : a = ev
    · subst ha
      rw [removeWatch_mem_index_self] at hidx
      omega
    · have hne : Ptr.ev a ≠ Ptr.ev ev := fun h => ha (Ptr.ev.inj h)
      rw [removeWatch_mem_other _ _ _ _ _ hne] at hidx
      have hka := h.back a k hk hidx
      have hki : k ≠ i := by
        intro e; subst e; rw [htab] at hka; exact ha (Option.some.inj hka).symm
      rw [removeWatch_watch_table, Function.update_noteq hki]
      exact hka
  · intro k a hk hka
    rw [removeWatch_watch_table] at hka
    by_cases hki : k = i
    · subst hki; simp at hka
    · rw [Function.update_noteq hki] at hka
      have ha : a ≠ ev := by
        intro e; subst e
        have h1 := h.slot k a hk hka
        have h2 := h.slot i a hi htab
        rw [h1] at h2
        exact hki (by exact_mod_cast h2)
      have hne : Ptr.ev a ≠ Ptr.ev ev := fun h => ha (Ptr.ev.inj h)
      rw [removeWatch_mem_other _ _ _ _ _ hne]
      exact h.slot k a hk hka
  · intro a
    by_cases ha : a = ev
    · subst ha
      left
      exact removeWatch_mem_index_self _ _ _ _
    · have hne : Ptr.ev a ≠ Ptr.ev ev := fun h => ha (Ptr.ev.inj h)
      rw [removeWatch_mem_other _ _ _ _ _ hne]
      exact h.range a

theorem FdInv_removeWatch {MAX : Nat} {s : State} {ev i : Nat} (h : FdInv MAX s)
    (hi : i < MAX) (htab : s.watch_table i = some ev)
    (hinj : ∀ k, k < MAX → s.watch_table k = some ev → k = i) :
    FdInv MAX (removeWatch MAX s ev i) := by
  have htab1 : ∀ k, k ≠ i → (removeWatch MAX s ev i).watch_table k = s.watch_table k := by
    intro k hk; rw [removeWatch_watch_table, Function.update_noteq hk]
  have htabi : (removeWatch MAX s ev i).watch_table i = none := by
    rw [removeWatch_watch_table]; simp
  refine ⟨?_, ?_⟩
  · intro d
    rw [removeWatch_readFds, Finset.mem_erase]
    constructor
    · rintro ⟨hd, hmem⟩
      obtain ⟨k, hk, a, hka, hfd⟩ := (h.iff d).mp hmem
      have hki : k ≠ i := by
        intro e; subst e; rw [htab] at hka; cases hka; exact hd hfd.symm
      exact ⟨k, hk, a, by rw [htab1 k hki]; exact hka, by rw [removeWatch_mem_fd]; exact hfd⟩
    · rintro ⟨k, hk, a, hka, hfd⟩
      rw [removeWatch_mem_fd] at hfd
      have hki : k ≠ i := by intro e; subst e; rw [htabi] at hka; cases hka
      rw [htab1 k hki] at hka
      refine ⟨?_, (h.iff d).mpr ⟨k, hk, a, hka, hfd⟩⟩
      intro hd
      have hae : a = ev := h.distinct k i a ev hk hi hka htab (by rw [hfd, hd])
      subst hae
      exact hki (hinj k hk hka)
  · intro k k' a b hk hk' hka hkb hfd
    rw [removeWatch_mem_fd, removeWatch_mem_fd] at hfd
    have hki : k ≠ i := by intro e; subst e; rw [htabi] at hka; cases hka
    have hki' : k' ≠ i := by intro e; subst e; rw [htabi] at hkb; cases hkb
    rw [htab1 k hki] at hka
    rw [htab1 k' hki'] at hkb
    exact h.distinct k k' a b hk hk' hka hkb hfd

theorem RegInv.inj {MAX : Nat} {s : State} (h : RegInv MAX s) {i k a : Nat}
    (hi : i < MAX) (hk : k < MAX) (hia : s.watch_table i = some a)
    (hka : s.watch_table k = some a) : k = i := by
  have h1 := h.slot i a hi hia
  have h2 := h.slot k a hk hka
  rw [h1] at h2
  exact_mod_cast h2.symm

theorem RegInv_release {MAX : Nat} {s : State} (h : RegInv MAX s) :
    RegInv MAX (MUTEX_RELEASE s) := ⟨h.back, h.slot, h.range⟩

theorem FdInv_release {MAX : Nat} {s : State} (h : FdInv MAX s) :
    FdInv MAX (MUTEX_RELEASE s) := ⟨h.iff, h.distinct⟩

theorem cnd_event_add_RegInv {MAX : Nat} {s s1 : State} {ev : Nat} (h : RegInv MAX s)
    (hun : Unregistered MAX s ev) (hadd : cnd_event_add MAX s ev = .ok s1) :
    RegInv MAX s1 := by
  rcases cnd_event_add_cases MAX s ev (cnd_event_add_ok_free hadd) with
    ⟨j, hj, hfree, _, heq⟩ | ⟨_, heq⟩
  · rw [heq] at hadd
    cases hadd
    exact RegInv_addAt h hj hfree hun
  · rw [heq] at hadd
    cases hadd
    exact h

theorem cnd_event_add_FdInv {MAX : Nat} {s s1 : State} {ev : Nat} (h : FdInv MAX s)
    (hfresh : FreshFd MAX s ev) (hadd : cnd_event_add MAX s ev = .ok s1) :
    FdInv MAX s1 := by
  rcases cnd_event_add_cases MAX s ev (cnd_event_add_ok_free hadd) with
    ⟨j, hj, hfree, _, heq⟩ | ⟨_, heq⟩
  · rw [heq] at hadd
    cases hadd
    exact FdInv_addAt h hj hfree hfresh
  · rw [heq] at hadd
    cases hadd
    exact h

theorem cnd_event_del_cases (MAX : Nat) (s : State) (ev : Nat) (hm : s.listMutex = false) :
    (∃ i : Nat, i < MAX ∧ (s.mem (.ev ev)).index = (i : Int) ∧
        cnd_event_del MAX s ev =
          .ok (MUTEX_RELEASE (removeWatch MAX { s with listMutex := true } ev i))) ∨
      (((s.mem (.ev ev)).index < 0 ∨ (s.mem (.ev ev)).index ≥ MAX) ∧
        cnd_event_del MAX s ev = .ok { s with listMutex := true }) := by
  by_cases hg : (s.mem (.ev ev)).index < 0 ∨ (s.mem (.ev ev)).index ≥ MAX
  · exact Or.inr ⟨hg, cnd_event_del_invalid_eq MAX s ev hm hg⟩
  · left
    have h0 : 0 ≤ (s.mem (.ev ev)).index := by omega
    have h1 : (s.mem (.ev ev)).index < MAX := by omega
    refine ⟨(s.mem (.ev ev)).index.toNat, by omega, by omega, ?_⟩
    exact cnd_event_del_valid_eq MAX s ev hm h0 h1

theorem cnd_event_del_RegInv {MAX : Nat} {s s1 : State} {ev : Nat} (h : RegInv MAX s)
    (hdel : cnd_event_del MAX s ev = .ok s1) : RegInv MAX s1 := by
  rcases cnd_event_del_cases MAX s ev (cnd_event_del_ok_free hdel) with
    ⟨i, hi, hidx, heq⟩ | ⟨_, heq⟩
  · rw [heq] at hdel
    cases hdel
    exact RegInv_release (RegInv_removeWatch (RegInv_lock true h) hi (h.back ev i hi hidx))
  · rw [heq] at hdel
    cases hdel
    exact RegInv_lock true h

theorem cnd_event_del_FdInv {MAX : Nat} {s s1 : State} {ev : Nat} (h : FdInv MAX s)
    (hr : RegInv MAX s) (hdel : cnd_event_del MAX s ev = .ok s1) : FdInv MAX s1 := by
  rcases cnd_event_del_cases MAX s ev (cnd_event_del_ok_free hdel) with
    ⟨i, hi, hidx, heq⟩ | ⟨_, heq⟩
  · rw [heq] at hdel
    cases hdel
    have htab := hr.back ev i hi hidx
    exact FdInv_release (FdInv_removeWatch (FdInv_lock true h) hi htab
      (fun k hk hka => hr.inj hi hk htab hka))
  · rw [heq] at hdel
    cases hdel
    exact FdInv_lock true h

/-- Along any sequence of `cnd_event_add` calls on unregistered records with a
descriptor no registered record carries, and `cnd_event_del` calls, slots and
records stay in correspondence and the interest set stays exact. -/
theorem RegSeq_fresh_inv (MAX : Nat) (mem0 : Nat → cnd_event)
    (hcfg : ∀ a, Configured (mem0 a)) (s : State)
    (h : RegSeq MAX (fun s ev => Unregistered MAX s ev ∧ FreshFd MAX s ev) (initState mem0) s) :
    RegInv MAX s ∧ FdInv MAX s := by
  induction h with
  | start => exact ⟨initState_RegInv MAX mem0 hcfg, initState_FdInv MAX mem0⟩
  | add ev _ hpre hadd ih =>
    exact ⟨cnd_event_add_RegInv ih.1 hpre.1 hadd, cnd_event_add_FdInv ih.2 hpre.2 hadd⟩
  | del ev _ hdel ih =>
    exact ⟨cnd_event_del_RegInv ih.1 hdel, cnd_event_del_FdInv ih.2 ih.1 hdel⟩

/-! ## Field stores, field by field -/

theorem setNext_next (s : State) (p q : Ptr) (v : Option Ptr) :
    ((setNext s p v).mem q).next = if q = p then v else (s.mem q).next := by
  unfold setNext
  by_cases h : q = p
  · subst h; simp
  · simp [Function.update_noteq h, h]

theorem setNext_prev (s : State) (p q : Ptr) (v : Option Ptr) :
    ((setNext s p v).mem q).prev = (s.mem q).prev := by
  unfold setNext
  by_cases h : q = p
  · subst h; simp
  · simp [Function.update_noteq h]

theorem setPrev_prev (s : State) (p q : Ptr) (v : Option Ptr) :
    ((setPrev s p v).mem q).prev = if q = p then v else (s.mem q).prev := by
  unfold setPrev
  by_cases h : q = p
  · subst h; simp
  · simp [Function.update_noteq h, h]

theorem setPrev_next (s : State) (p q : Ptr) (v : Option Ptr) :
    ((setPrev s p v).mem q).next = (s.mem q).next := by
  unfold setPrev
  by_cases h : q = p
  · subst h; simp
  · simp [Function.update_noteq h]

theorem RegEq.regRefl (s : State) : RegEq s s :=
  ⟨rfl, rfl, rfl, rfl, rfl, fun _ => rfl, fun _ => ⟨rfl, rfl, rfl, rfl⟩⟩

theorem RegEq.regTrans {s s1 s2 : State} (h1 : RegEq s s1) (h2 : RegEq s1 s2) : RegEq s s2 := by
  obtain ⟨a1, a2, a3, a4, a5, a6, a7⟩ := h1
  obtain ⟨b1, b2, b3, b4, b5, b6, b7⟩ := h2
  refine ⟨b1.trans a1, b2.trans a2, b3.trans a3, b4.trans a4, b5.trans a5,
    fun p => (b6 p).trans (a6 p), fun p => ?_⟩
  obtain ⟨c1, c2, c3, c4⟩ := a7 p
  obtain ⟨d1, d2, d3, d4⟩ := b7 p
  exact ⟨d1.trans c1, d2.trans c2, d3.trans c3, d4.trans c4⟩

theorem setNext_RegEq (s : State) (p : Ptr) (v : Option Ptr) : RegEq s (setNext s p v) := by
  refine ⟨rfl, rfl, rfl, rfl, rfl, fun q => ?_, fun q => ?_⟩ <;>
  · unfold setNext
    by_cases h : q = p
    · subst h; simp
    · simp [Function.update_noteq h]

theorem setPrev_RegEq (s : State) (p : Ptr) (v : Option Ptr) : RegEq s (setPrev s p v) := by
  refine ⟨rfl, rfl, rfl, rfl, rfl, fun q => ?_, fun q => ?_⟩ <;>
  · unfold setPrev
    by_cases h : q = p
    · subst h; simp
    · simp [Function.update_noteq h]

/-! ## The shape of the pending list -/

theorem Linked_next {s : State} : ∀ {p : Ptr} {L : List Nat}, Linked s p L →
    (s.mem p).next = some (headPtr L)
  | _, [], h => h.1
  | _, _ :: _, h => h.1

theorem Linked_prev_sentinel {s : State} : ∀ {L : List Nat} {p : Ptr}, Linked s p L →
    (s.mem .pending_list).prev = some (lastPtr p L)
  | [], _, h => h.2
  | _ :: L, _, h => @Linked_prev_sentinel s L _ h.2.2

theorem lastPtr_cases : ∀ (L : List Nat) (p : Ptr),
    lastPtr p L = p ∨ ∃ c, c ∈ L ∧ lastPtr p L = .ev c
  | [], _ => Or.inl rfl
  | a :: L, _ => by
    rcases lastPtr_cases L (.ev a) with h | ⟨c, hc, h⟩
    · exact Or.inr ⟨a, List.mem_cons_self _ _, h⟩
    · exact Or.inr ⟨c, List.mem_cons_of_mem _ hc, h⟩

theorem Linked_congr {s s1 : State} : ∀ {L : List Nat} {p : Ptr}, Linked s p L →
    (s1.mem p).next = (s.mem p).next →
    (∀ c, c ∈ L → (s1.mem (.ev c)).next = (s.mem (.ev c)).next ∧
      (s1.mem (.ev c)).prev = (s.mem (.ev c)).prev) →
    (s1.mem .pending_list).prev = (s.mem .pending_list).prev → Linked s1 p L
  | [], _, h, hp, _, hs => ⟨hp.trans h.1, hs.trans h.2⟩
  | a :: L, _, h, hp, hL, hs =>
    ⟨hp.trans h.1, (hL a (List.mem_cons_self _ _)).2.trans h.2.1,
      @Linked_congr s s1 L _ h.2.2 (hL a (List.mem_cons_self _ _)).1
        (fun c hc => hL c (List.mem_cons_of_mem _ hc)) hs⟩

theorem Queue_of_LinksEq {s s1 : State} {L : List Nat} (h : Queue s L) (hl : LinksEq s s1) :
    Queue s1 L :=
  ⟨h.1, Linked_congr h.2 (hl _).1 (fun c _ => hl (.ev c)) (hl _).2⟩

theorem Linked_snoc {s s1 : State} {a : Nat} : ∀ {L : List Nat} {p : Ptr}, Linked s p L →
    a ∉ L → p ≠ .ev a → (∀ c, c ∈ L → p ≠ .ev c) → L.Nodup →
    (∀ q, q ≠ lastPtr p L → q ≠ .ev a → (s1.mem q).next = (s.mem q).next) →
    (∀ q, q ≠ .pending_list → q ≠ .ev a → (s1.mem q).prev = (s.mem q).prev) →
    (s1.mem (lastPtr p L)).next = some (.ev a) →
    (s1.mem (.ev a)).prev = some (lastPtr p L) →
    (s1.mem (.ev a)).next = some .pending_list →
    (s1.mem .pending_list).prev = some (.ev a) → Linked s1 p (L ++ [a])
  | [], _, _, _, _, _, _, _, _, h1, h2, h3, h4 => ⟨h1, h2, h3, h4⟩
  | b :: L, p, h, ha, hpa, hpL, hnd, hnext, hprev, h1, h2, h3, h4 => by
    have hba : b ≠ a := fun e => ha (e ▸ List.mem_cons_self _ _)
    have hba1 : Ptr.ev b ≠ Ptr.ev a := fun e => hba (Ptr.ev.inj e)
    have hbL : b ∉ L := (List.nodup_cons.mp hnd).1
    have hplast : p ≠ lastPtr (.ev b) L := by
      rcases lastPtr_cases L (.ev b) with e | ⟨c, hc, e⟩
      · rw [e]; exact hpL b (List.mem_cons_self _ _)
      · rw [e]; exact hpL c (List.mem_cons_of_mem _ hc)
    refine ⟨(hnext p hplast hpa).trans h.1, (hprev _ (by simp) hba1).trans h.2.1, ?_⟩
    exact @Linked_snoc s s1 a L _ h.2.2 (fun hm => ha (List.mem_cons_of_mem _ hm)) hba1
      (fun c hc e => hbL (Ptr.ev.inj e ▸ hc)) (List.nodup_cons.mp hnd).2 hnext hprev h1 h2 h3 h4

theorem addToList_queue {s : State} {L : List Nat} {a : Nat} (hq : Queue s L) (ha : a ∉ L) :
    ∃ s1, addToList s (.ev a) .pending_list = .ok s1 ∧ Queue s1 (L ++ [a]) ∧ RegEq s s1 := by
  have hlast := Linked_prev_sentinel hq.2
  have hne : Ptr.ev a ≠ Ptr.pending_list := by simp
  have hlne : lastPtr .pending_list L ≠ .ev a := by
    rcases lastPtr_cases L .pending_list with e | ⟨c, hc, e⟩
    · rw [e]; simp
    · rw [e]; intro h; exact ha (Ptr.ev.inj h ▸ hc)
  have heq : addToList s (.ev a) .pending_list = .ok
      (setPrev (setNext (setPrev (setNext s (.ev a) (some .pending_list)) (.ev a)
        (some (lastPtr .pending_list L))) (lastPtr .pending_list L) (some (.ev a)))
        .pending_list (some (.ev a))) := by
    have h1 : ((setNext s (.ev a) (some .pending_list)).mem .pending_list).prev =
        some (lastPtr .pending_list L) := by rw [setNext_prev, hlast]
    simp only [addToList, h1, setPrev_prev, if_pos]
  refine ⟨_, heq, ⟨?_, ?_⟩, ?_⟩
  · exact List.Nodup.append hq.1 (List.nodup_singleton a) (by simpa using ha)
  · refine Linked_snoc hq.2 ha (by simp) (fun c _ => by simp) hq.1 ?_ ?_ ?_ ?_ ?_ ?_
    · intro q h1 h2
      rw [setPrev_next, setNext_next, if_neg h1, setPrev_next, setNext_next, if_neg h2]
    · intro q h1 h2
      rw [setPrev_prev, if_neg h1, setNext_prev, setPrev_prev, if_neg h2, setNext_prev]
    · rw [setPrev_next, setNext_next, if_pos rfl]
    · rw [setPrev_prev, if_neg hne, setNext_prev, setPrev_prev, if_pos rfl]
    · rw [setPrev_next, setNext_next, if_neg hlne.symm, setPrev_next, setNext_next, if_pos rfl]
    · rw [setPrev_prev, if_pos rfl]
  · exact ((setNext_RegEq _ _ _).regTrans (setPrev_RegEq _ _ _)).regTrans
      ((setNext_RegEq _ _ _).regTrans (setPrev_RegEq _ _ _))

theorem headPtr_ne_of_not_mem {a : Nat} : ∀ {L : List Nat}, a ∉ L → headPtr L ≠ .ev a
  | [], _ => by simp [headPtr]
  | b :: L, h => by
    intro e
    exact h ((Ptr.ev.inj e) ▸ List.mem_cons_self _ _)

theorem removeFromList_queue {s : State} {L : List Nat} {a : Nat} (hq : Queue s (a :: L)) :
    ∃ s1, removeFromList s (.ev a) = .ok s1 ∧ Queue s1 L ∧ RegEq s s1 ∧
      (s.mem (.ev a)).next = some (headPtr L) ∧
      (s1.mem (.ev a)).next = none ∧ (s1.mem (.ev a)).prev = none := by
  obtain ⟨hnd, hn0, hp0, hlink⟩ := hq
  have haL : a ∉ L := (List.nodup_cons.mp hnd).1
  have hndL : L.Nodup := (List.nodup_cons.mp hnd).2
  have hnx := Linked_next hlink
  have hhead : headPtr L ≠ .ev a := headPtr_ne_of_not_mem haL
  have heq : removeFromList s (.ev a) = .ok
      (setPrev (setNext (setNext (setPrev s (headPtr L) (some .pending_list)) .pending_list
        (some (headPtr L))) (.ev a) none) (.ev a) none) := by
    have h1 : ((setPrev s (headPtr L) (s.mem (.ev a)).prev).mem (.ev a)).prev =
        some .pending_list := by
      rw [setPrev_prev, if_neg hhead.symm, hp0]
    have h2 : ((setPrev s (headPtr L) (s.mem (.ev a)).prev).mem (.ev a)).next =
        some (headPtr L) := by
      rw [setPrev_next, hnx]
    simp only [removeFromList, hnx, h1, h2]
    rw [hp0]
  refine ⟨_, heq, ⟨hndL, ?_⟩, ?_, hnx, ?_, ?_⟩
  · cases L with
    | nil =>
      refine ⟨?_, ?_⟩
      · rw [setPrev_next, setNext_next, if_neg (by simp), setNext_next, if_pos rfl]; rfl
      · rw [setPrev_prev, if_neg (by simp), setNext_prev, setNext_prev, setPrev_prev]
        simp [headPtr]
    | cons b L =>
      have hba : Ptr.ev b ≠ Ptr.ev a := hhead
      have hbL : b ∉ L := (List.nodup_cons.mp hndL).1
      refine ⟨?_, ?_, ?_⟩
      · rw [setPrev_next, setNext_next, if_neg (by simp), setNext_next, if_pos rfl]; rfl
      · rw [setPrev_prev, if_neg hba, setNext_prev, setNext_prev, setPrev_prev]
        simp [headPtr]
      · have hl := hlink.2.2
        refine Linked_congr hl ?_ ?_ ?_
        · rw [setPrev_next, setNext_next, if_neg hba, setNext_next, if_neg (by simp),
            setPrev_next]
        · intro c hc
          have hca : Ptr.ev c ≠ Ptr.ev a :=
            fun e => haL (Ptr.ev.inj e ▸ List.mem_cons_of_mem _ hc)
          have hcb : Ptr.ev c ≠ Ptr.ev b := fun e => hbL (Ptr.ev.inj e ▸ hc)
          constructor
          · rw [setPrev_next, setNext_next, if_neg hca, setNext_next, if_neg (by simp),
              setPrev_next]
          · rw [setPrev_prev, if_neg hca, setNext_prev, setNext_prev, setPrev_prev]
            simp [headPtr, hcb]
        · rw [setPrev_prev, if_neg (by simp), setNext_prev, setNext_prev, setPrev_prev]
          simp [headPtr]
  · exact ((setPrev_RegEq _ _ _).regTrans (setNext_RegEq _ _ _)).regTrans
      ((setNext_RegEq _ _ _).regTrans (setPrev_RegEq _ _ _))
  · rw [setPrev_next, setNext_next, if_pos rfl]
  · rw [setPrev_prev, if_pos rfl]

/-! ## What the registry calls leave alone -/

theorem LinksEq.linksRefl (s : State) : LinksEq s s := fun _ => ⟨rfl, rfl⟩

theorem LinksEq.linksTrans {s s1 s2 : State} (h1 : LinksEq s s1) (h2 : LinksEq s1 s2) :
    LinksEq s s2 :=
  fun p => ⟨(h2 p).1.trans (h1 p).1, (h2 p).2.trans (h1 p).2⟩

theorem DataEq.dataRefl (s : State) : DataEq s s := fun _ => ⟨rfl, rfl, rfl, rfl⟩

theorem DataEq.dataTrans {s s1 s2 : State} (h1 : DataEq s s1) (h2 : DataEq s1 s2) :
    DataEq s s2 := by
  intro p
  obtain ⟨c1, c2, c3, c4⟩ := h1 p
  obtain ⟨d1, d2, d3, d4⟩ := h2 p
  exact ⟨d1.trans c1, d2.trans c2, d3.trans c3, d4.trans c4⟩

theorem addAt_frame (s : State) (ev j : Nat) :
    LinksEq s (addAt s ev j) ∧ DataEq s (addAt s ev j) ∧ (addAt s ev j).fired = s.fired := by
  refine ⟨fun p => ?_, fun p => ?_, rfl⟩ <;>
  · by_cases h : p = .ev ev
    · subst h; simp [addAt]
    · simp [addAt, Function.update_noteq h]

theorem removeWatch_frame (MAX : Nat) (s : State) (ev i : Nat) :
    LinksEq s (removeWatch MAX s ev i) ∧ DataEq s (removeWatch MAX s ev i) ∧
      (removeWatch MAX s ev i).fired = s.fired := by
  refine ⟨fun p => ?_, fun p => ?_, removeWatch_fired _ _ _ _⟩ <;>
  · rw [removeWatch_mem]
    by_cases h : p = .ev ev
    · subst h; simp
    · simp [Function.update_noteq h]

theorem cnd_event_add_frame {MAX : Nat} {s s1 : State} {ev : Nat}
    (h : cnd_event_add MAX s ev = .ok s1) :
    LinksEq s s1 ∧ DataEq s s1 ∧ s1.fired = s.fired := by
  rcases cnd_event_add_cases MAX s ev (cnd_event_add_ok_free h) with
    ⟨j, _, _, _, heq⟩ | ⟨_, heq⟩
  · rw [heq] at h; cases h; exact addAt_frame s ev j
  · rw [heq] at h; cases h; exact ⟨LinksEq.linksRefl s, DataEq.dataRefl s, rfl⟩

theorem cnd_event_del_frame {MAX : Nat} {s s1 : State} {ev : Nat}
    (h : cnd_event_del MAX s ev = .ok s1) :
    LinksEq s s1 ∧ DataEq s s1 ∧ s1.fired = s.fired := by
  rcases cnd_event_del_cases MAX s ev (cnd_event_del_ok_free h) with
    ⟨i, _, _, heq⟩ | ⟨_, heq⟩
  · rw [heq] at h; cases h
    exact removeWatch_frame MAX { s with listMutex := true } ev i
  · rw [heq] at h; cases h; exact ⟨LinksEq.linksRefl s, DataEq.dataRefl s, rfl⟩

theorem runActions_frame (MAX : Nat) : ∀ (acts : List Action) (s s1 : State),
    runActions MAX acts s = .ok s1 → LinksEq s s1 ∧ DataEq s s1 ∧ s1.fired = s.fired := by
  intro acts
  induction acts with
  | nil =>
    intro s s1 h
    simp only [runActions] at h
    cases h
    exact ⟨LinksEq.linksRefl s, DataEq.dataRefl s, rfl⟩
  | cons x acts ih =>
    intro s s1 h
    cases x with
    | add e =>
      simp only [runActions] at h
      cases hadd : cnd_event_add MAX s e with
      | error f => rw [hadd] at h; cases h
      | ok s2 =>
        rw [hadd] at h
        obtain ⟨a1, a2, a3⟩ := cnd_event_add_frame hadd
        obtain ⟨b1, b2, b3⟩ := ih s2 s1 h
        exact ⟨a1.linksTrans b1, a2.dataTrans b2, b3.trans a3⟩
    | del e =>
      simp only [runActions] at h
      cases hdel : cnd_event_del MAX s e with
      | error f => rw [hdel] at h; cases h
      | ok s2 =>
        rw [hdel] at h
        obtain ⟨a1, a2, a3⟩ := cnd_event_del_frame hdel
        obtain ⟨b1, b2, b3⟩ := ih s2 s1 h
        exact ⟨a1.linksTrans b1, a2.dataTrans b2, b3.trans a3⟩

/-! ## The slots matched by the scan -/

theorem readySlots_mem {s : State} {rfds : Finset Int} : ∀ {k i : Nat} {n : Int} {j : Nat},
    j ∈ readySlots s rfds k i n → i ≤ j ∧ j < i + k ∧ slotReady s rfds j = true
  | 0, _, _, _, h => by simp [readySlots] at h
  | k + 1, i, n, j, h => by
    unfold readySlots at h
    by_cases hn : n > 0
    · rw [if_pos hn] at h
      by_cases hr : slotReady s rfds i = true
      · rw [if_pos hr] at h
        rcases List.mem_cons.mp h with e | h1
        · subst e; exact ⟨le_refl _, by omega, hr⟩
        · have := readySlots_mem h1
          exact ⟨by omega, by omega, this.2.2⟩
      · rw [if_neg hr] at h
        have := readySlots_mem h
        exact ⟨by omega, by omega, this.2.2⟩
    · rw [if_neg hn] at h
      cases h

theorem readySlots_congr {s s1 : State} {rfds : Finset Int} : ∀ (k i : Nat) (n : Int),
    (∀ j, i ≤ j → slotReady s1 rfds j = slotReady s rfds j) →
    readySlots s1 rfds k i n = readySlots s rfds k i n
  | 0, _, _, _ => rfl
  | k + 1, i, n, h => by
    unfold readySlots
    rw [h i (le_refl _), readySlots_congr k (i + 1) (n - 1) (fun j hj => h j (by omega)),
      readySlots_congr k (i + 1) n (fun j hj => h j (by omega))]

theorem readySlots_sorted (s : State) (rfds : Finset Int) : ∀ (k i : Nat) (n : Int),
    (readySlots s rfds k i n).Sorted (· < ·)
  | 0, _, _ => List.sorted_nil
  | k + 1, i, n => by
    unfold readySlots
    by_cases hn : n > 0
    · rw [if_pos hn]
      by_cases hr : slotReady s rfds i = true
      · rw [if_pos hr]
        refine List.sorted_cons.mpr ⟨?_, readySlots_sorted s rfds k (i + 1) (n - 1)⟩
        intro j hj
        have := (readySlots_mem hj).1
        omega
      · rw [if_neg hr]
        exact readySlots_sorted s rfds k (i + 1) n
    · rw [if_neg hn]
      exact List.sorted_nil

theorem slotReady_some {s : State} {rfds : Finset Int} {i rev : Nat}
    (h : s.watch_table i = some rev) :
    slotReady s rfds i = decide ((s.mem (.ev rev)).fd ∈ rfds) := by
  simp [slotReady, h, FD_ISSET]

theorem slotReady_true {s : State} {rfds : Finset Int} {i : Nat}
    (h : slotReady s rfds i = true) :
    ∃ rev, s.watch_table i = some rev ∧ (s.mem (.ev rev)).fd ∈ rfds := by
  unfold slotReady at h
  cases ht : s.watch_table i with
  | none => rw [ht] at h; cases h
  | some rev =>
    rw [ht] at h
    exact ⟨rev, rfl, by simpa [FD_ISSET] using h⟩

theorem slotReady_congr {s s1 : State} {rfds : Finset Int} {j : Nat}
    (ht : s1.watch_table j = s.watch_table j) (hd : DataEq s s1) :
    slotReady s1 rfds j = slotReady s rfds j := by
  unfold slotReady
  rw [ht]
  cases s.watch_table j with
  | none => rfl
  | some rev => simp only [(hd (.ev rev)).1]

/-! ## Unrolling the loop of processReadReadyEvent -/

theorem processReadReadyEvent_loop_done (MAX : Nat) (rfds : Finset Int) (k i : Nat) (n : Int)
    (s : State) (hn : ¬ n > 0) : processReadReadyEvent_loop MAX rfds k i n s = .ok s := by
  cases k with
  | zero => rfl
  | succ k => simp only [processReadReadyEvent_loop, if_neg hn]

theorem processReadReadyEvent_loop_skip (MAX : Nat) (rfds : Finset Int) (k i : Nat) (n : Int)
    (s : State) (hn : n > 0) (hr : slotReady s rfds i = false) :
    processReadReadyEvent_loop MAX rfds (k + 1) i n s =
      processReadReadyEvent_loop MAX rfds k (i + 1) n s := by
  unfold slotReady at hr
  cases ht : s.watch_table i with
  | none => simp only [processReadReadyEvent_loop, if_pos hn, ht]
  | some rev =>
    rw [ht] at hr
    have hr1 : FD_ISSET (s.mem (.ev rev)).fd rfds = false := hr
    simp [processReadReadyEvent_loop, hn, ht, hr1]

theorem processReadReadyEvent_loop_match (MAX : Nat) (rfds : Finset Int) (k i : Nat) (n : Int)
    (s : State) (rev : Nat) (hn : n > 0) (ht : s.watch_table i = some rev)
    (hr : slotReady s rfds i = true) :
    processReadReadyEvent_loop MAX rfds (k + 1) i n s =
      match addToList s (.ev rev) .pending_list with
      | .error e => .error e
      | .ok s1 =>
        processReadReadyEvent_loop MAX rfds k (i + 1) (n - 1)
          (if (s1.mem (.ev rev)).persist = 0 then removeWatch MAX s1 rev i else s1) := by
  unfold slotReady at hr
  rw [ht] at hr
  have hr1 : FD_ISSET (s.mem (.ev rev)).fd rfds = true := hr
  rw [processReadReadyEvent_loop, if_pos hn]
  simp only [ht, hr1, if_true]

/-! ## The effect of the scan on the registry -/

theorem ScanPost.nil (s : State) : ScanPost s s [] where
  data := DataEq.dataRefl s
  fired := rfl
  mutex := rfl
  keep := fun _ _ => rfl
  keepPersist := fun _ _ h _ => h
  drop := fun _ _ h => by cases h
  sub := fun _ h => h
  stay := fun _ h _ => h
  index := fun _ _ => rfl
  indexCases := fun _ => Or.inl rfl

theorem ScanPost_cons_persist {s s1 s2 : State} {i rev : Nat} {slots : List Nat}
    (ht : s.watch_table i = some rev) (hp : (s.mem (.ev rev)).persist ≠ 0)
    (hreg : RegEq s s1) (h : ScanPost s1 s2 slots) : ScanPost s s2 (i :: slots) := by
  obtain ⟨r1, r2, _, r4, r5, r6, r7⟩ := hreg
  refine ⟨r7.dataTrans h.data, h.fired.trans r5, h.mutex.trans r4, ?_, ?_, ?_, ?_, ?_, ?_, ?_⟩
  · intro j hj
    rw [h.keep j (fun hm => hj (List.mem_cons_of_mem _ hm)), r1]
  · intro j a hja hpa
    exact h.keepPersist j a (by rw [r1]; exact hja) (by rw [(r7 _).2.1]; exact hpa)
  · intro j a hj hja hpa
    rcases List.mem_cons.mp hj with e | hm
    · subst e
      rw [ht] at hja
      cases hja
      exact absurd hpa hp
    · have := h.drop j a hm (by rw [r1]; exact hja) (by rw [(r7 _).2.1]; exact hpa)
      rw [(r7 _).1] at this
      exact this
  · intro d hd
    rw [← r2]
    exact h.sub d hd
  · intro d hd hc
    refine h.stay d (by rw [r2]; exact hd) ?_
    intro j a hm hja hpa
    rw [r1] at hja
    rw [(r7 _).2.1] at hpa
    rw [(r7 _).1]
    exact hc j a (List.mem_cons_of_mem _ hm) hja hpa
  · intro a hc
    rw [← r6]
    refine h.index a ?_
    intro j hm hja
    rw [r1] at hja
    rw [(r7 _).2.1]
    exact hc j (List.mem_cons_of_mem _ hm) hja
  · intro a
    rw [← r6]
    exact h.indexCases a

theorem ScanPost_cons_oneshot {MAX : Nat} {s s1 s2 : State} {i rev : Nat} {slots : List Nat}
    (ht : s.watch_table i = some rev) (hp : (s.mem (.ev rev)).persist = 0)
    (hreg : RegEq s s1) (hgt : ∀ j, j ∈ slots → i < j)
    (h : ScanPost (removeWatch MAX s1 rev i) s2 slots) : ScanPost s s2 (i :: slots) := by
  obtain ⟨r1, r2, _, r4, r5, r6, r7⟩ := hreg
  obtain ⟨_, w2, w3⟩ := removeWatch_frame MAX s1 rev i
  have hd02 : DataEq s (removeWatch MAX s1 rev i) := r7.dataTrans w2
  have htab : ∀ j, j ≠ i → (removeWatch MAX s1 rev i).watch_table j = s.watch_table j := by
    intro j hj
    rw [removeWatch_watch_table, Function.update_noteq hj, r1]
  have htabi : (removeWatch MAX s1 rev i).watch_table i = none := by
    rw [removeWatch_watch_table]; simp
  have hrd : (removeWatch MAX s1 rev i).readFds = s.readFds.erase (s.mem (.ev rev)).fd := by
    rw [removeWatch_readFds, r2, (r7 _).1]
  have hidx : ∀ a, a ≠ rev →
      ((removeWatch MAX s1 rev i).mem (.ev a)).index = (s.mem (.ev a)).index := by
    intro a ha
    have hne : Ptr.ev a ≠ Ptr.ev rev := fun e => ha (Ptr.ev.inj e)
    rw [removeWatch_mem_other _ _ _ _ _ hne, r6]
  have hinot : i ∉ slots := fun hm => Nat.lt_irrefl i (hgt i hm)
  refine ⟨hd02.dataTrans h.data, (h.fired.trans w3).trans r5,
    (h.mutex.trans (removeWatch_listMutex _ _ _ _)).trans r4, ?_, ?_, ?_, ?_, ?_, ?_, ?_⟩
  · intro j hj
    have hji : j ≠ i := fun e => hj (e ▸ List.mem_cons_self _ _)
    rw [h.keep j (fun hm => hj (List.mem_cons_of_mem _ hm)), htab j hji]
  · intro j a hja hpa
    have hji : j ≠ i := by
      intro e; subst e; rw [ht] at hja; cases hja; exact hpa hp
    exact h.keepPersist j a (by rw [htab j hji]; exact hja) (by rw [(hd02 _).2.1]; exact hpa)
  · intro j a hj hja hpa
    rcases List.mem_cons.mp hj with e | hm
    · subst e
      rw [ht] at hja
      cases hja
      refine ⟨by rw [h.keep j hinot, htabi], ?_, ?_⟩
      · rcases h.indexCases rev with e | e
        · rw [e]; exact removeWatch_mem_index_self _ _ _ _
        · exact e
      · intro hmem
        have := h.sub _ hmem
        rw [hrd] at this
        exact (Finset.mem_erase.mp this).1 rfl
    · have hji : j ≠ i := Nat.ne_of_gt (hgt j hm)
      have := h.drop j a hm (by rw [htab j hji]; exact hja) (by rw [(hd02 _).2.1]; exact hpa)
      rw [(hd02 _).1] at this
      exact this
  · intro d hd
    have := h.sub d hd
    rw [hrd] at this
    exact (Finset.mem_erase.mp this).2
  · intro d hd hc
    refine h.stay d ?_ ?_
    · rw [hrd]
      exact Finset.mem_erase.mpr ⟨(hc i rev (List.mem_cons_self _ _) ht hp).symm, hd⟩
    · intro j a hm hja hpa
      have hji : j ≠ i := Nat.ne_of_gt (hgt j hm)
      rw [htab j hji] at hja
      rw [(hd02 _).2.1] at hpa
      rw [(hd02 _).1]
      exact hc j a (List.mem_cons_of_mem _ hm) hja hpa
  · intro a hc
    have ha : a ≠ rev := by
      intro e; subst e
      exact hc i (List.mem_cons_self _ _) ht hp
    rw [← hidx a ha]
    refine h.index a ?_
    intro j hm hja
    have hji : j ≠ i := Nat.ne_of_gt (hgt j hm)
    rw [htab j hji] at hja
    rw [(hd02 _).2.1]
    exact hc j (List.mem_cons_of_mem _ hm) hja
  · intro a
    by_cases ha : a = rev
    · subst ha
      right
      rcases h.indexCases a with e | e
      · rw [e]; exact removeWatch_mem_index_self _ _ _ _
      · exact e
    · rw [← hidx a ha]
      exact h.indexCases a

theorem readySlots_step_done (s : State) (rfds : Finset Int) (k i : Nat) (n : Int)
    (hn : ¬ n > 0) : readySlots s rfds k i n = [] := by
  cases k with
  | zero => rfl
  | succ k => simp only [readySlots, if_neg hn]

theorem readySlots_step_skip (s : State) (rfds : Finset Int) (k i : Nat) (n : Int)
    (hn : n > 0) (hr : ¬ slotReady s rfds i = true) :
    readySlots s rfds (k + 1) i n = readySlots s rfds k (i + 1) n := by
  simp only [readySlots, if_pos hn, if_neg hr]

theorem readySlots_step_match (s : State) (rfds : Finset Int) (k i : Nat) (n : Int)
    (hn : n > 0) (hr : slotReady s rfds i = true) :
    readySlots s rfds (k + 1) i n = i :: readySlots s rfds k (i + 1) (n - 1) := by
  simp only [readySlots, if_pos hn, if_pos hr]

/-- The loop of `processReadReadyEvent`, run on a well-formed pending list `L`
none of whose records sits in a slot still to be scanned, the slots to be
scanned holding pairwise different records: it returns, the pending list is
`L` followed by the records of the matched slots in scan order, and the
registry has changed as `ScanPost` says. -/
theorem processReadReadyEvent_loop_spec (MAX : Nat) (rfds : Finset Int) :
    ∀ (k i : Nat) (n : Int) (s : State) (L : List Nat), Queue s L →
      (∀ j a, i ≤ j → j < i + k → s.watch_table j = some a → a ∉ L) →
      (∀ j j2 a, i ≤ j → j < i + k → i ≤ j2 → j2 < i + k →
        s.watch_table j = some a → s.watch_table j2 = some a → j = j2) →
      ∃ s1, processReadReadyEvent_loop MAX rfds k i n s = .ok s1 ∧
        Queue s1 (L ++ (readySlots s rfds k i n).filterMap s.watch_table) ∧
        ScanPost s s1 (readySlots s rfds k i n) := by
  intro k
  induction k with
  | zero =>
    intro i n s L hq _ _
    exact ⟨s, rfl, by simpa [readySlots] using hq, ScanPost.nil s⟩
  | succ k ih =>
    intro i n s L hq hnq hinj
    by_cases hn : n > 0
    swap
    · rw [processReadReadyEvent_loop_done _ _ _ _ _ _ hn, readySlots_step_done _ _ _ _ _ hn]
      exact ⟨s, rfl, by simpa using hq, ScanPost.nil s⟩
    by_cases hr : slotReady s rfds i = true
    swap
    · rw [processReadReadyEvent_loop_skip _ _ _ _ _ _ hn (by simpa using hr),
        readySlots_step_skip _ _ _ _ _ hn hr]
      exact ih (i + 1) n s L hq (fun j a h1 h2 => hnq j a (by omega) (by omega))
        (fun j j2 a h1 h2 h3 h4 => hinj j j2 a (by omega) (by omega) (by omega) (by omega))
    obtain ⟨rev, ht, _⟩ := slotReady_true hr
    have hrevL : rev ∉ L := hnq i rev (le_refl _) (by omega) ht
    obtain ⟨s1, hadd, hq1, hreg⟩ := addToList_queue hq hrevL
    rw [processReadReadyEvent_loop_match _ _ _ _ _ _ rev hn ht hr, hadd,
      readySlots_step_match _ _ _ _ _ hn hr]
    simp only []
    have hfm : ∀ (t : List Nat), (i :: t).filterMap s.watch_table =
        rev :: t.filterMap s.watch_table := by
      intro t; simp [List.filterMap_cons, ht]
    have hpersist : (s1.mem (.ev rev)).persist = (s.mem (.ev rev)).persist :=
      (hreg.2.2.2.2.2.2 _).2.1
    by_cases hp : (s.mem (.ev rev)).persist = 0
    · rw [if_pos (hpersist.trans hp)]
      obtain ⟨w1, w2, _⟩ := removeWatch_frame MAX s1 rev i
      have htab : ∀ j, j ≠ i → (removeWatch MAX s1 rev i).watch_table j = s.watch_table j := by
        intro j hj
        rw [removeWatch_watch_table, Function.update_noteq hj, hreg.1]
      have hslots : readySlots (removeWatch MAX s1 rev i) rfds k (i + 1) (n - 1) =
          readySlots s rfds k (i + 1) (n - 1) :=
        readySlots_congr k (i + 1) (n - 1) (fun j hj =>
          slotReady_congr (htab j (by omega)) (hreg.2.2.2.2.2.2.dataTrans w2))
      obtain ⟨s2, hrun, hq2, hpost⟩ := ih (i + 1) (n - 1) (removeWatch MAX s1 rev i)
        (L ++ [rev]) (Queue_of_LinksEq hq1 w1)
        (by
          intro j a h1 h2 hja
          rw [htab j (by omega)] at hja
          intro hmem
          rcases List.mem_append.mp hmem with hm | hm
          · exact hnq j a (by omega) (by omega) hja hm
          · rw [List.mem_singleton] at hm
            subst hm
            have := hinj j i a (by omega) (by omega) (le_refl _) (by omega) hja ht
            omega)
        (by
          intro j j2 a h1 h2 h3 h4 hja hja2
          rw [htab j (by omega)] at hja
          rw [htab j2 (by omega)] at hja2
          exact hinj j j2 a (by omega) (by omega) (by omega) (by omega) hja hja2)
      rw [hslots] at hq2 hpost
      refine ⟨s2, hrun, ?_, ?_⟩
      · rw [hfm]
        have hcongr : (readySlots s rfds k (i + 1) (n - 1)).filterMap
            (removeWatch MAX s1 rev i).watch_table =
            (readySlots s rfds k (i + 1) (n - 1)).filterMap s.watch_table := by
          refine List.filterMap_congr ?_
          intro j hj
          exact htab j (by have := (readySlots_mem hj).1; omega)
        rw [hcongr] at hq2
        simpa using hq2
      · exact ScanPost_cons_oneshot ht hp hreg
          (fun j hj => by have := (readySlots_mem hj).1; omega) hpost
    · rw [if_neg (fun e => hp (hpersist.symm.trans e))]
      have hslots : readySlots s1 rfds k (i + 1) (n - 1) =
          readySlots s rfds k (i + 1) (n - 1) :=
        readySlots_congr k (i + 1) (n - 1) (fun j _ =>
          slotReady_congr (by rw [hreg.1]) hreg.2.2.2.2.2.2)
      obtain ⟨s2, hrun, hq2, hpost⟩ := ih (i + 1) (n - 1) s1 (L ++ [rev]) hq1
        (by
          intro j a h1 h2 hja
          rw [hreg.1] at hja
          intro hmem
          rcases List.mem_append.mp hmem with hm | hm
          · exact hnq j a (by omega) (by omega) hja hm
          · rw [List.mem_singleton] at hm
            subst hm
            have := hinj j i a (by omega) (by omega) (le_refl _) (by omega) hja ht
            omega)
        (by
          intro j j2 a h1 h2 h3 h4 hja hja2
          rw [hreg.1] at hja hja2
          exact hinj j j2 a (by omega) (by omega) (by omega) (by omega) hja hja2)
      rw [hslots] at hq2 hpost
      refine ⟨s2, hrun, ?_, ?_⟩
      · rw [hfm]
        rw [hreg.1] at hq2
        simpa using hq2
      · exact ScanPost_cons_persist ht hp hreg hpost

/-- The function `processReadReadyEvent`, called with the mutex free, an empty
pending list and a registry in which no record occupies two slots: it returns,
the pending list then holds the records of the matched slots in scan order,
and the registry has changed as `ScanPost` says. -/
theorem processReadReadyEvent_spec (MAX : Nat) (rfds : Finset Int) (n : Int) (s : State)
    (hm : s.listMutex = false) (hq : Queue s [])
    (hinj : ∀ j j2 a, j < MAX → j2 < MAX → s.watch_table j = some a →
      s.watch_table j2 = some a → j = j2) :
    ∃ s1, processReadReadyEvent MAX rfds n s = .ok s1 ∧
      Queue s1 ((readySlots s rfds MAX 0 n).filterMap s.watch_table) ∧
      ScanPost s s1 (readySlots s rfds MAX 0 n) := by
  have hslots : readySlots { s with listMutex := true } rfds MAX 0 n =
      readySlots s rfds MAX 0 n :=
    readySlots_congr MAX 0 n (fun _ _ => rfl)
  obtain ⟨s1, hrun, hq1, hpost⟩ := processReadReadyEvent_loop_spec MAX rfds MAX 0 n
    { s with listMutex := true } [] hq (fun _ _ _ _ _ h => by cases h)
    (fun j j2 a _ h1 _ h2 => hinj j j2 a (by omega) (by omega))
  rw [hslots] at hq1 hpost
  refine ⟨MUTEX_RELEASE s1, ?_, ?_, ?_⟩
  · simp only [processReadReadyEvent, MUTEX_ACQUIRE_free hm, hrun]
  · have hq2 : Queue (MUTEX_RELEASE s1) _ := Queue_of_LinksEq hq1 (fun _ => ⟨rfl, rfl⟩)
    simpa using hq2
  · exact ⟨hpost.data, hpost.fired, hm.symm, hpost.keep, hpost.keepPersist, hpost.drop,
      hpost.sub, hpost.stay, hpost.index, hpost.indexCases⟩

/-! ## Callback invocation -/

theorem firedOf_congr {s s1 : State} (h : DataEq s s1) (a : Nat) :
    firedOf s1 a = firedOf s a := by
  obtain ⟨h1, _, h3, h4⟩ := h (.ev a)
  simp only [firedOf, h1, h3, h4]

theorem invoke_frame {MAX : Nat} {cb : Callbacks} {s s1 : State} {a : Nat}
    (h : invoke MAX cb s a = .ok s1) :
    LinksEq s s1 ∧ DataEq s s1 ∧ s1.fired = s.fired ++ [firedOf s a] := by
  unfold invoke at h
  obtain ⟨h1, h2, h3⟩ := runActions_frame MAX _ _ _ h
  exact ⟨h1, h2, h3⟩

theorem invoke_idle (MAX : Nat) (cb : Callbacks) (s : State) (a : Nat)
    (h : ∀ st, cb (s.mem (.ev a)).func (s.mem (.ev a)).fd (s.mem (.ev a)).param st = []) :
    invoke MAX cb s a = .ok { s with fired := s.fired ++ [firedOf s a] } := by
  unfold invoke
  simp only [h, runActions]
  rfl

/-! ## Draining the pending list -/

theorem firePendingEvent_loop_sentinel (MAX : Nat) (cb : Callbacks) (fuel : Nat) (s : State) :
    firePendingEvent_loop MAX cb (fuel + 1) (some .pending_list) s = .ok s := rfl

theorem removeFromList_eq {s : State} {L : List Nat} {a : Nat} (hq : Queue s (a :: L)) :
    removeFromList s (.ev a) = .ok
      (setPrev (setNext (setNext (setPrev s (headPtr L) (some .pending_list)) .pending_list
        (some (headPtr L))) (.ev a) none) (.ev a) none) := by
  obtain ⟨hnd, _, hp0, hlink⟩ := hq
  have hnx := Linked_next hlink
  have hhead : headPtr L ≠ .ev a := headPtr_ne_of_not_mem (List.nodup_cons.mp hnd).1
  have h1 : ((setPrev s (headPtr L) (s.mem (.ev a)).prev).mem (.ev a)).prev =
      some .pending_list := by
    rw [setPrev_prev, if_neg hhead.symm, hp0]
  have h2 : ((setPrev s (headPtr L) (s.mem (.ev a)).prev).mem (.ev a)).next =
      some (headPtr L) := by
    rw [setPrev_next, hnx]
  simp only [removeFromList, hnx, h1, h2]
  rw [hp0]

theorem headPtr_cases : ∀ (L : List Nat),
    headPtr L = .pending_list ∨ ∃ c, c ∈ L ∧ headPtr L = .ev c
  | [] => Or.inl rfl
  | b :: _ => Or.inr ⟨b, List.mem_cons_self _ _, rfl⟩

theorem removeFromList_other {s s1 : State} {L : List Nat} {a : Nat} (hq : Queue s (a :: L))
    (h : removeFromList s (.ev a) = .ok s1) (c : Nat) (hc : c ∉ a :: L) :
    (s1.mem (.ev c)).next = (s.mem (.ev c)).next ∧
      (s1.mem (.ev c)).prev = (s.mem (.ev c)).prev := by
  rw [removeFromList_eq hq] at h
  cases h
  have hca : Ptr.ev c ≠ Ptr.ev a := fun e => hc (Ptr.ev.inj e ▸ List.mem_cons_self _ _)
  have hch : Ptr.ev c ≠ headPtr L := by
    rcases headPtr_cases L with e | ⟨b, hb, e⟩
    · rw [e]; simp
    · rw [e]; intro e1; exact hc (Ptr.ev.inj e1 ▸ List.mem_cons_of_mem _ hb)
  constructor
  · rw [setPrev_next, setNext_next, if_neg hca, setNext_next, if_neg (by simp), setPrev_next]
  · rw [setPrev_prev, if_neg hca, setNext_prev, setNext_prev, setPrev_prev, if_neg hch]

theorem firePendingEvent_loop_cons (MAX : Nat) (cb : Callbacks) {s : State} {a : Nat}
    {L : List Nat} (hq : Queue s (a :: L)) :
    ∃ s1, removeFromList s (.ev a) = .ok s1 ∧ Queue s1 L ∧ RegEq s s1 ∧
      (s1.mem (.ev a)).next = none ∧ (s1.mem (.ev a)).prev = none ∧
      (∀ fuel f, invoke MAX cb s1 a = .error f →
        firePendingEvent_loop MAX cb (fuel + 1) (some (.ev a)) s = .error f) ∧
      (∀ fuel s2, invoke MAX cb s1 a = .ok s2 →
        firePendingEvent_loop MAX cb (fuel + 1) (some (.ev a)) s =
          firePendingEvent_loop MAX cb fuel (some (headPtr L)) s2) := by
  obtain ⟨s1, hrm, hq1, hreg, hnx, hn1, hp1⟩ := removeFromList_queue hq
  refine ⟨s1, hrm, hq1, hreg, hn1, hp1, ?_, ?_⟩
  · intro fuel f hinv
    simp only [firePendingEvent_loop, hrm, hnx, hinv]
  · intro fuel s2 hinv
    simp only [firePendingEvent_loop, hrm, hnx, hinv]

/-- Whatever the callbacks do, a drain of the pending list `L` that returns has
invoked the callbacks of the records of `L`, once each and in the order of `L`,
and has left the pending list empty. -/
theorem firePendingEvent_loop_fired (MAX : Nat) (cb : Callbacks) :
    ∀ (L : List Nat) (fuel : Nat) (s s1 : State), Queue s L →
      firePendingEvent_loop MAX cb fuel (some (headPtr L)) s = .ok s1 →
      s1.fired = s.fired ++ L.map (firedOf s) ∧ Queue s1 [] ∧ DataEq s s1 := by
  intro L
  induction L with
  | nil =>
    intro fuel s s1 hq h
    cases fuel with
    | zero => simp [firePendingEvent_loop] at h
    | succ fuel =>
      rw [headPtr, firePendingEvent_loop_sentinel] at h
      cases h
      exact ⟨by simp, hq, DataEq.dataRefl s⟩
  | cons a L ih =>
    intro fuel s s1 hq h
    cases fuel with
    | zero => simp [firePendingEvent_loop] at h
    | succ fuel =>
      obtain ⟨s2, _, hq2, hreg, _, _, hstepE, hstep⟩ := firePendingEvent_loop_cons MAX cb hq
      rw [headPtr] at h
      cases hinv : invoke MAX cb s2 a with
      | error f => rw [hstepE fuel f hinv] at h; cases h
      | ok s3 =>
        rw [hstep fuel s3 hinv] at h
        obtain ⟨i1, i2, i3⟩ := invoke_frame hinv
        obtain ⟨f1, f2, f3⟩ := ih fuel s3 s1 (Queue_of_LinksEq hq2 i1) h
        have hd : DataEq s s3 := hreg.2.2.2.2.2.2.dataTrans i2
        refine ⟨?_, f2, hd.dataTrans f3⟩
        rw [f1, i3, hreg.2.2.2.2.1, firedOf_congr hreg.2.2.2.2.2.2 a]
        have : L.map (firedOf s3) = L.map (firedOf s) :=
          List.map_congr_left (fun c _ => firedOf_congr hd c)
        rw [this]
        simp

/-- A run of records at the head of the pending list whose callbacks make no
registry call is drained without a fault: the loop continues at the rest of
the list, with the registry as it was, the invocations logged and the drained
records unlinked. -/
theorem firePendingEvent_loop_idle (MAX : Nat) (cb : Callbacks) :
    ∀ (L1 L2 : List Nat) (s : State), Queue s (L1 ++ L2) →
      (∀ a, a ∈ L1 → ∀ st,
        cb (s.mem (.ev a)).func (s.mem (.ev a)).fd (s.mem (.ev a)).param st = []) →
      ∃ s1, Queue s1 L2 ∧ SameReg s s1 ∧ s1.fired = s.fired ++ L1.map (firedOf s) ∧
        (∀ c, c ∉ L1 ++ L2 → (s1.mem (.ev c)).next = (s.mem (.ev c)).next ∧
          (s1.mem (.ev c)).prev = (s.mem (.ev c)).prev) ∧
        (∀ a, a ∈ L1 → (s1.mem (.ev a)).next = none ∧ (s1.mem (.ev a)).prev = none) ∧
        ∀ fuel, firePendingEvent_loop MAX cb (fuel + L1.length) (some (headPtr (L1 ++ L2))) s =
          firePendingEvent_loop MAX cb fuel (some (headPtr L2)) s1 := by
  intro L1
  induction L1 with
  | nil =>
    intro L2 s hq _
    refine ⟨s, hq, ⟨rfl, rfl, rfl, rfl, fun _ => rfl, DataEq.dataRefl s⟩, by simp,
      fun _ _ => ⟨rfl, rfl⟩, fun _ h => absurd h (List.not_mem_nil _), fun _ => ?_⟩
    simp
  | cons a L1 ih =>
    intro L2 s hq hcb
    obtain ⟨s2, hrm, hq2, hreg, hn2, hp2, _, hstep⟩ := firePendingEvent_loop_cons MAX cb hq
    obtain ⟨r1, r2, r3, r4, r5, r6, r7⟩ := hreg
    have hidle : ∀ st,
        cb (s2.mem (.ev a)).func (s2.mem (.ev a)).fd (s2.mem (.ev a)).param st = [] := by
      intro st
      rw [(r7 _).1, (r7 _).2.2.1, (r7 _).2.2.2]
      exact hcb a (List.mem_cons_self _ _) st
    have hinv := invoke_idle MAX cb s2 a hidle
    have haL : a ∉ L1 ++ L2 := (List.nodup_cons.mp hq.1).1
    obtain ⟨s3, hq3, hsame, hfired, hother, hlinks, hrest⟩ :=
      ih L2 { s2 with fired := s2.fired ++ [firedOf s2 a] }
        (Queue_of_LinksEq hq2 (fun _ => ⟨rfl, rfl⟩))
        (by
          intro c hc st
          have := hcb c (List.mem_cons_of_mem _ hc) st
          rw [← (r7 _).1, ← (r7 _).2.2.1, ← (r7 _).2.2.2] at this
          exact this)
    obtain ⟨t1, t2, t3, t4, t5, t6⟩ := hsame
    refine ⟨s3, hq3, ⟨t1.trans r1, t2.trans r2, t3.trans r3, t4.trans r4,
      fun p => (t5 p).trans (r6 p), r7.dataTrans t6⟩, ?_, ?_, ?_, ?_⟩
    · rw [hfired]
      have : L1.map (firedOf { s2 with fired := s2.fired ++ [firedOf s2 a] }) =
          L1.map (firedOf s) :=
        List.map_congr_left (fun c _ => firedOf_congr r7 c)
      rw [this, firedOf_congr r7 a, r5]
      simp
    · intro c hc
      have hc1 : c ∉ L1 ++ L2 := fun hm => hc (List.mem_cons_of_mem _ hm)
      obtain ⟨o1, o2⟩ := hother c hc1
      obtain ⟨p1, p2⟩ := removeFromList_other hq hrm c hc
      exact ⟨o1.trans p1, o2.trans p2⟩
    · intro c hc
      rcases List.mem_cons.mp hc with e | hm
      · subst e
        obtain ⟨o1, o2⟩ := hother c haL
        exact ⟨o1.trans hn2, o2.trans hp2⟩
      · exact hlinks c hm
    · intro fuel
      have hlen : fuel + (a :: L1).length = (fuel + L1.length) + 1 := by
        simp only [List.length_cons]; omega
      rw [hlen, List.cons_append, headPtr, hstep (fuel + L1.length) _ hinv]
      exact hrest fuel

theorem Queue_nil_iff (s : State) : Queue s [] ↔ QueueEmpty s :=
  ⟨fun h => h.2, fun h => ⟨List.nodup_nil, h⟩⟩

theorem RegInv.slotsDistinct {MAX : Nat} {s : State} (h : RegInv MAX s) :
    SlotsDistinct MAX s :=
  fun _ _ _ hj hj2 h1 h2 => h.inj hj2 hj h2 h1

/-! ## List operations on arbitrary memory -/

theorem addToList_RegEq {s s1 : State} {ev list : Ptr} (h : addToList s ev list = .ok s1) :
    RegEq s s1 := by
  unfold addToList at h
  simp only [] at h
  split at h
  · cases h
  · cases h
    exact ((setNext_RegEq _ _ _).regTrans (setPrev_RegEq _ _ _)).regTrans
      ((setNext_RegEq _ _ _).regTrans (setPrev_RegEq _ _ _))

theorem removeFromList_RegEq {s s1 : State} {ev : Ptr} (h : removeFromList s ev = .ok s1) :
    RegEq s s1 := by
  unfold removeFromList at h
  split at h
  · cases h
  · simp only [] at h
    split at h
    · cases h
    · cases h
      exact ((setPrev_RegEq _ _ _).regTrans (setNext_RegEq _ _ _)).regTrans
        ((setNext_RegEq _ _ _).regTrans (setPrev_RegEq _ _ _))

/-! ## Properties kept by the scan and by the drain, whenever they return -/

theorem processReadReadyEvent_loop_keeps (MAX : Nat) (rfds : Finset Int) (P : State → Prop)
    (hreg : ∀ s s1, RegEq s s1 → P s → P s1)
    (hrm : ∀ s rev i, i < MAX → P s → s.watch_table i = some rev →
      (s.mem (.ev rev)).persist = 0 → P (removeWatch MAX s rev i)) :
    ∀ (k i : Nat) (n : Int) (s s1 : State), i + k ≤ MAX → P s →
      processReadReadyEvent_loop MAX rfds k i n s = .ok s1 → P s1 := by
  intro k
  induction k with
  | zero =>
    intro i n s s1 _ hP h
    cases h
    exact hP
  | succ k ih =>
    intro i n s s1 hle hP h
    by_cases hn : n > 0
    swap
    · rw [processReadReadyEvent_loop_done _ _ _ _ _ _ hn] at h
      cases h
      exact hP
    by_cases hr : slotReady s rfds i = true
    swap
    · rw [processReadReadyEvent_loop_skip _ _ _ _ _ _ hn (by simpa using hr)] at h
      exact ih (i + 1) n s s1 (by omega) hP h
    obtain ⟨rev, ht, _⟩ := slotReady_true hr
    rw [processReadReadyEvent_loop_match _ _ _ _ _ _ rev hn ht hr] at h
    cases hadd : addToList s (.ev rev) .pending_list with
    | error f => rw [hadd] at h; cases h
    | ok s2 =>
      rw [hadd] at h
      simp only [] at h
      have hreg2 := addToList_RegEq hadd
      have hP2 : P s2 := hreg s s2 hreg2 hP
      by_cases hp : (s2.mem (.ev rev)).persist = 0
      · rw [if_pos hp] at h
        exact ih (i + 1) (n - 1) _ s1 (by omega)
          (hrm s2 rev i (by omega) hP2 (by rw [hreg2.1]; exact ht) hp) h
      · rw [if_neg hp] at h
        exact ih (i + 1) (n - 1) _ s1 (by omega) hP2 h

theorem processReadReadyEvent_keeps (MAX : Nat) (rfds : Finset Int) (P : State → Prop)
    (hreg : ∀ s s1, RegEq s s1 → P s → P s1)
    (hlock : ∀ s b, P s → P { s with listMutex := b })
    (hrm : ∀ s rev i, i < MAX → P s → s.watch_table i = some rev →
      (s.mem (.ev rev)).persist = 0 → P (removeWatch MAX s rev i))
    (n : Int) (s s1 : State) (hP : P s)
    (h : processReadReadyEvent MAX rfds n s = .ok s1) : P s1 ∧ s1.listMutex = false := by
  unfold processReadReadyEvent at h
  cases hacq : MUTEX_ACQUIRE s with
  | error f => rw [hacq] at h; cases h
  | ok s2 =>
    rw [hacq] at h
    simp only [] at h
    have hs2 : s2 = { s with listMutex := true } := by
      unfold MUTEX_ACQUIRE at hacq
      split at hacq
      · cases hacq
      · cases hacq; rfl
    cases hloop : processReadReadyEvent_loop MAX rfds MAX 0 n s2 with
    | error f => rw [hloop] at h; cases h
    | ok s3 =>
      rw [hloop] at h
      cases h
      have hP3 : P s3 := processReadReadyEvent_loop_keeps MAX rfds P hreg hrm MAX 0 n s2 s3
        (by omega) (hs2 ▸ hlock s true hP) hloop
      exact ⟨hlock s3 false hP3, rfl⟩

theorem firePendingEvent_loop_keeps (MAX : Nat) (cb : Callbacks) (P : State → Prop)
    (hreg : ∀ s s1, RegEq s s1 → P s → P s1)
    (hinv : ∀ s a s1, P s → invoke MAX cb s a = .ok s1 → P s1) :
    ∀ (fuel : Nat) (ev : Option Ptr) (s s1 : State), P s →
      firePendingEvent_loop MAX cb fuel ev s = .ok s1 → P s1 := by
  intro fuel
  induction fuel with
  | zero =>
    intro ev s s1 _ h
    simp [firePendingEvent_loop] at h
  | succ fuel ih =>
    intro ev s s1 hP h
    cases ev with
    | none => simp [firePendingEvent_loop] at h
    | some p =>
      cases p with
      | pending_list =>
        rw [firePendingEvent_loop_sentinel] at h
        cases h
        exact hP
      | ev a =>
        simp only [firePendingEvent_loop] at h
        cases hrm : removeFromList s (.ev a) with
        | error f => rw [hrm] at h; cases h
        | ok s2 =>
          rw [hrm] at h
          simp only [] at h
          cases hi : invoke MAX cb s2 a with
          | error f => rw [hi] at h; cases h
          | ok s3 =>
            rw [hi] at h
            simp only [] at h
            exact ih _ s3 s1 (hinv s2 a s3 (hreg s s2 (removeFromList_RegEq hrm) hP) hi) h

/-! ## A persistent registration with a descriptor of its own -/

theorem Stays_RegEq {MAX a i : Nat} {s s1 : State} (hreg : RegEq s s1)
    (h : Stays MAX a i s) : Stays MAX a i s1 := by
  obtain ⟨r1, r2, _, _, _, r6, r7⟩ := hreg
  refine ⟨?_, by rw [r1]; exact h.slot, by rw [r2, (r7 _).1]; exact h.fd,
    by rw [(r7 _).2.1]; exact h.persist, ?_⟩
  · intro b k hk hidx
    rw [r6] at hidx
    rw [r1]
    exact h.back b k hk hidx
  · intro b hb
    rw [(r7 _).1, (r7 _).1]
    exact h.fresh b hb

theorem Stays_lock {MAX a i : Nat} {s : State} (b : Bool) (h : Stays MAX a i s) :
    Stays MAX a i { s with listMutex := b } :=
  ⟨h.back, h.slot, h.fd, h.persist, h.fresh⟩

theorem Stays_fired {MAX a i : Nat} {s : State} (l : List Fired) (h : Stays MAX a i s) :
    Stays MAX a i { s with fired := l } :=
  ⟨h.back, h.slot, h.fd, h.persist, h.fresh⟩

theorem Stays_removeWatch {MAX a i : Nat} {s : State} {rev j : Nat} (h : Stays MAX a i s)
    (ht : s.watch_table j = some rev) (hne : rev ≠ a) :
    Stays MAX a i (removeWatch MAX s rev j) := by
  have hij : i ≠ j := by
    intro e; subst e
    rw [h.slot] at ht
    exact hne (Option.some.inj ht).symm
  have hpa : Ptr.ev a ≠ Ptr.ev rev := fun e => hne (Ptr.ev.inj e).symm
  refine ⟨?_, ?_, ?_, ?_, ?_⟩
  · intro b k hk hidx
    have hb : b ≠ rev := by
      intro e; subst e
      rw [removeWatch_mem_index_self] at hidx
      omega
    have hpb : Ptr.ev b ≠ Ptr.ev rev := fun e => hb (Ptr.ev.inj e)
    rw [removeWatch_mem_other _ _ _ _ _ hpb] at hidx
    have hkb := h.back b k hk hidx
    have hkj : k ≠ j := by
      intro e; subst e
      rw [ht] at hkb
      exact hb (Option.some.inj hkb).symm
    rw [removeWatch_watch_table, Function.update_noteq hkj]
    exact hkb
  · rw [removeWatch_watch_table, Function.update_noteq hij]
    exact h.slot
  · rw [removeWatch_readFds, removeWatch_mem_fd]
    exact Finset.mem_erase.mpr ⟨(h.fresh rev hne).symm, h.fd⟩
  · rw [removeWatch_mem_other _ _ _ _ _ hpa]
    exact h.persist
  · intro b hb
    rw [removeWatch_mem_fd, removeWatch_mem_fd]
    exact h.fresh b hb

theorem Stays_addAt {MAX a i : Nat} {s : State} {e j : Nat} (h : Stays MAX a i s)
    (hfree : s.watch_table j = none) : Stays MAX a i (addAt s e j) := by
  have hij : i ≠ j := by
    intro e1; subst e1
    rw [h.slot] at hfree
    cases hfree
  refine ⟨?_, ?_, ?_, ?_, ?_⟩
  · intro b k hk hidx
    by_cases hb : b = e
    · subst hb
      simp [addAt] at hidx
      subst hidx
      simp [addAt]
    · have hpb : Ptr.ev b ≠ Ptr.ev e := fun e1 => hb (Ptr.ev.inj e1)
      simp only [addAt, Function.update_noteq hpb] at hidx
      have hkb := h.back b k hk hidx
      have hkj : k ≠ j := by
        intro e1; subst e1
        rw [hfree] at hkb
        cases hkb
      simp only [addAt, Function.update_noteq hkj]
      exact hkb
  · simp only [addAt, Function.update_noteq hij]
    exact h.slot
  · rw [addAt_fd]
    exact Finset.mem_insert_of_mem h.fd
  · rw [((addAt_frame s e j).2.1 _).2.1]
    exact h.persist
  · intro b hb
    rw [addAt_fd, addAt_fd]
    exact h.fresh b hb

theorem cnd_event_add_Stays {MAX a i : Nat} {s s1 : State} {e : Nat} (h : Stays MAX a i s)
    (hadd : cnd_event_add MAX s e = .ok s1) : Stays MAX a i s1 := by
  rcases cnd_event_add_cases MAX s e (cnd_event_add_ok_free hadd) with
    ⟨j, _, hfree, _, heq⟩ | ⟨_, heq⟩
  · rw [heq] at hadd
    cases hadd
    exact Stays_addAt h hfree
  · rw [heq] at hadd
    cases hadd
    exact h

theorem cnd_event_del_Stays {MAX a i : Nat} {s s1 : State} {e : Nat} (h : Stays MAX a i s)
    (hne : e ≠ a) (hdel : cnd_event_del MAX s e = .ok s1) : Stays MAX a i s1 := by
  rcases cnd_event_del_cases MAX s e (cnd_event_del_ok_free hdel) with
    ⟨k, hk, hidx, heq⟩ | ⟨_, heq⟩
  · rw [heq] at hdel
    cases hdel
    exact Stays_lock false
      (Stays_removeWatch (Stays_lock true h) (h.back e k hk hidx) hne)
  · rw [heq] at hdel
    cases hdel
    exact Stays_lock true h

theorem runActions_Stays {MAX a i : Nat} : ∀ (acts : List Action) (s s1 : State),
    Stays MAX a i s → Action.del a ∉ acts → runActions MAX acts s = .ok s1 →
    Stays MAX a i s1 := by
  intro acts
  induction acts with
  | nil =>
    intro s s1 h _ hrun
    cases hrun
    exact h
  | cons x acts ih =>
    intro s s1 h hno hrun
    have hno1 : Action.del a ∉ acts := fun hm => hno (List.mem_cons_of_mem _ hm)
    cases x with
    | add e =>
      simp only [runActions] at hrun
      cases hadd : cnd_event_add MAX s e with
      | error f => rw [hadd] at hrun; cases hrun
      | ok s2 =>
        rw [hadd] at hrun
        exact ih s2 s1 (cnd_event_add_Stays h hadd) hno1 hrun
    | del e =>
      simp only [runActions] at hrun
      have hne : e ≠ a := fun e1 => hno (e1 ▸ List.mem_cons_self _ _)
      cases hdel : cnd_event_del MAX s e with
      | error f => rw [hdel] at hrun; cases hrun
      | ok s2 =>
        rw [hdel] at hrun
        exact ih s2 s1 (cnd_event_del_Stays h hne hdel) hno1 hrun

theorem invoke_Stays {MAX a i : Nat} {cb : Callbacks}
    (hcb : ∀ f d p st, Action.del a ∉ cb f d p st) {s s1 : State} {c : Nat}
    (h : Stays MAX a i s) (hinv : invoke MAX cb s c = .ok s1) : Stays MAX a i s1 := by
  unfold invoke at hinv
  exact runActions_Stays _ _ _ (Stays_fired _ h) (hcb _ _ _ _) hinv

/-- A cycle that returns keeps a persistent registration whose descriptor no
other record carries, as long as no callback calls `cnd_event_del` on it. -/
theorem dispatchCycle_Stays {MAX a i : Nat} {cb : Callbacks}
    (hcb : ∀ f d p st, Action.del a ∉ cb f d p st) {fuel : Nat} {rfds : Finset Int}
    {n : Int} {s s1 : State} (h : Stays MAX a i s)
    (hrun : dispatchCycle MAX cb fuel rfds n s = .ok s1) : Stays MAX a i s1 := by
  unfold dispatchCycle at hrun
  cases hscan : processReadReadyEvent MAX rfds n s with
  | error f => rw [hscan] at hrun; cases hrun
  | ok s2 =>
    rw [hscan] at hrun
    simp only [] at hrun
    have h2 : Stays MAX a i s2 :=
      (processReadReadyEvent_keeps MAX rfds (Stays MAX a i)
        (fun _ _ hreg hP => Stays_RegEq hreg hP) (fun _ b hP => Stays_lock b hP)
        (fun s rev j _ hP ht hp => Stays_removeWatch hP ht
          (fun e => hP.persist (e ▸ hp))) n s s2 h hscan).1
    exact firePendingEvent_loop_keeps MAX cb (Stays MAX a i)
      (fun _ _ hreg hP => Stays_RegEq hreg hP)
      (fun _ _ _ hP hinv => invoke_Stays hcb hP hinv) fuel _ s2 s1 h2 hrun

/-! ## Facts about sequences of registry calls -/

theorem RegSeq_DataEq {MAX : Nat} {pre : State → Nat → Prop} {s0 s : State}
    (h : RegSeq MAX pre s0 s) : DataEq s0 s := by
  induction h with
  | start => exact DataEq.dataRefl _
  | add ev _ _ hadd ih => exact ih.dataTrans (cnd_event_add_frame hadd).2.1
  | del ev _ hdel ih => exact ih.dataTrans (cnd_event_del_frame hdel).2.1

theorem RegSeq_RegInv {MAX : Nat} {mem0 : Nat → cnd_event} {s : State}
    (hcfg : ∀ a, Configured (mem0 a))
    (h : RegSeq MAX (Unregistered MAX) (initState mem0) s) : RegInv MAX s := by
  induction h with
  | start => exact initState_RegInv MAX mem0 hcfg
  | add ev _ hpre hadd ih => exact cnd_event_add_RegInv ih hpre hadd
  | del ev _ hdel ih => exact cnd_event_del_RegInv ih hdel

theorem distinctFdMem_configured (a : Nat) : Configured (distinctFdMem a) := ⟨rfl, rfl, rfl⟩

theorem distinctFdMem_fd_inj {a b : Nat} (h : (distinctFdMem a).fd = (distinctFdMem b).fd) :
    a = b := by
  simp only [distinctFdMem] at h
  split_ifs at h <;> omega

/-! ## The cycle as scan followed by drain -/

theorem dispatchCycle_ok {MAX : Nat} {cb : Callbacks} {fuel : Nat} {rfds : Finset Int}
    {n : Int} {s s1 : State} (h : dispatchCycle MAX cb fuel rfds n s = .ok s1) :
    ∃ s2, processReadReadyEvent MAX rfds n s = .ok s2 ∧
      firePendingEvent MAX cb fuel s2 = .ok s1 := by
  unfold dispatchCycle at h
  cases hscan : processReadReadyEvent MAX rfds n s with
  | error f => rw [hscan] at h; cases h
  | ok s2 =>
    rw [hscan] at h
    exact ⟨s2, rfl, h⟩

theorem dispatchCycle_of_ok {MAX : Nat} {cb : Callbacks} {fuel : Nat} {rfds : Finset Int}
    {n : Int} {s s1 s2 : State} (h1 : processReadReadyEvent MAX rfds n s = .ok s2)
    (h2 : firePendingEvent MAX cb fuel s2 = .ok s1) :
    dispatchCycle MAX cb fuel rfds n s = .ok s1 := by
  unfold dispatchCycle
  rw [h1]
  exact h2

theorem firePendingEvent_of_queue {MAX : Nat} {cb : Callbacks} {fuel : Nat} {s : State}
    {L : List Nat} (hq : Queue s L) :
    firePendingEvent MAX cb fuel s =
      firePendingEvent_loop MAX cb fuel (some (headPtr L)) s := by
  unfold firePendingEvent
  rw [Linked_next hq.2]

/-- Draining a pending list `L` all of whose callbacks make no registry call
returns, given more fuel than `L` is long. -/
theorem firePendingEvent_idle (MAX : Nat) (cb : Callbacks) (fuel : Nat) (s : State)
    (L : List Nat) (hq : Queue s L)
    (hcb : ∀ a, a ∈ L → ∀ st,
      cb (s.mem (.ev a)).func (s.mem (.ev a)).fd (s.mem (.ev a)).param st = [])
    (hfuel : L.length < fuel) :
    ∃ s1, firePendingEvent MAX cb fuel s = .ok s1 ∧ Queue s1 [] ∧ SameReg s s1 ∧
      s1.fired = s.fired ++ L.map (firedOf s) := by
  obtain ⟨s1, hq1, hsame, hfired, _, _, hrest⟩ :=
    firePendingEvent_loop_idle MAX cb L [] s (by simpa using hq) hcb
  refine ⟨s1, ?_, hq1, hsame, hfired⟩
  rw [firePendingEvent_of_queue hq]
  obtain ⟨m, hm⟩ : ∃ m, fuel = (m + 1) + L.length := ⟨fuel - L.length - 1, by omega⟩
  have := hrest (m + 1)
  rw [List.append_nil] at this
  rw [hm, this]
  rfl

/-! ## When the count `n` covers every ready slot -/

theorem readySlots_eq_filter (s : State) (rfds : Finset Int) : ∀ (k i : Nat) (n : Int),
    (((List.range' i k).filter (slotReady s rfds)).length : Int) ≤ n →
    readySlots s rfds k i n = (List.range' i k).filter (slotReady s rfds)
  | 0, _, _, _ => rfl
  | k + 1, i, n, h => by
    rw [List.range'_succ] at h ⊢
    by_cases hr : slotReady s rfds i = true
    · rw [List.filter_cons_of_pos hr] at h ⊢
      have hn : n > 0 := by
        simp only [List.length_cons] at h
        push_cast at h
        omega
      rw [readySlots_step_match _ _ _ _ _ hn hr,
        readySlots_eq_filter s rfds k (i + 1) (n - 1) (by
          simp only [List.length_cons] at h
          push_cast at h
          omega)]
    · rw [List.filter_cons_of_neg hr] at h ⊢
      by_cases hn : n > 0
      · rw [readySlots_step_skip _ _ _ _ _ hn hr, readySlots_eq_filter s rfds k (i + 1) n h]
      · rw [readySlots_step_done _ _ _ _ _ hn]
        have : ((List.range' (i + 1) k).filter (slotReady s rfds)).length = 0 := by omega
        exact (List.length_eq_zero.mp this).symm

/-- With exactly two ready slots `i < j` and `n = 2`, the scan matches slot
`i`, then slot `j`. -/
theorem readySlots_pair (MAX : Nat) (s : State) (rfds : Finset Int) (i j : Nat)
    (hij : i < j) (hj : j < MAX)
    (hready : ∀ k, k < MAX → (slotReady s rfds k = true ↔ k = i ∨ k = j)) :
    readySlots s rfds MAX 0 2 = [i, j] := by
  have hmem : ∀ k, k ∈ (List.range' 0 MAX).filter (slotReady s rfds) ↔ k ∈ [i, j] := by
    intro k
    rw [List.mem_filter, List.mem_range'_1]
    simp only [List.mem_cons, List.mem_singleton, List.not_mem_nil, or_false]
    constructor
    · rintro ⟨⟨_, h2⟩, h3⟩
      exact (hready k (by omega)).mp h3
    · intro h
      have hk : k < MAX := by rcases h with e | e <;> omega
      exact ⟨⟨Nat.zero_le _, by omega⟩, (hready k hk).mpr h⟩
  have hsorted : ((List.range' 0 MAX).filter (slotReady s rfds)).Sorted (· < ·) :=
    List.Sorted.filter _ (List.pairwise_lt_range' 0 MAX)
  have hperm : ((List.range' 0 MAX).filter (slotReady s rfds)).Perm [i, j] :=
    (List.perm_ext_iff_of_nodup hsorted.nodup
      (by simp [Nat.ne_of_lt hij])).mpr hmem
  have heq : (List.range' 0 MAX).filter (slotReady s rfds) = [i, j] :=
    List.eq_of_perm_of_sorted hperm hsorted (by simp [hij])
  rw [readySlots_eq_filter s rfds MAX 0 2 (by rw [heq]; simp), heq]

/-! ## Transport of the slot correspondence -/

theorem RegEq.sameReg {s s1 : State} (h : RegEq s s1) : SameReg s s1 :=
  ⟨h.1, h.2.1, h.2.2.1, h.2.2.2.1, h.2.2.2.2.2.1, h.2.2.2.2.2.2⟩

theorem RegInv_SameReg {MAX : Nat} {s s1 : State} (hs : SameReg s s1) (h : RegInv MAX s) :
    RegInv MAX s1 := by
  obtain ⟨r1, _, _, _, r5, _⟩ := hs
  refine ⟨?_, ?_, ?_⟩
  · intro a i hi hidx
    rw [r5] at hidx
    rw [r1]
    exact h.back a i hi hidx
  · intro i a hi hia
    rw [r1] at hia
    rw [r5]
    exact h.slot i a hi hia
  · intro a
    rw [r5]
    exact h.range a

theorem RegInv.not_mem_table {MAX : Nat} {s : State} (h : RegInv MAX s) {b : Nat}
    (hidx : (s.mem (.ev b)).index = -1) : ∀ k, k < MAX → s.watch_table k ≠ some b := by
  intro k hk hkb
  have := h.slot k b hk hkb
  rw [hidx] at this
  omega

/-- The scan, whenever it returns, keeps the slot correspondence, assigns none
of the data fields, invokes no callback and releases the mutex. -/
theorem processReadReadyEvent_RegInv {MAX : Nat} {rfds : Finset Int} {n : Int}
    {s s1 : State} (h : RegInv MAX s) (hscan : processReadReadyEvent MAX rfds n s = .ok s1) :
    RegInv MAX s1 ∧ DataEq s s1 ∧ s1.fired = s.fired ∧ s1.listMutex = false := by
  have := processReadReadyEvent_keeps MAX rfds
    (fun t => RegInv MAX t ∧ DataEq s t ∧ t.fired = s.fired)
    (fun t t1 hreg hP => ⟨RegInv_SameReg hreg.sameReg hP.1, hP.2.1.dataTrans hreg.2.2.2.2.2.2,
      hreg.2.2.2.2.1.trans hP.2.2⟩)
    (fun t b hP => ⟨RegInv_lock b hP.1, hP.2.1, hP.2.2⟩)
    (fun t rev i hi hP ht _ => ⟨RegInv_removeWatch hP.1 hi ht,
      hP.2.1.dataTrans (removeWatch_frame MAX t rev i).2.1,
      (removeWatch_fired _ _ _ _).trans hP.2.2⟩)
    n s s1 ⟨h, DataEq.dataRefl s, rfl⟩ hscan
  exact ⟨this.1.1, this.1.2.1, this.1.2.2, this.2⟩

/-! ## Deregistration in mid-fire -/

theorem RegOf_of_RegInv {MAX : Nat} {s : State} (b : Nat) (h : RegInv MAX s) :
    RegOf MAX b s :=
  ⟨h.back, fun k hk hkb => h.slot k b hk hkb, h.range b⟩

theorem RegOf_lock {MAX b : Nat} {s : State} (x : Bool) (h : RegOf MAX b s) :
    RegOf MAX b { s with listMutex := x } := ⟨h.back, h.slot, h.range⟩

theorem RegOf_fired {MAX b : Nat} {s : State} (l : List Fired) (h : RegOf MAX b s) :
    RegOf MAX b { s with fired := l } := ⟨h.back, h.slot, h.range⟩

theorem RegOf_RegEq {MAX b : Nat} {s s1 : State} (hreg : RegEq s s1) (h : RegOf MAX b s) :
    RegOf MAX b s1 := by
  obtain ⟨r1, _, _, _, _, r6, _⟩ := hreg
  refine ⟨?_, ?_, ?_⟩
  · intro c k hk hidx
    rw [r6] at hidx
    rw [r1]
    exact h.back c k hk hidx
  · intro k hk hkb
    rw [r1] at hkb
    rw [r6]
    exact h.slot k hk hkb
  · rw [r6]
    exact h.range

theorem RegOf.not_in_table {MAX b : Nat} {s : State} (h : RegOf MAX b s)
    (hidx : (s.mem (.ev b)).index = -1) : ∀ k, k < MAX → s.watch_table k ≠ some b := by
  intro k hk hkb
  have := h.slot k hk hkb
  rw [hidx] at this
  omega

theorem RegOf_addAt {MAX b : Nat} {s : State} {e j : Nat} (h : RegOf MAX b s)
    (hfree : s.watch_table j = none) (hne : e ≠ b) :
    RegOf MAX b (addAt s e j) ∧
      ((addAt s e j).mem (.ev b)).index = (s.mem (.ev b)).index := by
  have hpb : Ptr.ev b ≠ Ptr.ev e := fun e1 => hne (Ptr.ev.inj e1).symm
  have hidx : ((addAt s e j).mem (.ev b)).index = (s.mem (.ev b)).index := by
    simp only [addAt, Function.update_noteq hpb]
  refine ⟨⟨?_, ?_, by rw [hidx]; exact h.range⟩, hidx⟩
  · intro c k hk hc
    by_cases hce : c = e
    · subst hce
      simp [addAt] at hc
      subst hc
      simp [addAt]
    · have hpc : Ptr.ev c ≠ Ptr.ev e := fun e1 => hce (Ptr.ev.inj e1)
      simp only [addAt, Function.update_noteq hpc] at hc
      have hkc := h.back c k hk hc
      have hkj : k ≠ j := by
        intro e1; subst e1
        rw [hfree] at hkc
        cases hkc
      simp only [addAt, Function.update_noteq hkj]
      exact hkc
  · intro k hk hkb
    rw [hidx]
    by_cases hkj : k = j
    · subst hkj
      simp [addAt] at hkb
      exact absurd hkb hne
    · simp only [addAt, Function.update_noteq hkj] at hkb
      exact h.slot k hk hkb

theorem RegOf_removeWatch {MAX b : Nat} {s : State} {c i : Nat} (h : RegOf MAX b s)
    (hi : i < MAX) (ht : s.watch_table i = some c) :
    RegOf MAX b (removeWatch MAX s c i) ∧
      (c ≠ b → ((removeWatch MAX s c i).mem (.ev b)).index = (s.mem (.ev b)).index) := by
  have hother : c ≠ b →
      ((removeWatch MAX s c i).mem (.ev b)).index = (s.mem (.ev b)).index := by
    intro hne
    have hpb : Ptr.ev b ≠ Ptr.ev c := fun e1 => hne (Ptr.ev.inj e1).symm
    rw [removeWatch_mem_other _ _ _ _ _ hpb]
  refine ⟨⟨?_, ?_, ?_⟩, hother⟩
  · intro d k hk hd
    have hdc : d ≠ c := by
      intro e1; subst e1
      rw [removeWatch_mem_index_self] at hd
      omega
    have hpd : Ptr.ev d ≠ Ptr.ev c := fun e1 => hdc (Ptr.ev.inj e1)
    rw [removeWatch_mem_other _ _ _ _ _ hpd] at hd
    have hkd := h.back d k hk hd
    have hki : k ≠ i := by
      intro e1; subst e1
      rw [ht] at hkd
      exact hdc (Option.some.inj hkd).symm
    rw [removeWatch_watch_table, Function.update_noteq hki]
    exact hkd
  · intro k hk hkb
    rw [removeWatch_watch_table] at hkb
    by_cases hki : k = i
    · subst hki; simp at hkb
    · rw [Function.update_noteq hki] at hkb
      have hcb : c ≠ b := by
        intro e1; subst e1
        have h1 := h.slot k hk hkb
        have h2 := h.slot i hi ht
        rw [h1] at h2
        exact hki (by exact_mod_cast h2)
      rw [hother hcb]
      exact h.slot k hk hkb
  · by_cases hcb : c = b
    · subst hcb
      left
      exact removeWatch_mem_index_self _ _ _ _
    · rw [hother hcb]
      exact h.range

theorem cnd_event_add_RegOf {MAX b : Nat} {s s1 : State} {e : Nat} (h : RegOf MAX b s)
    (hne : e ≠ b) (hadd : cnd_event_add MAX s e = .ok s1) :
    RegOf MAX b s1 ∧ (s1.mem (.ev b)).index = (s.mem (.ev b)).index := by
  rcases cnd_event_add_cases MAX s e (cnd_event_add_ok_free hadd) with
    ⟨j, _, hfree, _, heq⟩ | ⟨_, heq⟩
  · rw [heq] at hadd
    cases hadd
    exact RegOf_addAt h hfree hne
  · rw [heq] at hadd
    cases hadd
    exact ⟨h, rfl⟩

theorem cnd_event_del_RegOf {MAX b : Nat} {s s1 : State} {e : Nat} (h : RegOf MAX b s)
    (hdel : cnd_event_del MAX s e = .ok s1) :
    RegOf MAX b s1 ∧ (e ≠ b → (s1.mem (.ev b)).index = (s.mem (.ev b)).index) ∧
      (e = b → (s1.mem (.ev b)).index = -1) := by
  rcases cnd_event_del_cases MAX s e (cnd_event_del_ok_free hdel) with
    ⟨k, hk, hidx, heq⟩ | ⟨hbad, heq⟩
  · rw [heq] at hdel
    cases hdel
    obtain ⟨h1, h2⟩ := RegOf_removeWatch (RegOf_lock true h) hk (h.back e k hk hidx)
    refine ⟨RegOf_lock false h1, h2, ?_⟩
    intro e1
    subst e1
    exact removeWatch_mem_index_self _ _ _ _
  · rw [heq] at hdel
    cases hdel
    refine ⟨RegOf_lock true h, fun _ => rfl, ?_⟩
    intro e1
    subst e1
    rcases h.range with e2 | ⟨e2, e3⟩
    · exact e2
    · exact absurd hbad (by
        show ¬ ((s.mem (.ev e)).index < 0 ∨ (s.mem (.ev e)).index ≥ MAX)
        omega)

/-- Registry calls none of which is `cnd_event_add` on `b` keep the
registration of `b` consistent; if `b` was unregistered or one of the calls is
`cnd_event_del` on `b`, then `b` is unregistered afterwards. -/
theorem runActions_RegOf {MAX b : Nat} : ∀ (acts : List Action) (s s1 : State),
    RegOf MAX b s → Action.add b ∉ acts → runActions MAX acts s = .ok s1 →
    RegOf MAX b s1 ∧
      (((s.mem (.ev b)).index = -1 ∨ Action.del b ∈ acts) → (s1.mem (.ev b)).index = -1) := by
  intro acts
  induction acts with
  | nil =>
    intro s s1 h _ hrun
    cases hrun
    refine ⟨h, ?_⟩
    rintro (e | e)
    · exact e
    · cases e
  | cons x acts ih =>
    intro s s1 h hno hrun
    have hno1 : Action.add b ∉ acts := fun hm => hno (List.mem_cons_of_mem _ hm)
    cases x with
    | add e =>
      simp only [runActions] at hrun
      have hne : e ≠ b := fun e1 => hno (e1 ▸ List.mem_cons_self _ _)
      cases hadd : cnd_event_add MAX s e with
      | error f => rw [hadd] at hrun; cases hrun
      | ok s2 =>
        rw [hadd] at hrun
        obtain ⟨h2, hidx2⟩ := cnd_event_add_RegOf h hne hadd
        obtain ⟨h3, himp⟩ := ih s2 s1 h2 hno1 hrun
        refine ⟨h3, ?_⟩
        rintro (e1 | e1)
        · exact himp (Or.inl (hidx2.trans e1))
        · rcases List.mem_cons.mp e1 with e2 | e2
          · cases e2
          · exact himp (Or.inr e2)
    | del e =>
      simp only [runActions] at hrun
      cases hdel : cnd_event_del MAX s e with
      | error f => rw [hdel] at hrun; cases hrun
      | ok s2 =>
        rw [hdel] at hrun
        obtain ⟨h2, hother, hself⟩ := cnd_event_del_RegOf h hdel
        obtain ⟨h3, himp⟩ := ih s2 s1 h2 hno1 hrun
        refine ⟨h3, ?_⟩
        intro hcase
        by_cases heb : e = b
        · exact himp (Or.inl (hself heb))
        · rcases hcase with e1 | e1
          · exact himp (Or.inl ((hother heb).trans e1))
          · rcases List.mem_cons.mp e1 with e2 | e2
            · exact absurd (Action.del.inj e2).symm heb
            · exact himp (Or.inr e2)

theorem readySlots_length_le (s : State) (rfds : Finset Int) : ∀ (k i : Nat) (n : Int),
    (readySlots s rfds k i n).length ≤ k
  | 0, _, _ => by simp [readySlots]
  | k + 1, i, n => by
    unfold readySlots
    split_ifs
    · have := readySlots_length_le s rfds k (i + 1) (n - 1)
      simp only [List.length_cons]
      omega
    · have := readySlots_length_le s rfds k (i + 1) n
      omega
    · simp

/-- A cycle whose callbacks make no registry call returns, given more fuel than
there are slots. -/
theorem dispatchCycle_idle_returns (MAX : Nat) (cb : Callbacks) (fuel : Nat)
    (rfds : Finset Int) (n : Int) (s : State)
    (hm : s.listMutex = false) (hq : QueueEmpty s) (hd : SlotsDistinct MAX s)
    (hcb : ∀ f d p st, cb f d p st = []) (hfuel : MAX < fuel) :
    ∃ s1, dispatchCycle MAX cb fuel rfds n s = .ok s1 := by
  obtain ⟨s2, hscan, hq2, _⟩ :=
    processReadReadyEvent_spec MAX rfds n s hm ((Queue_nil_iff s).mpr hq) hd
  obtain ⟨s1, hfire, _⟩ := firePendingEvent_idle MAX cb fuel s2 _ hq2
    (fun _ _ _ => hcb _ _ _ _)
    (lt_of_le_of_lt ((List.length_filterMap_le _ _).trans
      (readySlots_length_le s rfds MAX 0 n)) hfuel)
  exact ⟨s1, dispatchCycle_of_ok hscan hfire⟩

/-! ## Initialisation and configuration -/

theorem cnd_event_set_configured (s : State) (ev : Nat) (fd persist : Int) (func param : Nat) :
    Configured ((cnd_event_set s ev fd persist func param).mem (.ev ev)) := by
  simp [cnd_event_set, Configured]

theorem cnd_event_init_QueueEmpty (svc : Int) (s : State) :
    QueueEmpty (cnd_event_init svc s).2 := by
  simp [cnd_event_init, init_list, QueueEmpty]

theorem initState_QueueEmpty (mem0 : Nat → cnd_event) : QueueEmpty (initState mem0) :=
  cnd_event_init_QueueEmpty 0 (startState mem0)

/-! ## The rescan of removeWatch -/

theorem removeWatch_scan_ge (s : State) : ∀ (k i : Nat) (n : Int),
    n ≤ removeWatch_scan s k i n
  | 0, _, _ => le_refl _
  | k + 1, i, n => by
    unfold removeWatch_scan
    split
    · split
      · exact le_trans (by omega) (removeWatch_scan_ge s k (i + 1) _)
      · exact removeWatch_scan_ge s k (i + 1) n
    · exact removeWatch_scan_ge s k (i + 1) n

theorem removeWatch_scan_upper (s : State) : ∀ (k i : Nat) (n : Int) (j a : Nat),
    i ≤ j → j < i + k → s.watch_table j = some a →
    (s.mem (.ev a)).fd ≤ removeWatch_scan s k i n
  | 0, i, _, j, _, h1, h2, _ => by omega
  | k + 1, i, n, j, a, h1, h2, ha => by
    unfold removeWatch_scan
    by_cases hji : j = i
    · subst hji
      simp only [ha]
      split
      · exact removeWatch_scan_ge s k (j + 1) _
      · exact le_trans (by omega) (removeWatch_scan_ge s k (j + 1) n)
    · have h3 : i + 1 ≤ j := by omega
      have h4 : j < i + 1 + k := by omega
      split
      · split
        · exact removeWatch_scan_upper s k (i + 1) _ j a h3 h4 ha
        · exact removeWatch_scan_upper s k (i + 1) n j a h3 h4 ha
      · exact removeWatch_scan_upper s k (i + 1) n j a h3 h4 ha

theorem removeWatch_scan_attained (s : State) : ∀ (k i : Nat) (n : Int),
    removeWatch_scan s k i n = n ∨
      ∃ j a, i ≤ j ∧ j < i + k ∧ s.watch_table j = some a ∧
        (s.mem (.ev a)).fd = removeWatch_scan s k i n
  | 0, _, _ => Or.inl rfl
  | k + 1, i, n => by
    unfold removeWatch_scan
    cases ht : s.watch_table i with
    | none =>
      simp only []
      rcases removeWatch_scan_attained s k (i + 1) n with h | ⟨j, a, h1, h2, h3, h4⟩
      · exact Or.inl h
      · exact Or.inr ⟨j, a, by omega, by omega, h3, h4⟩
    | some rev =>
      simp only []
      split
      · rcases removeWatch_scan_attained s k (i + 1) (s.mem (.ev rev)).fd with
          h | ⟨j, a, h1, h2, h3, h4⟩
        · exact Or.inr ⟨i, rev, le_refl _, by omega, ht, h.symm⟩
        · exact Or.inr ⟨j, a, by omega, by omega, h3, h4⟩
      · rcases removeWatch_scan_attained s k (i + 1) n with h | ⟨j, a, h1, h2, h3, h4⟩
        · exact Or.inl h
        · exact Or.inr ⟨j, a, by omega, by omega, h3, h4⟩

theorem removeWatch_nfds_eq (MAX : Nat) (s : State) (ev i : Nat)
    (h : (s.mem (.ev ev)).fd + 1 = s.nfds) :
    (removeWatch MAX s ev i).nfds =
      removeWatch_scan (removeWatch MAX s ev i) MAX 0 0 + 1 := by
  have hfd : ∀ (t : State) k j n, t.watch_table = Function.update s.watch_table i none →
      (∀ p, (t.mem p).fd = (s.mem p).fd) →
      removeWatch_scan t k j n = removeWatch_scan
        { s with watch_table := Function.update s.watch_table i none } k j n := by
    intro t k
    induction k with
    | zero => intro j n _ _; rfl
    | succ k ih =>
      intro j n ht hd
      unfold removeWatch_scan
      simp only [ht, hd]
      cases Function.update s.watch_table i none j with
      | none => exact ih (j + 1) n ht hd
      | some rev =>
        simp only []
        split
        · exact ih (j + 1) _ ht hd
        · exact ih (j + 1) n ht hd
  have hd1 : ∀ p, ((removeWatch MAX s ev i).mem p).fd = (s.mem p).fd :=
    fun p => ((removeWatch_frame MAX s ev i).2.1 p).1
  rw [hfd _ MAX 0 0 (removeWatch_watch_table MAX s ev i) hd1]
  unfold removeWatch
  simp only [setIndex]
  split
  · simp only []
    congr 1
    apply hfd
    · rfl
    · intro p
      by_cases hp : p = .ev ev
      · subst hp; simp
      · simp [Function.update_noteq hp]
  · rename_i h1; simp at h1; exact absurd h h1

/-! ## Invariants of the states reached by registry calls and scans -/

theorem Reach_of_RegSeq {MAX : Nat} {pre : State → Nat → Prop} {s0 s : State}
    (h : RegSeq MAX pre s0 s) : Reach MAX pre s0 s := by
  induction h with
  | start => exact Reach.start
  | add ev _ hpre hadd ih => exact Reach.add ev ih hpre hadd
  | del ev _ hdel ih => exact Reach.del ev ih hdel

theorem Watched_SameReg {MAX : Nat} {s s1 : State} (hs : SameReg s s1) (d : Int) :
    Watched MAX s1 d ↔ Watched MAX s d := by
  obtain ⟨r1, _, _, _, _, r6⟩ := hs
  unfold Watched
  simp only [r1, (r6 _).1]

theorem FdInv_SameReg {MAX : Nat} {s s1 : State} (hs : SameReg s s1) (h : FdInv MAX s) :
    FdInv MAX s1 := by
  refine ⟨?_, ?_⟩
  · intro d
    rw [Watched_SameReg hs, hs.2.1]
    exact h.iff d
  · intro i j a b hi hj ha hb hab
    rw [hs.1] at ha hb
    rw [(hs.2.2.2.2.2 _).1, (hs.2.2.2.2.2 _).1] at hab
    exact h.distinct i j a b hi hj ha hb hab

theorem NfdsInv_SameReg {MAX : Nat} {s s1 : State} (hs : SameReg s s1) (h : NfdsInv MAX s) :
    NfdsInv MAX s1 := by
  refine ⟨?_, ?_⟩
  · intro d hd
    rw [Watched_SameReg hs]
    rw [hs.2.1] at hd
    exact h.sub d hd
  · intro i a hi ha
    rw [hs.1] at ha
    rw [(hs.2.2.2.2.2 _).1, hs.2.2.1]
    exact h.bound i a hi ha

theorem NfdsTop_SameReg {MAX : Nat} {s s1 : State} (hs : SameReg s s1) (h : NfdsTop MAX s) :
    NfdsTop MAX s1 := by
  refine ⟨?_, ?_, ?_⟩
  · intro i a hi ha
    rw [hs.1] at ha
    rw [(hs.2.2.2.2.2 _).1]
    exact h.nonneg i a hi ha
  · intro i a hi ha
    rw [hs.1] at ha
    obtain ⟨j, b, hj, hb, hn⟩ := h.attained i a hi ha
    refine ⟨j, b, hj, by rw [hs.1]; exact hb, ?_⟩
    rw [(hs.2.2.2.2.2 _).1, hs.2.2.1]
    exact hn
  · intro he
    rw [hs.2.2.1]
    apply h.empty
    intro i hi
    rw [← hs.1]
    exact he i hi

theorem NfdsInv_lock {MAX : Nat} {s : State} (b : Bool) (h : NfdsInv MAX s) :
    NfdsInv MAX { s with listMutex := b } := ⟨h.sub, h.bound⟩

theorem NfdsTop_lock {MAX : Nat} {s : State} (b : Bool) (h : NfdsTop MAX s) :
    NfdsTop MAX { s with listMutex := b } := ⟨h.nonneg, h.attained, h.empty⟩

theorem NfdsInv_addAt {MAX : Nat} {s : State} {ev j : Nat} (h : NfdsInv MAX s)
    (hj : j < MAX) (hfree : s.watch_table j = none) : NfdsInv MAX (addAt s ev j) := by
  have htab : ∀ i, i ≠ j → (addAt s ev j).watch_table i = s.watch_table i := by
    intro i hi; simp only [addAt, Function.update_noteq hi]
  have htabj : (addAt s ev j).watch_table j = some ev := by simp [addAt]
  have hfd : ∀ a, ((addAt s ev j).mem (.ev a)).fd = (s.mem (.ev a)).fd := addAt_fd s ev j
  have hnf : (addAt s ev j).nfds =
      if (s.mem (.ev ev)).fd ≥ s.nfds then (s.mem (.ev ev)).fd + 1 else s.nfds := rfl
  refine ⟨?_, ?_⟩
  · intro d hd
    have hd1 : d = (s.mem (.ev ev)).fd ∨ d ∈ s.readFds := by
      simpa [addAt] using hd
    rcases hd1 with hd1 | hd1
    · exact ⟨j, hj, ev, htabj, by rw [hfd, hd1]⟩
    · obtain ⟨k, hk, a, ha, hfa⟩ := h.sub d hd1
      have hkj : k ≠ j := by
        intro hkj; rw [hkj, hfree] at ha; cases ha
      exact ⟨k, hk, a, by rw [htab k hkj]; exact ha, by rw [hfd]; exact hfa⟩
  · intro i a hi ha
    rw [hfd, hnf]
    by_cases hij : i = j
    · rw [hij, htabj] at ha
      cases ha
      split <;> omega
    · rw [htab i hij] at ha
      have := h.bound i a hi ha
      split <;> omega

theorem NfdsTop_addAt {MAX : Nat} {s : State} {ev j : Nat} (h : NfdsTop MAX s)
    (hj : j < MAX) (hfree : s.watch_table j = none)
    (hpos : 0 ≤ (s.mem (.ev ev)).fd) : NfdsTop MAX (addAt s ev j) := by
  have htab : ∀ i, i ≠ j → (addAt s ev j).watch_table i = s.watch_table i := by
    intro i hi; simp only [addAt, Function.update_noteq hi]
  have htabj : (addAt s ev j).watch_table j = some ev := by simp [addAt]
  have hfd : ∀ a, ((addAt s ev j).mem (.ev a)).fd = (s.mem (.ev a)).fd := addAt_fd s ev j
  have hnf : (addAt s ev j).nfds =
      if (s.mem (.ev ev)).fd ≥ s.nfds then (s.mem (.ev ev)).fd + 1 else s.nfds := rfl
  refine ⟨?_, ?_, ?_⟩
  · intro i a hi ha
    rw [hfd]
    by_cases hij : i = j
    · rw [hij, htabj] at ha; cases ha; exact hpos
    · rw [htab i hij] at ha; exact h.nonneg i a hi ha
  · intro _ _ _ _
    by_cases hge : (s.mem (.ev ev)).fd ≥ s.nfds
    · exact ⟨j, ev, hj, htabj, by rw [hnf, if_pos hge, hfd]⟩
    · by_cases hne : ∃ k c, k < MAX ∧ s.watch_table k = some c
      · obtain ⟨k, c, hk, hc⟩ := hne
        obtain ⟨l, b, hl, hlb, hn⟩ := h.attained k c hk hc
        have hlj : l ≠ j := by
          intro hlj; rw [hlj, hfree] at hlb; cases hlb
        exact ⟨l, b, hl, by rw [htab l hlj]; exact hlb, by rw [hnf, if_neg hge, hfd]; exact hn⟩
      · have hemp : ∀ k, k < MAX → s.watch_table k = none := by
          intro k hk
          cases hc : s.watch_table k with
          | none => rfl
          | some c => exact absurd ⟨k, c, hk, hc⟩ hne
        have := h.empty hemp
        exact ⟨j, ev, hj, htabj, by rw [hnf, if_neg hge, hfd]; omega⟩
  · intro he
    have := he j hj
    rw [htabj] at this
    cases this

theorem NfdsInv_removeWatch {MAX : Nat} {s : State} {ev i : Nat} (h : NfdsInv MAX s)
    (htab : s.watch_table i = some ev) : NfdsInv MAX (removeWatch MAX s ev i) := by
  have htab1 : ∀ k, k ≠ i → (removeWatch MAX s ev i).watch_table k = s.watch_table k := by
    intro k hk; rw [removeWatch_watch_table, Function.update_noteq hk]
  have htabi : (removeWatch MAX s ev i).watch_table i = none := by
    rw [removeWatch_watch_table, Function.update_same]
  have hfd : ∀ p, ((removeWatch MAX s ev i).mem p).fd = (s.mem p).fd :=
    fun p => ((removeWatch_frame MAX s ev i).2.1 p).1
  refine ⟨?_, ?_⟩
  · intro d hd
    rw [removeWatch_readFds, Finset.mem_erase] at hd
    obtain ⟨k, hk, a, ha, hfa⟩ := h.sub d hd.2
    have hki : k ≠ i := by
      intro hki
      rw [hki, htab] at ha
      cases ha
      exact hd.1 hfa.symm
    exact ⟨k, hk, a, by rw [htab1 k hki]; exact ha, by rw [hfd]; exact hfa⟩
  · intro k a hk ha
    have hki : k ≠ i := by
      intro hki; rw [hki, htabi] at ha; cases ha
    by_cases hmax : (s.mem (.ev ev)).fd + 1 = s.nfds
    · rw [removeWatch_nfds_eq MAX s ev i hmax]
      have := removeWatch_scan_upper (removeWatch MAX s ev i) MAX 0 0 k a (Nat.zero_le _)
        (by omega) ha
      omega
    · rw [removeWatch_nfds_ne MAX s ev i hmax, hfd]
      rw [htab1 k hki] at ha
      exact h.bound k a hk ha

theorem NfdsTop_removeWatch {MAX : Nat} {s : State} {ev i : Nat} (h : NfdsTop MAX s)
    (hi : i < MAX) (htab : s.watch_table i = some ev) :
    NfdsTop MAX (removeWatch MAX s ev i) := by
  have htab1 : ∀ k, k ≠ i → (removeWatch MAX s ev i).watch_table k = s.watch_table k := by
    intro k hk; rw [removeWatch_watch_table, Function.update_noteq hk]
  have htabi : (removeWatch MAX s ev i).watch_table i = none := by
    rw [removeWatch_watch_table, Function.update_same]
  have hfd : ∀ p, ((removeWatch MAX s ev i).mem p).fd = (s.mem p).fd :=
    fun p => ((removeWatch_frame MAX s ev i).2.1 p).1
  have hkeep : (s.mem (.ev ev)).fd + 1 ≠ s.nfds →
      ∃ j b, j < MAX ∧ (removeWatch MAX s ev i).watch_table j = some b ∧
        (removeWatch MAX s ev i).nfds = ((removeWatch MAX s ev i).mem (.ev b)).fd + 1 := by
    intro hmax
    obtain ⟨j, b, hj, hjb, hn⟩ := h.attained i ev hi htab
    have hji : j ≠ i := by
      intro hji
      rw [hji, htab] at hjb
      cases hjb
      exact hmax hn.symm
    exact ⟨j, b, hj, by rw [htab1 j hji]; exact hjb,
      by rw [removeWatch_nfds_ne MAX s ev i hmax, hfd]; exact hn⟩
  refine ⟨?_, ?_, ?_⟩
  · intro k a hk ha
    have hki : k ≠ i := by
      intro hki; rw [hki, htabi] at ha; cases ha
    rw [htab1 k hki] at ha
    rw [hfd]
    exact h.nonneg k a hk ha
  · intro k a hk ha
    have hki : k ≠ i := by
      intro hki; rw [hki, htabi] at ha; cases ha
    by_cases hmax : (s.mem (.ev ev)).fd + 1 = s.nfds
    · have hn := removeWatch_nfds_eq MAX s ev i hmax
      rcases removeWatch_scan_attained (removeWatch MAX s ev i) MAX 0 0 with
        hz | ⟨j, b, _, hj, hb, hfb⟩
      · have hle := removeWatch_scan_upper (removeWatch MAX s ev i) MAX 0 0 k a
          (Nat.zero_le _) (by omega) ha
        have hge := h.nonneg k a hk (by rw [← htab1 k hki]; exact ha)
        rw [hfd] at hle
        exact ⟨k, a, hk, ha, by rw [hn, hfd, hz]; omega⟩
      · exact ⟨j, b, by omega, hb, by rw [hn, hfb]⟩
    · exact hkeep hmax
  · intro he
    by_cases hmax : (s.mem (.ev ev)).fd + 1 = s.nfds
    · rw [removeWatch_nfds_eq MAX s ev i hmax]
      rcases removeWatch_scan_attained (removeWatch MAX s ev i) MAX 0 0 with
        hz | ⟨j, b, _, hj, hb, _⟩
      · right; rw [hz]; rfl
      · rw [he j (by omega)] at hb; cases hb
    · obtain ⟨j, b, hj, hb, _⟩ := hkeep hmax
      rw [he j hj] at hb
      cases hb

theorem cnd_event_add_NfdsInv {MAX : Nat} {s s1 : State} {ev : Nat} (h : NfdsInv MAX s)
    (hadd : cnd_event_add MAX s ev = .ok s1) : NfdsInv MAX s1 := by
  rcases cnd_event_add_cases MAX s ev (cnd_event_add_ok_free hadd) with
    ⟨j, hj, hfree, _, heq⟩ | ⟨_, heq⟩
  · rw [heq] at hadd; cases hadd
    exact NfdsInv_addAt h hj hfree
  · rw [heq] at hadd; cases hadd
    exact h

theorem cnd_event_add_NfdsTop {MAX : Nat} {s s1 : State} {ev : Nat} (h : NfdsTop MAX s)
    (hpos : 0 ≤ (s.mem (.ev ev)).fd) (hadd : cnd_event_add MAX s ev = .ok s1) :
    NfdsTop MAX s1 := by
  rcases cnd_event_add_cases MAX s ev (cnd_event_add_ok_free hadd) with
    ⟨j, hj, hfree, _, heq⟩ | ⟨_, heq⟩
  · rw [heq] at hadd; cases hadd
    exact NfdsTop_addAt h hj hfree hpos
  · rw [heq] at hadd; cases hadd
    exact h

theorem cnd_event_del_NfdsInv {MAX : Nat} {s s1 : State} {ev : Nat} (h : NfdsInv MAX s)
    (hr : RegInv MAX s) (hdel : cnd_event_del MAX s ev = .ok s1) : NfdsInv MAX s1 := by
  rcases cnd_event_del_cases MAX s ev (cnd_event_del_ok_free hdel) with
    ⟨i, hi, hidx, heq⟩ | ⟨_, heq⟩
  · rw [heq] at hdel; cases hdel
    have htab : s.watch_table i = some ev := hr.back ev i hi hidx
    exact NfdsInv_lock false (@NfdsInv_removeWatch MAX _ ev i (NfdsInv_lock true h) htab)
  · rw [heq] at hdel; cases hdel
    exact NfdsInv_lock true h

theorem cnd_event_del_NfdsTop {MAX : Nat} {s s1 : State} {ev : Nat} (h : NfdsTop MAX s)
    (hr : RegInv MAX s) (hdel : cnd_event_del MAX s ev = .ok s1) : NfdsTop MAX s1 := by
  rcases cnd_event_del_cases MAX s ev (cnd_event_del_ok_free hdel) with
    ⟨i, hi, hidx, heq⟩ | ⟨_, heq⟩
  · rw [heq] at hdel; cases hdel
    have htab : s.watch_table i = some ev := hr.back ev i hi hidx
    exact NfdsTop_lock false (@NfdsTop_removeWatch MAX _ ev i (NfdsTop_lock true h) hi htab)
  · rw [heq] at hdel; cases hdel
    exact NfdsTop_lock true h

theorem processReadReadyEvent_FdInv {MAX : Nat} {rfds : Finset Int} {n : Int}
    {s s1 : State} (hr : RegInv MAX s) (h : FdInv MAX s)
    (hscan : processReadReadyEvent MAX rfds n s = .ok s1) : FdInv MAX s1 :=
  (processReadReadyEvent_keeps MAX rfds (fun t => RegInv MAX t ∧ FdInv MAX t)
    (fun _ _ hreg hP => ⟨RegInv_SameReg hreg.sameReg hP.1, FdInv_SameReg hreg.sameReg hP.2⟩)
    (fun _ b hP => ⟨RegInv_lock b hP.1, FdInv_lock b hP.2⟩)
    (fun _ rev i hi hP ht _ => ⟨RegInv_removeWatch hP.1 hi ht,
      FdInv_removeWatch hP.2 hi ht (fun k hk hkr => hP.1.slotsDistinct k i rev hk hi hkr ht)⟩)
    n s s1 ⟨hr, h⟩ hscan).1.2

theorem processReadReadyEvent_NfdsInv {MAX : Nat} {rfds : Finset Int} {n : Int}
    {s s1 : State} (h : NfdsInv MAX s)
    (hscan : processReadReadyEvent MAX rfds n s = .ok s1) : NfdsInv MAX s1 :=
  (processReadReadyEvent_keeps MAX rfds (fun t => NfdsInv MAX t)
    (fun _ _ hreg hP => NfdsInv_SameReg hreg.sameReg hP)
    (fun _ b hP => NfdsInv_lock b hP)
    (fun _ _ _ _ hP ht _ => NfdsInv_removeWatch hP ht)
    n s s1 h hscan).1

theorem processReadReadyEvent_NfdsTop {MAX : Nat} {rfds : Finset Int} {n : Int}
    {s s1 : State} (h : NfdsTop MAX s)
    (hscan : processReadReadyEvent MAX rfds n s = .ok s1) : NfdsTop MAX s1 :=
  (processReadReadyEvent_keeps MAX rfds (fun t => NfdsTop MAX t)
    (fun _ _ hreg hP => NfdsTop_SameReg hreg.sameReg hP)
    (fun _ b hP => NfdsTop_lock b hP)
    (fun _ _ _ hi hP ht _ => NfdsTop_removeWatch hP hi ht)
    n s s1 h hscan).1

theorem initState_NfdsInv (MAX : Nat) (mem0 : Nat → cnd_event) :
    NfdsInv MAX (initState mem0) := by
  refine ⟨?_, ?_⟩
  · intro d hd
    rw [initState_readFds] at hd
    simp at hd
  · intro i a _ ha
    rw [initState_watch_table] at ha
    cases ha

theorem initState_NfdsTop (MAX : Nat) (mem0 : Nat → cnd_event) :
    NfdsTop MAX (initState mem0) := by
  refine ⟨?_, ?_, ?_⟩
  · intro i a _ ha
    rw [initState_watch_table] at ha
    cases ha
  · intro i a _ ha
    rw [initState_watch_table] at ha
    cases ha
  · intro _
    exact Or.inl rfl

theorem Reach_RegInv {MAX : Nat} {pre : State → Nat → Prop} {mem0 : Nat → cnd_event}
    {s : State} (hpre : ∀ t ev, pre t ev → Unregistered MAX t ev)
    (hcfg : ∀ a, Configured (mem0 a)) (h : Reach MAX pre (initState mem0) s) :
    RegInv MAX s := by
  induction h with
  | start => exact initState_RegInv MAX mem0 hcfg
  | add ev _ hp hadd ih => exact cnd_event_add_RegInv ih (hpre _ _ hp) hadd
  | del ev _ hdel ih => exact cnd_event_del_RegInv ih hdel
  | scan rfds n _ hscan ih => exact (processReadReadyEvent_RegInv ih hscan).1

theorem Reach_FdInv {MAX : Nat} {mem0 : Nat → cnd_event} {s : State}
    (hcfg : ∀ a, Configured (mem0 a))
    (h : Reach MAX (fun t ev => Unregistered MAX t ev ∧ FreshFd MAX t ev) (initState mem0) s) :
    RegInv MAX s ∧ FdInv MAX s := by
  induction h with
  | start => exact ⟨initState_RegInv MAX mem0 hcfg, initState_FdInv MAX mem0⟩
  | add ev _ hp hadd ih =>
    exact ⟨cnd_event_add_RegInv ih.1 hp.1 hadd, cnd_event_add_FdInv ih.2 hp.2 hadd⟩
  | del ev _ hdel ih => exact ⟨cnd_event_del_RegInv ih.1 hdel, cnd_event_del_FdInv ih.2 ih.1 hdel⟩
  | scan rfds n _ hscan ih =>
    exact ⟨(processReadReadyEvent_RegInv ih.1 hscan).1, processReadReadyEvent_FdInv ih.1 ih.2 hscan⟩

theorem Reach_NfdsInv {MAX : Nat} {pre : State → Nat → Prop} {mem0 : Nat → cnd_event}
    {s : State} (hpre : ∀ t ev, pre t ev → Unregistered MAX t ev)
    (hcfg : ∀ a, Configured (mem0 a)) (h : Reach MAX pre (initState mem0) s) :
    RegInv MAX s ∧ NfdsInv MAX s := by
  induction h with
  | start => exact ⟨initState_RegInv MAX mem0 hcfg, initState_NfdsInv MAX mem0⟩
  | add ev _ hp hadd ih =>
    exact ⟨cnd_event_add_RegInv ih.1 (hpre _ _ hp) hadd, cnd_event_add_NfdsInv ih.2 hadd⟩
  | del ev _ hdel ih =>
    exact ⟨cnd_event_del_RegInv ih.1 hdel, cnd_event_del_NfdsInv ih.2 ih.1 hdel⟩
  | scan rfds n _ hscan ih =>
    exact ⟨(processReadReadyEvent_RegInv ih.1 hscan).1, processReadReadyEvent_NfdsInv ih.2 hscan⟩

theorem Reach_NfdsTop {MAX : Nat} {mem0 : Nat → cnd_event} {s : State}
    (hcfg : ∀ a, Configured (mem0 a))
    (h : Reach MAX (fun t ev => Unregistered MAX t ev ∧ 0 ≤ (t.mem (.ev ev)).fd)
      (initState mem0) s) :
    RegInv MAX s ∧ NfdsInv MAX s ∧ NfdsTop MAX s := by
  induction h with
  | start =>
    exact ⟨initState_RegInv MAX mem0 hcfg, initState_NfdsInv MAX mem0,
      initState_NfdsTop MAX mem0⟩
  | add ev _ hp hadd ih =>
    exact ⟨cnd_event_add_RegInv ih.1 hp.1 hadd, cnd_event_add_NfdsInv ih.2.1 hadd,
      cnd_event_add_NfdsTop ih.2.2 hp.2 hadd⟩
  | del ev _ hdel ih =>
    exact ⟨cnd_event_del_RegInv ih.1 hdel, cnd_event_del_NfdsInv ih.2.1 ih.1 hdel,
      cnd_event_del_NfdsTop ih.2.2 ih.1 hdel⟩
  | scan rfds n _ hscan ih =>
    exact ⟨(processReadReadyEvent_RegInv ih.1 hscan).1,
      processReadReadyEvent_NfdsInv ih.2.1 hscan, processReadReadyEvent_NfdsTop ih.2.2 hscan⟩

/-! ## The scan with early exit and the scan of all slots -/

theorem scanAllSlots_loop_skip (MAX : Nat) (rfds : Finset Int) (k i : Nat) (s : State)
    (hr : slotReady s rfds i = false) :
    scanAllSlots_loop MAX rfds (k + 1) i s = scanAllSlots_loop MAX rfds k (i + 1) s := by
  unfold slotReady at hr
  cases ht : s.watch_table i with
  | none => simp only [scanAllSlots_loop, ht]
  | some rev =>
    rw [ht] at hr
    have hr1 : FD_ISSET (s.mem (.ev rev)).fd rfds = false := hr
    simp [scanAllSlots_loop, ht, hr1]

theorem scanAllSlots_loop_match (MAX : Nat) (rfds : Finset Int) (k i : Nat) (s : State)
    (rev : Nat) (ht : s.watch_table i = some rev) (hr : slotReady s rfds i = true) :
    (∀ e, addToList s (.ev rev) .pending_list = .error e →
      scanAllSlots_loop MAX rfds (k + 1) i s = .error e) ∧
    (∀ s1, addToList s (.ev rev) .pending_list = .ok s1 →
      scanAllSlots_loop MAX rfds (k + 1) i s =
        scanAllSlots_loop MAX rfds k (i + 1)
          (if (s1.mem (.ev rev)).persist = 0 then removeWatch MAX s1 rev i else s1)) := by
  unfold slotReady at hr
  rw [ht] at hr
  have hr1 : FD_ISSET (s.mem (.ev rev)).fd rfds = true := hr
  constructor
  · intro e he
    rw [scanAllSlots_loop]
    simp only [ht, hr1, if_true, he]
  · intro s1 he
    rw [scanAllSlots_loop]
    simp only [ht, hr1, if_true, he]

theorem processReadReadyEvent_loop_step (MAX : Nat) (rfds : Finset Int) (k i : Nat) (n : Int)
    (s : State) (rev : Nat) (hn : n > 0) (ht : s.watch_table i = some rev)
    (hr : slotReady s rfds i = true) :
    (∀ e, addToList s (.ev rev) .pending_list = .error e →
      processReadReadyEvent_loop MAX rfds (k + 1) i n s = .error e) ∧
    (∀ s1, addToList s (.ev rev) .pending_list = .ok s1 →
      processReadReadyEvent_loop MAX rfds (k + 1) i n s =
        processReadReadyEvent_loop MAX rfds k (i + 1) (n - 1)
          (if (s1.mem (.ev rev)).persist = 0 then removeWatch MAX s1 rev i else s1)) := by
  constructor
  · intro e he
    rw [processReadReadyEvent_loop_match MAX rfds k i n s rev hn ht hr, he]
  · intro s1 he
    rw [processReadReadyEvent_loop_match MAX rfds k i n s rev hn ht hr, he]

theorem scanAllSlots_loop_none (MAX : Nat) (rfds : Finset Int) : ∀ (k i : Nat) (s : State),
    (List.range' i k).filter (slotReady s rfds) = [] →
    scanAllSlots_loop MAX rfds k i s = .ok s
  | 0, _, _, _ => rfl
  | k + 1, i, s, h => by
    rw [List.range'_succ] at h
    have hr : slotReady s rfds i = false := by
      cases hc : slotReady s rfds i with
      | false => rfl
      | true => rw [List.filter_cons_of_pos hc] at h; cases h
    rw [List.filter_cons_of_neg (by simp [hr])] at h
    rw [scanAllSlots_loop_skip MAX rfds k i s hr]
    exact scanAllSlots_loop_none MAX rfds k (i + 1) s h

theorem scan_step_filter {MAX : Nat} {s s1 : State} {rfds : Finset Int} {i rev : Nat}
    (hadd : addToList s (.ev rev) .pending_list = .ok s1) (k : Nat) :
    (List.range' (i + 1) k).filter
        (slotReady (if (s1.mem (.ev rev)).persist = 0 then removeWatch MAX s1 rev i else s1)
          rfds) =
      (List.range' (i + 1) k).filter (slotReady s rfds) := by
  have hreg := addToList_RegEq hadd
  apply List.filter_congr
  intro j hj
  have hji : j ≠ i := by
    have := (List.mem_range'_1.mp hj).1
    omega
  split
  · apply slotReady_congr
    · rw [removeWatch_watch_table, Function.update_noteq hji, hreg.1]
    · exact hreg.2.2.2.2.2.2.dataTrans (removeWatch_frame MAX s1 rev i).2.1
  · exact slotReady_congr (by rw [hreg.1]) hreg.2.2.2.2.2.2

theorem processReadReadyEvent_loop_eq_scanAll (MAX : Nat) (rfds : Finset Int) :
    ∀ (k i : Nat) (n : Int) (s : State),
      (((List.range' i k).filter (slotReady s rfds)).length : Int) ≤ n →
      processReadReadyEvent_loop MAX rfds k i n s = scanAllSlots_loop MAX rfds k i s
  | 0, _, _, _, _ => rfl
  | k + 1, i, n, s, h => by
    by_cases hr : slotReady s rfds i = true
    · have h1 := h
      rw [List.range'_succ, List.filter_cons_of_pos hr] at h1
      simp only [List.length_cons, Nat.cast_add, Nat.cast_one] at h1
      have hn : n > 0 := by omega
      obtain ⟨rev, ht, _⟩ := slotReady_true hr
      cases hadd : addToList s (.ev rev) .pending_list with
      | error e =>
        rw [(processReadReadyEvent_loop_step MAX rfds k i n s rev hn ht hr).1 e hadd,
          (scanAllSlots_loop_match MAX rfds k i s rev ht hr).1 e hadd]
      | ok s1 =>
        rw [(processReadReadyEvent_loop_step MAX rfds k i n s rev hn ht hr).2 s1 hadd,
          (scanAllSlots_loop_match MAX rfds k i s rev ht hr).2 s1 hadd]
        apply processReadReadyEvent_loop_eq_scanAll MAX rfds k (i + 1) (n - 1)
        rw [scan_step_filter hadd k]
        omega
    · have hr0 : slotReady s rfds i = false := by
        cases hc : slotReady s rfds i with
        | false => rfl
        | true => exact absurd hc hr
      by_cases hn : n > 0
      · rw [processReadReadyEvent_loop_skip MAX rfds k i n s hn hr0,
          scanAllSlots_loop_skip MAX rfds k i s hr0]
        apply processReadReadyEvent_loop_eq_scanAll MAX rfds k (i + 1) n
        rw [List.range'_succ, List.filter_cons_of_neg (by simp [hr0])] at h
        exact h
      · rw [processReadReadyEvent_loop_done MAX rfds (k + 1) i n s hn]
        symm
        apply scanAllSlots_loop_none
        have hlen : ((List.range' i (k + 1)).filter (slotReady s rfds)).length = 0 := by
          omega
        exact List.length_eq_zero.mp hlen

theorem processReadReadyEvent_eq_scanAllSlots (MAX : Nat) (rfds : Finset Int) (n : Int)
    (s : State)
    (h : (((List.range' 0 MAX).filter (slotReady s rfds)).length : Int) ≤ n) :
    processReadReadyEvent MAX rfds n s = scanAllSlots MAX rfds s := by
  unfold processReadReadyEvent scanAllSlots
  cases hacq : MUTEX_ACQUIRE s with
  | error e => rfl
  | ok s1 =>
    simp only []
    have hs1 : s1 = { s with listMutex := true } := by
      unfold MUTEX_ACQUIRE at hacq
      split at hacq
      · cases hacq
      · cases hacq; rfl
    have hf : (List.range' 0 MAX).filter (slotReady s1 rfds) =
        (List.range' 0 MAX).filter (slotReady s rfds) := by
      rw [hs1]; rfl
    rw [processReadReadyEvent_loop_eq_scanAll MAX rfds MAX 0 n s1 (by rw [hf]; exact h)]

theorem ready_slots_le_card {MAX : Nat} {s : State} (rfds : Finset Int)
    (hslots : SlotsDistinct MAX s)
    (hfd : ∀ i j a b, i < MAX → j < MAX → s.watch_table i = some a →
      s.watch_table j = some b → (s.mem (.ev a)).fd = (s.mem (.ev b)).fd → a = b) :
    ((List.range' 0 MAX).filter (slotReady s rfds)).length ≤ rfds.card := by
  let f : Nat → Int := fun j =>
    match s.watch_table j with
    | some a => (s.mem (.ev a)).fd
    | none => 0
  have hf : ∀ j a, s.watch_table j = some a → f j = (s.mem (.ev a)).fd := by
    intro j a ha
    show (match s.watch_table j with
      | some a => (s.mem (.ev a)).fd
      | none => 0) = _
    rw [ha]
  have hmem : ∀ j, j ∈ (List.range' 0 MAX).filter (slotReady s rfds) →
      j < MAX ∧ ∃ a, s.watch_table j = some a ∧ (s.mem (.ev a)).fd ∈ rfds := by
    intro j hj
    rw [List.mem_filter, List.mem_range'_1] at hj
    exact ⟨by omega, slotReady_true hj.2⟩
  have hnd : ((List.range' 0 MAX).filter (slotReady s rfds)).Nodup :=
    (List.nodup_range' 0 MAX).filter _
  have hnd2 : (((List.range' 0 MAX).filter (slotReady s rfds)).map f).Nodup := by
    apply List.Nodup.map_on _ hnd
    intro x hx y hy hxy
    obtain ⟨hx1, a, ha, _⟩ := hmem x hx
    obtain ⟨hy1, b, hb, _⟩ := hmem y hy
    rw [hf x a ha, hf y b hb] at hxy
    have hab := hfd x y a b hx1 hy1 ha hb hxy
    rw [← hab] at hb
    exact hslots x y a hx1 hy1 ha hb
  have hsub : (((List.range' 0 MAX).filter (slotReady s rfds)).map f).toFinset ⊆ rfds := by
    intro d hd
    rw [List.mem_toFinset, List.mem_map] at hd
    obtain ⟨j, hj, hjd⟩ := hd
    obtain ⟨_, a, ha, har⟩ := hmem j hj
    rw [← hjd, hf j a ha]
    exact har
  have hcard := Finset.card_le_card hsub
  rw [List.toFinset_card_of_nodup hnd2, List.length_map] at hcard
  exact hcard

/-! ## Filling and draining the pending list -/

theorem addAllToList_queue : ∀ (L : List Nat) (s : State) (L0 : List Nat), Queue s L0 →
    L.Nodup → (∀ a, a ∈ L → a ∉ L0) →
    ∃ s1, addAllToList L s = .ok s1 ∧ Queue s1 (L0 ++ L) ∧ RegEq s s1
  | [], s, L0, hq, _, _ => ⟨s, rfl, by simpa using hq, RegEq.regRefl s⟩
  | a :: L, s, L0, hq, hnd, hdis => by
    obtain ⟨s1, hadd, hq1, hreg1⟩ := addToList_queue hq (hdis a (List.mem_cons_self _ _))
    have hnd1 := List.nodup_cons.mp hnd
    have hdis1 : ∀ c, c ∈ L → c ∉ L0 ++ [a] := by
      intro c hc hmem
      rcases List.mem_append.mp hmem with h | h
      · exact hdis c (List.mem_cons_of_mem _ hc) h
      · rw [List.mem_singleton] at h
        exact hnd1.1 (h ▸ hc)
    obtain ⟨s2, hall, hq2, hreg2⟩ := addAllToList_queue L s1 (L0 ++ [a]) hq1 hnd1.2 hdis1
    refine ⟨s2, ?_, by simpa using hq2, hreg1.regTrans hreg2⟩
    rw [addAllToList, hadd]
    exact hall

theorem firePendingEvent_loop_prefix (MAX : Nat) (cb : Callbacks) :
    ∀ (L1 L2 : List Nat) (fuel : Nat) (s s2 : State), Queue s (L1 ++ L2) →
      firePendingEvent_loop MAX cb fuel (some (headPtr (L1 ++ L2))) s = .ok s2 →
      ∃ s1 fuel1, Queue s1 L2 ∧ DataEq s s1 ∧ s1.fired = s.fired ++ L1.map (firedOf s) ∧
        firePendingEvent_loop MAX cb fuel1 (some (headPtr L2)) s1 = .ok s2
  | [], L2, fuel, s, s2, hq, h => ⟨s, fuel, hq, DataEq.dataRefl s, by simp, h⟩
  | a :: L1, L2, fuel, s, s2, hq, h => by
    cases fuel with
    | zero => simp [firePendingEvent_loop] at h
    | succ fuel =>
      have hq0 : Queue s (a :: (L1 ++ L2)) := hq
      obtain ⟨t, _, hqt, hreg, _, _, herr, hok⟩ := firePendingEvent_loop_cons MAX cb hq0
      have h0 : firePendingEvent_loop MAX cb (fuel + 1) (some (.ev a)) s = .ok s2 := h
      cases hinv : invoke MAX cb t a with
      | error f =>
        rw [herr fuel f hinv] at h0
        cases h0
      | ok t2 =>
        rw [hok fuel t2 hinv] at h0
        obtain ⟨hl, hd, hf⟩ := invoke_frame hinv
        have hdt : DataEq s t := hreg.2.2.2.2.2.2
        obtain ⟨s1, fuel1, hq1, hd1, hf1, hrun⟩ :=
          firePendingEvent_loop_prefix MAX cb L1 L2 fuel t2 s2 (Queue_of_LinksEq hqt hl) h0
        have hd2 : DataEq s t2 := hdt.dataTrans hd
        refine ⟨s1, fuel1, hq1, hd2.dataTrans hd1, ?_, hrun⟩
        rw [hf1, hf, hreg.2.2.2.2.1, firedOf_congr hdt a]
        have hmap : L1.map (firedOf t2) = L1.map (firedOf s) :=
          List.map_congr_left (fun c _ => firedOf_congr hd2 c)
        rw [hmap]
        simp

theorem firePendingEvent_loop_at (MAX : Nat) (cb : Callbacks) (L1 : List Nat) (a : Nat)
    (L2 : List Nat) (fuel : Nat) (s s2 : State) (hq : Queue s (L1 ++ a :: L2))
    (h : firePendingEvent_loop MAX cb fuel (some (headPtr (L1 ++ a :: L2))) s = .ok s2) :
    ∃ t t2, t.fired = s.fired ++ L1.map (firedOf s) ∧
      (t.mem (.ev a)).next = none ∧ (t.mem (.ev a)).prev = none ∧
      invoke MAX cb t a = .ok t2 ∧
      ∃ fuel2, firePendingEvent_loop MAX cb fuel2 (some (headPtr L2)) t2 = .ok s2 := by
  obtain ⟨s1, fuel1, hq1, _, hf1, hrun⟩ :=
    firePendingEvent_loop_prefix MAX cb L1 (a :: L2) fuel s s2 hq h
  cases fuel1 with
  | zero => simp [firePendingEvent_loop] at hrun
  | succ fuel1 =>
    obtain ⟨t, _, _, hreg, hnx, hpv, herr, hok⟩ := firePendingEvent_loop_cons MAX cb hq1
    have h0 : firePendingEvent_loop MAX cb (fuel1 + 1) (some (.ev a)) s1 = .ok s2 := hrun
    cases hinv : invoke MAX cb t a with
    | error f =>
      rw [herr fuel1 f hinv] at h0
      cases h0
    | ok t2 =>
      rw [hok fuel1 t2 hinv] at h0
      exact ⟨t, t2, by rw [hreg.2.2.2.2.1, hf1], hnx, hpv, hinv, fuel1, h0⟩

/-! ## Facts about the example states -/

theorem twoRegistered_seq :
    RegSeq 8 (Unregistered 8) (initState distinctFdMem) twoRegistered :=
  RegSeq.add 1 (RegSeq.add 0 RegSeq.start (by decide) rfl) (by decide) rfl

theorem twoRegisteredFired_run :
    dispatchCycle 8 busyCallbacks 8 {7, 9} 2 twoRegistered = .ok twoRegisteredFired := rfl

theorem slotsTwoAndFive_run :
    runActions 8
      [.add 4, .add 5, .add 0, .add 6, .add 7, .add 3, .del 4, .del 5, .del 6, .del 7]
      (initState distinctFdMem) = .ok slotsTwoAndFive := rfl

theorem slotsTwoAndFiveFired_run :
    dispatchCycle 8 idleCallbacks 8 {3, 9} 2 slotsTwoAndFive = .ok slotsTwoAndFiveFired := rfl

theorem threeRegistered_seq :
    RegSeq 8 (Unregistered 8) (initState distinctFdMem) threeRegistered :=
  RegSeq.add 2 (RegSeq.add 1 (RegSeq.add 0 RegSeq.start (by decide) rfl) (by decide) rfl)
    (by decide) rfl

theorem threeRegisteredScanned_run :
    processReadReadyEvent 8 {5, 7, 9} 3 threeRegistered = .ok threeRegisteredScanned := rfl

theorem oneRegistered_run :
    cnd_event_add 8 (initState distinctFdMem) 0 = .ok oneRegistered := rfl

theorem lastRemoved_run : cnd_event_del 8 oneRegistered 0 = .ok lastRemoved := rfl

theorem threeRegisteredLessZero_run :
    cnd_event_del 8 threeRegistered 0 = .ok threeRegisteredLessZero := rfl

theorem sharedFdScanned_run :
    processReadReadyEvent 8 {5} 1 sharedFdRegistered = .ok sharedFdScanned := rfl

theorem sharedFdScannedAll_run :
    scanAllSlots 8 {5} sharedFdRegistered = .ok sharedFdScannedAll := rfl

/-! ## Auxiliary results for the end-to-end scenarios -/

theorem RegInv_fired {MAX : Nat} {s : State} (l : List Fired) (h : RegInv MAX s) :
    RegInv MAX { s with fired := l } := ⟨h.back, h.slot, h.range⟩

/-- After `cnd_event_del` on `b`, called with the mutex free in a state whose
slots and records correspond, `b` has index `-1` and the correspondence
holds. -/
theorem cnd_event_del_unregisters {MAX : Nat} {s : State} (b : Nat) (h : RegInv MAX s)
    (hm : s.listMutex = false) :
    ∃ s1, cnd_event_del MAX s b = .ok s1 ∧ RegInv MAX s1 ∧ (s1.mem (.ev b)).index = -1 := by
  rcases cnd_event_del_cases MAX s b hm with ⟨i, hi, hidx, heq⟩ | ⟨hbad, heq⟩
  · refine ⟨_, heq, cnd_event_del_RegInv h heq, ?_⟩
    exact removeWatch_mem_index_self _ _ _ _
  · refine ⟨_, heq, cnd_event_del_RegInv h heq, ?_⟩
    rcases h.range b with e | ⟨e1, e2⟩
    · exact e
    · omega

/-- The cycle of C9 when the persistent record sits in the lower slot. -/
theorem pair_cycle (MAX : Nat) (cb : Callbacks) (fuel : Nat) (s : State) (x y i j : Nat)
    (hm : s.listMutex = false) (hq : QueueEmpty s) (hij : i < j) (hj : j < MAX)
    (hix : s.watch_table i = some x) (hjy : s.watch_table j = some y)
    (hother : ∀ k, k < MAX → k ≠ i → k ≠ j → s.watch_table k = none)
    (hfd : (s.mem (.ev x)).fd ≠ (s.mem (.ev y)).fd)
    (hcb : ∀ f d p st, cb f d p st = []) (hfuel : 2 < fuel) :
    ∃ s1 s2, processReadReadyEvent MAX {(s.mem (.ev x)).fd, (s.mem (.ev y)).fd} 2 s = .ok s1 ∧
      ScanPost s s1 [i, j] ∧
      dispatchCycle MAX cb fuel {(s.mem (.ev x)).fd, (s.mem (.ev y)).fd} 2 s = .ok s2 ∧
      SameReg s1 s2 ∧ s2.fired = s.fired ++ [firedOf s x, firedOf s y] := by
  have hxy : x ≠ y := fun e => hfd (e ▸ rfl)
  have hready : ∀ k, k < MAX →
      (slotReady s {(s.mem (.ev x)).fd, (s.mem (.ev y)).fd} k = true ↔ k = i ∨ k = j) := by
    intro k hk
    constructor
    · intro h
      obtain ⟨rev, hrev, _⟩ := slotReady_true h
      by_contra hne
      push_neg at hne
      rw [hother k hk hne.1 hne.2] at hrev
      cases hrev
    · rintro (e | e)
      · subst e; rw [slotReady_some hix]; simp
      · subst e; rw [slotReady_some hjy]; simp
  have hd : SlotsDistinct MAX s := by
    intro k k2 c hk hk2 hkc hk2c
    have h1 : k = i ∨ k = j := by
      by_contra hne
      push_neg at hne
      rw [hother k hk hne.1 hne.2] at hkc
      cases hkc
    have h2 : k2 = i ∨ k2 = j := by
      by_contra hne
      push_neg at hne
      rw [hother k2 hk2 hne.1 hne.2] at hk2c
      cases hk2c
    rcases h1 with e1 | e1 <;> rcases h2 with e2 | e2 <;> subst e1 <;> subst e2
    · rfl
    · rw [hix] at hkc; rw [hjy] at hk2c
      exact absurd ((Option.some.inj hkc).trans (Option.some.inj hk2c).symm) hxy
    · rw [hjy] at hkc; rw [hix] at hk2c
      exact absurd ((Option.some.inj hk2c).trans (Option.some.inj hkc).symm) hxy
    · rfl
  obtain ⟨s1, hscan, hq1, hpost⟩ := processReadReadyEvent_spec MAX
    {(s.mem (.ev x)).fd, (s.mem (.ev y)).fd} 2 s hm ((Queue_nil_iff s).mpr hq) hd
  rw [readySlots_pair MAX s _ i j hij hj hready] at hq1 hpost
  have hL : [i, j].filterMap s.watch_table = [x, y] := by
    simp [List.filterMap_cons, hix, hjy]
  rw [hL] at hq1
  obtain ⟨s2, hfire, _, hsame, hfired⟩ := firePendingEvent_idle MAX cb fuel s1 [x, y] hq1
    (fun _ _ _ => hcb _ _ _ _) (by simpa using hfuel)
  refine ⟨s1, s2, hscan, hpost, dispatchCycle_of_ok hscan hfire, hsame, ?_⟩
  rw [hfired, hpost.fired]
  simp [firedOf_congr hpost.data]

/-- When the callback of `a` makes the single call `cnd_event_del` on `b` and
the other queued callbacks make no registry call, the cycle returns, with `b`
unregistered. -/
theorem del_mid_fire_returns (MAX : Nat) (cb : Callbacks) (fuel : Nat)
    (rfds : Finset Int) (n : Int) (s s1 : State) (a b : Nat) (L1 L2 : List Nat)
    (hinv : RegInv MAX s)
    (hscan : processReadReadyEvent MAX rfds n s = .ok s1)
    (hqueue : Queue s1 (L1 ++ a :: L2)) (hb : b ∈ L2)
    (hcbA : ∀ st,
      cb (s.mem (.ev a)).func (s.mem (.ev a)).fd (s.mem (.ev a)).param st = [.del b])
    (hcbO : ∀ c, c ∈ L1 ++ L2 → ∀ st,
      cb (s.mem (.ev c)).func (s.mem (.ev c)).fd (s.mem (.ev c)).param st = [])
    (hfuel : (L1 ++ a :: L2).length < fuel) :
    ∃ s2, dispatchCycle MAX cb fuel rfds n s = .ok s2 ∧
      s2.fired = s.fired ++ (L1 ++ a :: L2).map (firedOf s) ∧
      (L1 ++ a :: L2).count b = 1 ∧
      (s2.mem (.ev b)).index = -1 ∧ ∀ k, k < MAX → s2.watch_table k ≠ some b := by
  obtain ⟨hinv1, hdata1, hfired1, hm1⟩ := processReadReadyEvent_RegInv hinv hscan
  -- the records ahead of `a`
  obtain ⟨t1, hq1, hsame1, hf1, _, _, hrest1⟩ :=
    firePendingEvent_loop_idle MAX cb L1 (a :: L2) s1 hqueue (by
      intro c hc st
      rw [(hdata1 _).1, (hdata1 _).2.2.1, (hdata1 _).2.2.2]
      exact hcbO c (List.mem_append_left _ hc) st)
  have hd01 : DataEq s t1 := hdata1.dataTrans hsame1.2.2.2.2.2
  -- the record `a`
  obtain ⟨t2, _, hq2, hreg2, _, _, _, hstep⟩ := firePendingEvent_loop_cons MAX cb hq1
  have hd02 : DataEq s t2 := hd01.dataTrans hreg2.2.2.2.2.2.2
  have hinv2 : RegInv MAX t2 :=
    RegInv_SameReg hreg2.sameReg (RegInv_SameReg hsame1 hinv1)
  have hm2 : t2.listMutex = false := by
    rw [hreg2.2.2.2.1, hsame1.2.2.2.1, hm1]
  obtain ⟨t3, hdel, hinv3, hidx3⟩ := @cnd_event_del_unregisters MAX
    { t2 with fired := t2.fired ++ [firedOf t2 a] } b (RegInv_fired _ hinv2) hm2
  have hinvoke : invoke MAX cb t2 a = .ok t3 := by
    unfold invoke
    have := hcbA { t2 with fired := t2.fired ++ [firedOf t2 a] }
    rw [← (hd02 _).1, ← (hd02 _).2.2.1, ← (hd02 _).2.2.2] at this
    simp only [firedOf] at hdel this
    simp only [this, runActions, hdel]
  obtain ⟨l3, d3, f3⟩ := invoke_frame hinvoke
  have hd03 : DataEq s t3 := hd02.dataTrans d3
  -- the records behind `a`
  obtain ⟨t4, hq4, hsame4, hf4, _, _, hrest4⟩ :=
    firePendingEvent_loop_idle MAX cb L2 [] t3 (by simpa using Queue_of_LinksEq hq2 l3) (by
      intro c hc st
      rw [(hd03 _).1, (hd03 _).2.2.1, (hd03 _).2.2.2]
      exact hcbO c (List.mem_append_right _ hc) st)
  have hinv4 : RegInv MAX t4 := RegInv_SameReg hsame4 hinv3
  have hidx4 : (t4.mem (.ev b)).index = -1 := by rw [hsame4.2.2.2.2.1]; exact hidx3
  refine ⟨t4, ?_, ?_, ?_, hidx4, hinv4.not_mem_table hidx4⟩
  · refine dispatchCycle_of_ok hscan ?_
    rw [firePendingEvent_of_queue hqueue]
    obtain ⟨m, hm⟩ : ∃ m, fuel = ((m + 1 + L2.length) + 1) + L1.length := by
      refine ⟨fuel - (L1 ++ a :: L2).length - 1, ?_⟩
      simp only [List.length_append, List.length_cons] at hfuel ⊢
      omega
    have h4 := hrest4 (m + 1)
    rw [List.append_nil] at h4
    rw [hm, hrest1, headPtr, hstep _ t3 hinvoke, h4]
    rfl
  · rw [hf4, f3, hreg2.2.2.2.2.1, hf1, hfired1]
    have e1 : L1.map (firedOf s1) = L1.map (firedOf s) :=
      List.map_congr_left (fun c _ => firedOf_congr hdata1 c)
    have e2 : L2.map (firedOf t3) = L2.map (firedOf s) :=
      List.map_congr_left (fun c _ => firedOf_congr hd03 c)
    rw [e1, e2, firedOf_congr hd02 a]
    simp
  · exact List.count_eq_one_of_mem hqueue.1
      (List.mem_append_right _ (List.mem_cons_of_mem _ hb))

/-- A drain that returns keeps the registration of `b` consistent when no
callback calls `cnd_event_add` on `b`, and once the callback of `a`, which
calls `cnd_event_del` on `b`, has been invoked, `b` is unregistered. -/
theorem firePendingEvent_loop_RegOf {MAX : Nat} {cb : Callbacks} {s : State} {a b : Nat}
    (hcbA : ∀ st, Action.del b ∈
      cb (s.mem (.ev a)).func (s.mem (.ev a)).fd (s.mem (.ev a)).param st)
    (hno : ∀ f d p st, Action.add b ∉ cb f d p st)
    (fuel : Nat) (ev : Option Ptr) (s1 s2 : State)
    (h1 : RegOf MAX b s1) (hd1 : DataEq s s1) (hf1 : s1.fired = s.fired)
    (hrun : firePendingEvent_loop MAX cb fuel ev s1 = .ok s2) :
    RegOf MAX b s2 ∧ ∃ l, s2.fired = s.fired ++ l ∧
      (firedOf s a ∈ l → (s2.mem (.ev b)).index = -1) := by
  have := firePendingEvent_loop_keeps MAX cb
    (fun t => RegOf MAX b t ∧ DataEq s t ∧ ∃ l, t.fired = s.fired ++ l ∧
      (firedOf s a ∈ l → (t.mem (.ev b)).index = -1))
    (fun t t1 hreg hP => by
      obtain ⟨p1, p2, l, p3, p4⟩ := hP
      refine ⟨RegOf_RegEq hreg p1, p2.dataTrans hreg.2.2.2.2.2.2, l,
        hreg.2.2.2.2.1.trans p3, ?_⟩
      intro hl
      rw [hreg.2.2.2.2.2.1]
      exact p4 hl)
    (fun t c t1 hP hinv => by
      obtain ⟨p1, p2, l, p3, p4⟩ := hP
      obtain ⟨_, i2, i3⟩ := invoke_frame hinv
      unfold invoke at hinv
      obtain ⟨q1, q2⟩ := runActions_RegOf _ _ _ (RegOf_fired _ p1) (hno _ _ _ _) hinv
      refine ⟨q1, p2.dataTrans i2, l ++ [firedOf t c], by rw [i3, p3, List.append_assoc], ?_⟩
      intro hl
      rcases List.mem_append.mp hl with hm | hm
      · exact q2 (Or.inl (p4 hm))
      · rw [List.mem_singleton] at hm
        have hac : a = c := congrArg Fired.ev hm
        subst hac
        refine q2 (Or.inr ?_)
        rw [(p2 _).1, (p2 _).2.2.1, (p2 _).2.2.2]
        exact hcbA _)
    fuel ev s1 s2 ⟨h1, hd1, [], by rw [hf1, List.append_nil], fun h => by cases h⟩ hrun
  exact ⟨this.1, this.2.2⟩

theorem threeRegisteredDelOne_run :
    dispatchCycle 8 (delCallbacks 1) 8 {5, 7, 9} 3 threeRegistered =
      .ok threeRegisteredDelOne := rfl

theorem threeRegisteredDelTwo_run :
    dispatchCycle 8 (delCallbacks 2) 8 {5, 7, 9} 3 threeRegistered =
      .ok threeRegisteredDelTwo := rfl

theorem delCallbacks_no_add (b c : Nat) (f : Nat) (d : Int) (p : Nat) (st : State) :
    Action.add c ∉ delCallbacks b f d p st := by
  unfold delCallbacks
  split_ifs <;> simp

/-! ## The claims -/

/-- C1 (as stated, refuted): with `MAX_FD_EVENTS = 8` and two configured,
unregistered records 0 and 1 that both carry descriptor 5, the calls
`cnd_event_add(0)`, `cnd_event_add(1)`, `cnd_event_del(0)` all return, and
afterwards slot 1 still holds record 1 (descriptor 5) although 5 is no longer
in `readFds`. -/
theorem interest_set_not_exact_with_shared_fd :
    ∃ s, RegSeq 8 (Unregistered 8) (initState sameFdMem) s ∧
      (Configured (sameFdMem 0) ∧ Configured (sameFdMem 1)) ∧
      s.watch_table 1 = some 1 ∧ (s.mem (.ev 1)).fd = 5 ∧
      ¬ ((5 : Int) ∈ s.readFds ↔ Watched 8 s 5) :=
  ⟨_, RegSeq.del 0 (RegSeq.add 1 (RegSeq.add 0 RegSeq.start (by decide) rfl) (by decide) rfl) rfl,
    by decide, by decide, by decide, by decide⟩

/-- C1 (amended): starting from the state left by `cnd_event_init` with every
record configured, after each call of a sequence of `cnd_event_add` /
`cnd_event_del` calls in which every added record is not currently registered
and carries a descriptor that no registered record carries, a descriptor is in
`readFds` if and only if some occupied `watch_table` slot holds a record with
that descriptor. -/
theorem interest_set_exact_of_fresh_fd (MAX : Nat) (mem0 : Nat → cnd_event)
    (hcfg : ∀ a, Configured (mem0 a)) (s : State)
    (h : RegSeq MAX (fun s ev => Unregistered MAX s ev ∧ FreshFd MAX s ev) (initState mem0) s)
    (d : Int) : d ∈ s.readFds ↔ Watched MAX s d :=
  (RegSeq_fresh_inv MAX mem0 hcfg s h).2.iff d

/-- The exactness of the interest set after registering records 0 and 1
(descriptors 9 and 7) and deregistering record 0, with `MAX_FD_EVENTS = 8`. -/
theorem interest_set_exact_of_fresh_fd_witness :
    ∃ s, RegSeq 8 (fun s ev => Unregistered 8 s ev ∧ FreshFd 8 s ev) (initState distinctFdMem) s ∧
      s.watch_table 1 = some 1 ∧ s.watch_table 0 = none ∧
      ((7 : Int) ∈ s.readFds ↔ Watched 8 s 7) ∧ ((9 : Int) ∈ s.readFds ↔ Watched 8 s 9) :=
  have hseq : RegSeq 8 (fun s ev => Unregistered 8 s ev ∧ FreshFd 8 s ev)
      (initState distinctFdMem) _ :=
    RegSeq.del 0 (RegSeq.add 1 (RegSeq.add 0 RegSeq.start (by decide) rfl) (by decide) rfl) rfl
  ⟨_, hseq, by decide, by decide,
    interest_set_exact_of_fresh_fd 8 distinctFdMem distinctFdMem_configured _ hseq 7,
    interest_set_exact_of_fresh_fd 8 distinctFdMem distinctFdMem_configured _ hseq 9⟩

/-- C2: on a registry whose `MAX_FD_EVENTS` slots are all empty,
`MAX_FD_EVENTS` successive `cnd_event_add` calls on distinct records all
return, and after the first `m` of them record number `k < m` has index `k` (a
value in `[0, MAX_FD_EVENTS)`) and `watch_table[k]` points to it; one further
`cnd_event_add` on another record whose index is `-1` returns and leaves the
whole state unchanged, so `watch_table`, `readFds` and `nfds` are unchanged and
the index of that record is still `-1`. -/
theorem cnd_event_add_up_to_capacity (MAX : Nat) (s : State) (evs : List Nat) (extra : Nat)
    (hempty : ∀ i, i < MAX → s.watch_table i = none) (hm : s.listMutex = false)
    (hlen : evs.length = MAX) (hnd : evs.Nodup) (hx : extra ∉ evs)
    (hidx : (s.mem (.ev extra)).index = -1) :
    (∀ m, m ≤ MAX → ∃ sm, runActions MAX ((evs.take m).map Action.add) s = .ok sm ∧
      ∀ k e, k < m → evs[k]? = some e →
        (sm.mem (.ev e)).index = (k : Int) ∧ sm.watch_table k = some e) ∧
    ∃ sfull, runActions MAX (evs.map Action.add) s = .ok sfull ∧
      cnd_event_add MAX sfull extra = .ok sfull ∧
      (sfull.mem (.ev extra)).index = -1 := by
  constructor
  · intro m hmle
    obtain ⟨sm, hrun, _, hfill, _, _⟩ := add_prefix_fills MAX s evs hempty hm hlen hnd m hmle
    exact ⟨sm, hrun, hfill⟩
  · obtain ⟨sf, hrun, hfree, hfill, _, hother⟩ :=
      add_prefix_fills MAX s evs hempty hm hlen hnd MAX (le_refl _)
    have htk : evs.take MAX = evs := by rw [← hlen]; exact List.take_length evs
    rw [htk] at hrun
    refine ⟨sf, hrun, ?_, by rw [hother extra hx]; exact hidx⟩
    rcases cnd_event_add_cases MAX sf extra hfree with ⟨j, hj, hjn, _, _⟩ | ⟨_, hadd⟩
    · have := (hfill j evs[j] hj (List.getElem?_eq_getElem (by omega))).2
      rw [hjn] at this
      cases this
    · exact hadd

/-- Filling a registry of capacity 2 with records 0 and 1, then trying record 2. -/
theorem cnd_event_add_up_to_capacity_witness :
    (∀ m, m ≤ 2 → ∃ sm,
      runActions 2 (([0, 1].take m).map Action.add) (initState distinctFdMem) = .ok sm ∧
      ∀ k e, k < m → [0, 1][k]? = some e →
        (sm.mem (.ev e)).index = (k : Int) ∧ sm.watch_table k = some e) ∧
    ∃ sfull, runActions 2 ([0, 1].map Action.add) (initState distinctFdMem) = .ok sfull ∧
      cnd_event_add 2 sfull 2 = .ok sfull ∧
      (sfull.mem (.ev 2)).index = -1 :=
  cnd_event_add_up_to_capacity 2 (initState distinctFdMem) [0, 1] 2 (fun _ _ => rfl) rfl rfl
    (by decide) (by decide) rfl

/-- C3: for a record whose index `i` lies in `[0, MAX_FD_EVENTS)`,
`cnd_event_del` (called with the mutex free) returns a state in which
`watch_table[i]` is empty, the descriptor of the record is not in `readFds` and
the index of the record is `-1`; every other slot of `watch_table` and the
membership of every other descriptor in `readFds` are unchanged, and `nfds`
differs from its old value only if descriptor + 1 was equal to `nfds`. -/
theorem cnd_event_del_registered (MAX : Nat) (s : State) (ev : Nat)
    (hm : s.listMutex = false)
    (h0 : 0 ≤ (s.mem (.ev ev)).index) (h1 : (s.mem (.ev ev)).index < MAX) :
    ∃ s1, cnd_event_del MAX s ev = .ok s1 ∧
      s1.watch_table (s.mem (.ev ev)).index.toNat = none ∧
      (s.mem (.ev ev)).fd ∉ s1.readFds ∧
      (s1.mem (.ev ev)).index = -1 ∧
      (∀ j, j ≠ (s.mem (.ev ev)).index.toNat → s1.watch_table j = s.watch_table j) ∧
      (∀ d, d ≠ (s.mem (.ev ev)).fd → (d ∈ s1.readFds ↔ d ∈ s.readFds)) ∧
      (s1.nfds ≠ s.nfds → (s.mem (.ev ev)).fd + 1 = s.nfds) := by
  refine ⟨_, cnd_event_del_valid_eq MAX s ev hm h0 h1, ?_⟩
  simp only [MUTEX_RELEASE, removeWatch_watch_table, removeWatch_readFds, removeWatch_mem,
    Function.update_same]
  refine ⟨trivial, by simp, trivial, ?_, ?_, ?_⟩
  · intro j hj; simp [Function.update_noteq hj]
  · intro d hd; simp [hd]
  · intro hn
    by_contra hne
    exact hn (removeWatch_nfds_ne MAX _ ev _ hne)

/-- Deregistration of record 1 (slot 1, descriptor 7) with records 0, 1, 2
registered and `MAX_FD_EVENTS = 8`. -/
theorem cnd_event_del_registered_witness :
    ∃ s, runActions 8 [.add 0, .add 1, .add 2] (initState distinctFdMem) = .ok s ∧
      ∃ s1, cnd_event_del 8 s 1 = .ok s1 ∧
        s1.watch_table (s.mem (.ev 1)).index.toNat = none ∧
        (s.mem (.ev 1)).fd ∉ s1.readFds ∧
        (s1.mem (.ev 1)).index = -1 ∧
        (∀ j, j ≠ (s.mem (.ev 1)).index.toNat → s1.watch_table j = s.watch_table j) ∧
        (∀ d, d ≠ (s.mem (.ev 1)).fd → (d ∈ s1.readFds ↔ d ∈ s.readFds)) ∧
        (s1.nfds ≠ s.nfds → (s.mem (.ev 1)).fd + 1 = s.nfds) :=
  ⟨_, rfl, cnd_event_del_registered 8 _ 1 (by decide) (by decide) (by decide)⟩

/-- C4: for a record whose index is negative or at least `MAX_FD_EVENTS`,
whenever `cnd_event_del` returns it has left `watch_table`, `readFds`, `nfds`
and all of record memory (the pending list and the fields of the record
included) unchanged, and it does return when the mutex is free. -/
theorem cnd_event_del_unregistered (MAX : Nat) (s : State) (ev : Nat)
    (h : (s.mem (.ev ev)).index < 0 ∨ (s.mem (.ev ev)).index ≥ MAX) :
    (∀ s1, cnd_event_del MAX s ev = .ok s1 →
      s1.watch_table = s.watch_table ∧ s1.readFds = s.readFds ∧ s1.nfds = s.nfds ∧
        s1.mem = s.mem ∧ s1.fired = s.fired) ∧
    (s.listMutex = false → ∃ s1, cnd_event_del MAX s ev = .ok s1) := by
  constructor
  · intro s1 hdel
    rw [cnd_event_del_invalid_eq MAX s ev (cnd_event_del_ok_free hdel) h] at hdel
    cases hdel
    exact ⟨rfl, rfl, rfl, rfl, rfl⟩
  · intro hm
    exact ⟨_, cnd_event_del_invalid_eq MAX s ev hm h⟩

/-- Deregistration of the never registered record 0 in the initial state, with
`MAX_FD_EVENTS = 8`. -/
theorem cnd_event_del_unregistered_witness :
    (∀ s1, cnd_event_del 8 (initState distinctFdMem) 0 = .ok s1 →
      s1.watch_table = (initState distinctFdMem).watch_table ∧
        s1.readFds = (initState distinctFdMem).readFds ∧
        s1.nfds = (initState distinctFdMem).nfds ∧
        s1.mem = (initState distinctFdMem).mem ∧
        s1.fired = (initState distinctFdMem).fired) ∧
    ((initState distinctFdMem).listMutex = false →
      ∃ s1, cnd_event_del 8 (initState distinctFdMem) 0 = .ok s1) :=
  cnd_event_del_unregistered 8 (initState distinctFdMem) 0 (by decide)

/-- C5 (the code breaks it): `cnd_event_del` on record 0, configured and never
registered (index `-1`), called with the mutex free in the state left by
`cnd_event_init`, returns with the mutex still held; the next
`cnd_event_add` then never returns. -/
theorem cnd_event_del_invalid_keeps_mutex :
    (initState distinctFdMem).listMutex = false ∧
      ((initState distinctFdMem).mem (.ev 0)).index = -1 ∧
      ∃ s1, cnd_event_del 8 (initState distinctFdMem) 0 = .ok s1 ∧ s1.listMutex = true ∧
        cnd_event_add 8 s1 0 = .error .deadlock :=
  ⟨rfl, rfl, _, rfl, rfl, rfl⟩

/-- C6: `processReadReadyEvent`, called with the mutex free and the pending
list empty on a registry in which no record occupies two slots, returns before
any callback has been invoked, and every non-persistent record then in the
pending list is already deregistered: its index is `-1`, the `watch_table`
slot it occupied is empty and its descriptor is not in `readFds`. -/
theorem one_shot_deregistered_before_callbacks (MAX : Nat) (rfds : Finset Int) (n : Int)
    (s : State) (hm : s.listMutex = false) (hq : QueueEmpty s) (hd : SlotsDistinct MAX s) :
    ∃ s1 L, processReadReadyEvent MAX rfds n s = .ok s1 ∧ Queue s1 L ∧ s1.fired = s.fired ∧
      ∀ a, a ∈ L → (s1.mem (.ev a)).persist = 0 →
        (s1.mem (.ev a)).index = -1 ∧
        (∃ i, i < MAX ∧ s.watch_table i = some a ∧ s1.watch_table i = none) ∧
        (∀ i, i < MAX → s.watch_table i = some a → s1.watch_table i = none) ∧
        (s1.mem (.ev a)).fd ∉ s1.readFds := by
  obtain ⟨s1, hrun, hq1, hpost⟩ :=
    processReadReadyEvent_spec MAX rfds n s hm ((Queue_nil_iff s).mpr hq) hd
  refine ⟨s1, _, hrun, hq1, hpost.fired, ?_⟩
  intro a ha hp
  obtain ⟨j, hj, hja⟩ := List.mem_filterMap.mp ha
  have hjlt : j < MAX := by have := (readySlots_mem hj).2.1; omega
  rw [(hpost.data _).2.1] at hp
  obtain ⟨h1, h2, h3⟩ := hpost.drop j a hj hja hp
  refine ⟨h2, ⟨j, hjlt, hja, h1⟩, ?_, by rw [(hpost.data _).1]; exact h3⟩
  intro i hi hia
  have := hd i j a hi hjlt hia hja
  subst this
  exact h1

/-- The scan with records 0, 1, 2 registered (record 1 one-shot) and
descriptors 7 and 9 ready, `n = 2`, `MAX_FD_EVENTS = 8`. -/
theorem one_shot_deregistered_before_callbacks_witness :
    ∃ s, runActions 8 [.add 0, .add 1, .add 2] (initState distinctFdMem) = .ok s ∧
      ∃ s1 L, processReadReadyEvent 8 {7, 9} 2 s = .ok s1 ∧ Queue s1 L ∧ s1.fired = s.fired ∧
        ∀ a, a ∈ L → (s1.mem (.ev a)).persist = 0 →
          (s1.mem (.ev a)).index = -1 ∧
          (∃ i, i < 8 ∧ s.watch_table i = some a ∧ s1.watch_table i = none) ∧
          (∀ i, i < 8 → s.watch_table i = some a → s1.watch_table i = none) ∧
          (s1.mem (.ev a)).fd ∉ s1.readFds :=
  ⟨_, rfl, one_shot_deregistered_before_callbacks 8 {7, 9} 2 _ (by decide) (by decide)
    (by decide)⟩

/-- C7 (as stated, refuted): with `MAX_FD_EVENTS = 8`, register the one-shot
record 0 and then the persistent record 1, both with descriptor 5.  Record 1
is registered in slot 1 and 5 is in `readFds`; after the cycle in which
`select` reports descriptor 5 ready (`n = 1`) and no callback makes any
registry call, record 1 is still in slot 1 but 5 is no longer in `readFds`. -/
theorem persistent_leaves_interest_set_with_shared_fd :
    ∃ s s1, runActions 8 [.add 0, .add 1] (initState sameFdMem) = .ok s ∧
      s.watch_table 1 = some 1 ∧ (s.mem (.ev 1)).index = 1 ∧
      (s.mem (.ev 1)).persist ≠ 0 ∧ (s.mem (.ev 1)).fd ∈ s.readFds ∧
      dispatchCycle 8 idleCallbacks 8 {5} 1 s = .ok s1 ∧
      s1.watch_table 1 = some 1 ∧ (s1.mem (.ev 1)).fd ∉ s1.readFds :=
  ⟨_, _, rfl, by decide, by decide, by decide, by decide, rfl, by decide, by decide⟩

/-- C7 (amended): for a persistent record registered in slot `i` of a registry
whose slots and records correspond, whose descriptor is in `readFds` and is
carried by no other record, after any dispatch cycle (`processReadReadyEvent`
then `firePendingEvent`) that returns and in which no callback calls
`cnd_event_del` on it, the record is still in slot `i` and its descriptor is
still in `readFds`. -/
theorem persistent_stays_registered (MAX : Nat) (cb : Callbacks) (fuel : Nat)
    (rfds : Finset Int) (n : Int) (s s1 : State) (a i : Nat)
    (hinv : RegInv MAX s) (hslot : s.watch_table i = some a)
    (hp : (s.mem (.ev a)).persist ≠ 0) (hfd : (s.mem (.ev a)).fd ∈ s.readFds)
    (hfresh : ∀ b, b ≠ a → (s.mem (.ev b)).fd ≠ (s.mem (.ev a)).fd)
    (hcb : ∀ f d p st, Action.del a ∉ cb f d p st)
    (hrun : dispatchCycle MAX cb fuel rfds n s = .ok s1) :
    s1.watch_table i = some a ∧ (s1.mem (.ev a)).fd ∈ s1.readFds := by
  have h := dispatchCycle_Stays hcb (Stays.mk hinv.back hslot hfd hp hfresh) hrun
  exact ⟨h.slot, h.fd⟩

/-- The persistent record 0 of `twoRegistered` across the cycle with
`busyCallbacks`, in which its callback registers record 3 and the one-shot
record 1 registers itself again. -/
theorem persistent_stays_registered_witness :
    twoRegisteredFired.fired.map Fired.ev = [0, 1] ∧
    twoRegisteredFired.watch_table 1 = some 3 ∧ twoRegisteredFired.watch_table 2 = some 1 ∧
    (twoRegisteredFired.watch_table 0 = some 0 ∧
      (twoRegisteredFired.mem (.ev 0)).fd ∈ twoRegisteredFired.readFds) :=
  ⟨by decide, by decide, by decide,
    persistent_stays_registered 8 busyCallbacks 8 {7, 9} 2 twoRegistered twoRegisteredFired 0 0
      (RegSeq_RegInv distinctFdMem_configured twoRegistered_seq)
      (by decide) (by decide) (by decide)
      (fun b hb => by
        rw [((RegSeq_DataEq twoRegistered_seq) _).1, ((RegSeq_DataEq twoRegistered_seq) _).1]
        exact fun e => hb (distinctFdMem_fd_inj e))
      (fun f _ _ _ => by unfold busyCallbacks; split_ifs <;> simp)
      twoRegisteredFired_run⟩

/-- C8: in a cycle (`processReadReadyEvent` then `firePendingEvent`) that
starts with the mutex free and the pending list empty, on a registry in which
no record occupies two slots, whatever the ready set, the count `n` and the
callbacks: if the cycle returns, the callbacks it invoked are those of the
records found in a strictly ascending list of slots, each holding a record
whose descriptor is ready, invoked in that order.  The cycle does return when
the callbacks make no registry call and the fuel exceeds `MAX_FD_EVENTS`. -/
theorem callbacks_fire_in_slot_order (MAX : Nat) (cb : Callbacks) (fuel : Nat)
    (rfds : Finset Int) (n : Int) (s : State)
    (hm : s.listMutex = false) (hq : QueueEmpty s) (hd : SlotsDistinct MAX s) :
    (∀ s1, dispatchCycle MAX cb fuel rfds n s = .ok s1 →
      ∃ slots : List Nat, slots.Sorted (· < ·) ∧
        (∀ j, j ∈ slots → j < MAX ∧
          ∃ a, s.watch_table j = some a ∧ (s.mem (.ev a)).fd ∈ rfds) ∧
        s1.fired = s.fired ++ (slots.filterMap s.watch_table).map (firedOf s)) ∧
    ((∀ f d p st, cb f d p st = []) → MAX < fuel →
      ∃ s1, dispatchCycle MAX cb fuel rfds n s = .ok s1) := by
  constructor
  · intro s1 hrun
    obtain ⟨s2, hscan, hfire⟩ := dispatchCycle_ok hrun
    obtain ⟨s3, hscan3, hq3, hpost⟩ :=
      processReadReadyEvent_spec MAX rfds n s hm ((Queue_nil_iff s).mpr hq) hd
    rw [hscan] at hscan3
    cases hscan3
    refine ⟨readySlots s rfds MAX 0 n, readySlots_sorted s rfds MAX 0 n, ?_, ?_⟩
    · intro j hj
      obtain ⟨_, h2, h3⟩ := readySlots_mem hj
      exact ⟨by omega, slotReady_true h3⟩
    · rw [firePendingEvent_of_queue hq3] at hfire
      obtain ⟨h1, _, _⟩ := firePendingEvent_loop_fired MAX cb _ fuel s2 s1 hq3 hfire
      rw [h1, hpost.fired]
      congr 1
      exact List.map_congr_left (fun c _ => firedOf_congr hpost.data c)
  · intro hcb hfuel
    exact dispatchCycle_idle_returns MAX cb fuel rfds n s hm hq hd hcb hfuel

/-- Slots 2 and 5 hold descriptors 9 and 3, both ready: the callback of the
record in slot 2 runs first. -/
theorem callbacks_fire_in_slot_order_witness :
    (slotsTwoAndFive.watch_table 2 = some 0 ∧ (slotsTwoAndFive.mem (.ev 0)).fd = 9) ∧
    (slotsTwoAndFive.watch_table 5 = some 3 ∧ (slotsTwoAndFive.mem (.ev 3)).fd = 3) ∧
    slotsTwoAndFiveFired.fired.map Fired.ev = [0, 3] ∧
    ∃ slots : List Nat, slots.Sorted (· < ·) ∧
      (∀ j, j ∈ slots → j < 8 ∧
        ∃ a, slotsTwoAndFive.watch_table j = some a ∧
          (slotsTwoAndFive.mem (.ev a)).fd ∈ ({3, 9} : Finset Int)) ∧
      slotsTwoAndFiveFired.fired = slotsTwoAndFive.fired ++
        (slots.filterMap slotsTwoAndFive.watch_table).map (firedOf slotsTwoAndFive) :=
  ⟨by decide, by decide, by decide,
    (callbacks_fire_in_slot_order 8 idleCallbacks 8 {3, 9} 2 slotsTwoAndFive
      (by decide) (by decide) (by decide)).1 slotsTwoAndFiveFired slotsTwoAndFiveFired_run⟩

/-- C9: a persistent record `a` (descriptor A) and a one-shot record `b`
(descriptor B, different from A) are registered in slots `i` and `j` of an
otherwise empty registry, A in `readFds`.  The cycle in which `select` reports
both ready (`rfds = {A, B}`, `n = 2`), with callbacks that make no registry
call, returns; it has invoked the callback of each record exactly once (in
slot order); afterwards `a` is still in slot `i` with A in `readFds`, while `b`
has index `-1`, slot `j` is empty and B is not in `readFds`. -/
theorem persistent_and_one_shot_both_ready (MAX : Nat) (cb : Callbacks) (fuel : Nat)
    (s : State) (a b i j : Nat)
    (hm : s.listMutex = false) (hq : QueueEmpty s) (hi : i < MAX) (hj : j < MAX)
    (hia : s.watch_table i = some a) (hjb : s.watch_table j = some b)
    (hother : ∀ k, k < MAX → k ≠ i → k ≠ j → s.watch_table k = none)
    (hfd : (s.mem (.ev a)).fd ≠ (s.mem (.ev b)).fd)
    (hpa : (s.mem (.ev a)).persist ≠ 0) (hpb : (s.mem (.ev b)).persist = 0)
    (hfa : (s.mem (.ev a)).fd ∈ s.readFds)
    (hcb : ∀ f d p st, cb f d p st = []) (hfuel : 2 < fuel) :
    ∃ s1, dispatchCycle MAX cb fuel {(s.mem (.ev a)).fd, (s.mem (.ev b)).fd} 2 s = .ok s1 ∧
      s1.fired = s.fired ++
        (if i < j then [firedOf s a, firedOf s b] else [firedOf s b, firedOf s a]) ∧
      s1.watch_table i = some a ∧ (s1.mem (.ev a)).fd ∈ s1.readFds ∧
      (s1.mem (.ev b)).index = -1 ∧ s1.watch_table j = none ∧
      (s1.mem (.ev b)).fd ∉ s1.readFds := by
  have hab : a ≠ b := fun e => hfd (e ▸ rfl)
  have hne : i ≠ j := by
    intro e; subst e
    rw [hia] at hjb
    exact hab (Option.some.inj hjb)
  have hfinal : ∀ (slots : List Nat) (s1 s2 : State), i ∈ slots → j ∈ slots →
      (∀ k, k ∈ slots → k = i ∨ k = j) → ScanPost s s1 slots → SameReg s1 s2 →
      s2.watch_table i = some a ∧ (s2.mem (.ev a)).fd ∈ s2.readFds ∧
        (s2.mem (.ev b)).index = -1 ∧ s2.watch_table j = none ∧
        (s2.mem (.ev b)).fd ∉ s2.readFds := by
    intro slots s1 s2 _ hjs hsl hpost hsame
    obtain ⟨t1, t2, _, _, t5, t6⟩ := hsame
    obtain ⟨d1, d2, d3⟩ := hpost.drop j b hjs hjb hpb
    refine ⟨by rw [t1]; exact hpost.keepPersist i a hia hpa, ?_, by rw [t5]; exact d2,
      by rw [t1]; exact d1, ?_⟩
    · rw [t2, (t6 _).1, (hpost.data _).1]
      refine hpost.stay _ hfa ?_
      intro k c hk hkc hpc
      rcases hsl k hk with e | e
      · subst e
        rw [hia] at hkc
        cases hkc
        exact absurd hpc hpa
      · subst e
        rw [hjb] at hkc
        cases hkc
        exact fun e => hfd e.symm
    · rw [t2, (t6 _).1, (hpost.data _).1]
      exact d3
  rcases Nat.lt_or_gt_of_ne hne with hlt | hgt
  · obtain ⟨s1, s2, _, hpost, hrun, hsame, hfired⟩ :=
      pair_cycle MAX cb fuel s a b i j hm hq hlt hj hia hjb hother hfd hcb hfuel
    refine ⟨s2, hrun, by rw [hfired, if_pos hlt], ?_⟩
    exact hfinal [i, j] s1 s2 (by simp) (by simp) (fun k hk => by simpa using hk) hpost hsame
  · obtain ⟨s1, s2, _, hpost, hrun, hsame, hfired⟩ :=
      pair_cycle MAX cb fuel s b a j i hm hq hgt hi hjb hia
        (fun k hk h1 h2 => hother k hk h2 h1) (fun e => hfd e.symm) hcb hfuel
    have hset : ({(s.mem (.ev b)).fd, (s.mem (.ev a)).fd} : Finset Int) =
        {(s.mem (.ev a)).fd, (s.mem (.ev b)).fd} := Finset.pair_comm _ _
    rw [hset] at hrun
    refine ⟨s2, hrun, by rw [hfired, if_neg (by omega)], ?_⟩
    exact hfinal [j, i] s1 s2 (by simp) (by simp)
      (fun k hk => by
        simp only [List.mem_cons, List.mem_singleton, List.not_mem_nil, or_false] at hk
        exact hk.symm) hpost hsame

/-- The cycle on `twoRegistered` (record 0 persistent on descriptor 9, record 1
one-shot on descriptor 7) with both descriptors ready and fuel 3. -/
theorem persistent_and_one_shot_both_ready_witness :
    ∃ s1, dispatchCycle 8 idleCallbacks 3
        {(twoRegistered.mem (.ev 0)).fd, (twoRegistered.mem (.ev 1)).fd} 2 twoRegistered =
        .ok s1 ∧
      s1.fired = twoRegistered.fired ++
        (if 0 < 1 then [firedOf twoRegistered 0, firedOf twoRegistered 1]
         else [firedOf twoRegistered 1, firedOf twoRegistered 0]) ∧
      s1.watch_table 0 = some 0 ∧ (s1.mem (.ev 0)).fd ∈ s1.readFds ∧
      (s1.mem (.ev 1)).index = -1 ∧ s1.watch_table 1 = none ∧
      (s1.mem (.ev 1)).fd ∉ s1.readFds :=
  persistent_and_one_shot_both_ready 8 idleCallbacks 3 twoRegistered 0 1 0 1
    (by decide) (by decide) (by decide) (by decide) (by decide) (by decide)
    (by decide) (by decide) (by decide) (by decide) (by decide) (fun _ _ _ _ => rfl)
    (by decide)

/-- C10 (as stated, refuted): with `MAX_FD_EVENTS = 8` and records 0, 1, 2 in
slots 0, 1, 2, descriptors 9 (record 0) and 5 (record 2, persistent) are
reported ready, `n = 2`.  The scan queues record 0 ahead of record 2; the
callback of record 0 calls `cnd_event_del` on record 2, and the callback of
record 2 registers record 2 again.  Both callbacks are invoked once, and at
the end of the cycle record 2 is registered: its index is 2 and slot 2 holds
it. -/
theorem rearmed_record_registered_after_mid_fire_del :
    (∃ s1, processReadReadyEvent 8 {5, 9} 2 threeRegistered = .ok s1 ∧ Queue s1 [0, 2]) ∧
    (∀ st, rearmCallbacks (threeRegistered.mem (.ev 0)).func (threeRegistered.mem (.ev 0)).fd
      (threeRegistered.mem (.ev 0)).param st = [.del 2]) ∧
    dispatchCycle 8 rearmCallbacks 8 {5, 9} 2 threeRegistered = .ok threeRegisteredRearmed ∧
    threeRegisteredRearmed.fired.map Fired.ev = [0, 2] ∧
    (threeRegisteredRearmed.mem (.ev 2)).index = 2 ∧
    threeRegisteredRearmed.watch_table 2 = some 2 :=
  ⟨⟨_, rfl, by decide⟩, fun _ => rfl, rfl, by decide, by decide, by decide⟩

/-- C10 (amended): suppose the scan of a cycle, run on a registry whose slots
and records correspond, leaves records `a` and `b` both in the pending list
with `a` ahead of `b`, the callback of `a` calls `cnd_event_del` on `b`, and no
callback calls `cnd_event_add` on `b`.  Then whenever the cycle returns, the
callbacks of the queued records have been invoked in queue order, that of `b`
exactly once, and at the end `b` is unregistered: its index is `-1` and no slot
of `watch_table` holds it, whether `b` is persistent or one-shot.  The cycle
does return when the callback of `a` makes that call only and the other queued
callbacks make no registry call. -/
theorem deregistered_mid_fire_still_fires (MAX : Nat) (cb : Callbacks) (fuel : Nat)
    (rfds : Finset Int) (n : Int) (s s1 : State) (a b : Nat) (L1 L2 : List Nat)
    (hinv : RegInv MAX s)
    (hscan : processReadReadyEvent MAX rfds n s = .ok s1)
    (hqueue : Queue s1 (L1 ++ a :: L2)) (hb : b ∈ L2)
    (hcbA : ∀ st, Action.del b ∈
      cb (s.mem (.ev a)).func (s.mem (.ev a)).fd (s.mem (.ev a)).param st)
    (hno : ∀ f d p st, Action.add b ∉ cb f d p st) :
    (∀ s2, dispatchCycle MAX cb fuel rfds n s = .ok s2 →
      s2.fired = s.fired ++ (L1 ++ a :: L2).map (firedOf s) ∧
      (L1 ++ a :: L2).count b = 1 ∧
      (s2.mem (.ev b)).index = -1 ∧ ∀ k, k < MAX → s2.watch_table k ≠ some b) ∧
    ((∀ st, cb (s.mem (.ev a)).func (s.mem (.ev a)).fd (s.mem (.ev a)).param st = [.del b]) →
      (∀ c, c ∈ L1 ++ L2 → ∀ st,
        cb (s.mem (.ev c)).func (s.mem (.ev c)).fd (s.mem (.ev c)).param st = []) →
      (L1 ++ a :: L2).length < fuel →
      ∃ s2, dispatchCycle MAX cb fuel rfds n s = .ok s2) := by
  constructor
  · intro s2 hrun
    obtain ⟨s3, hscan3, hfire⟩ := dispatchCycle_ok hrun
    rw [hscan] at hscan3
    cases hscan3
    obtain ⟨hinv1, hdata1, hfired1, _⟩ := processReadReadyEvent_RegInv hinv hscan
    have hfire1 := hfire
    rw [firePendingEvent_of_queue hqueue] at hfire1
    obtain ⟨f1, _, _⟩ := firePendingEvent_loop_fired MAX cb _ fuel s1 s2 hqueue hfire1
    obtain ⟨hreg2, l, hl, himp⟩ := firePendingEvent_loop_RegOf hcbA hno fuel _ s1 s2
      (RegOf_of_RegInv b hinv1) hdata1 hfired1 hfire
    have hmap : (L1 ++ a :: L2).map (firedOf s1) = (L1 ++ a :: L2).map (firedOf s) :=
      List.map_congr_left (fun c _ => firedOf_congr hdata1 c)
    have hfired2 : s2.fired = s.fired ++ (L1 ++ a :: L2).map (firedOf s) := by
      rw [f1, hfired1, hmap]
    have hleq : l = (L1 ++ a :: L2).map (firedOf s) :=
      List.append_cancel_left (hl.symm.trans hfired2)
    have hidx : (s2.mem (.ev b)).index = -1 := by
      refine himp ?_
      rw [hleq]
      exact List.mem_map.mpr ⟨a, List.mem_append_right _ (List.mem_cons_self _ _), rfl⟩
    exact ⟨hfired2,
      List.count_eq_one_of_mem hqueue.1 (List.mem_append_right _ (List.mem_cons_of_mem _ hb)),
      hidx, hreg2.not_in_table hidx⟩
  · intro hA hO hfuel
    obtain ⟨s2, hrun, _⟩ := del_mid_fire_returns MAX cb fuel rfds n s s1 a b L1 L2 hinv hscan
      hqueue hb hA hO hfuel
    exact ⟨s2, hrun⟩

/-- The cycle on `threeRegistered` with all three descriptors ready, in which
the callback of record 0 deregisters the one-shot record 1, and the same with
the persistent record 2. -/
theorem deregistered_mid_fire_still_fires_witness :
    ((threeRegistered.mem (.ev 1)).persist = 0 ∧ (threeRegistered.mem (.ev 2)).persist ≠ 0) ∧
    (threeRegisteredDelOne.fired =
        threeRegistered.fired ++ ([] ++ 0 :: [1, 2]).map (firedOf threeRegistered) ∧
      ([] ++ 0 :: [1, 2]).count 1 = 1 ∧
      (threeRegisteredDelOne.mem (.ev 1)).index = -1 ∧
      ∀ k, k < 8 → threeRegisteredDelOne.watch_table k ≠ some 1) ∧
    (threeRegisteredDelTwo.fired =
        threeRegistered.fired ++ ([] ++ 0 :: [1, 2]).map (firedOf threeRegistered) ∧
      ([] ++ 0 :: [1, 2]).count 2 = 1 ∧
      (threeRegisteredDelTwo.mem (.ev 2)).index = -1 ∧
      ∀ k, k < 8 → threeRegisteredDelTwo.watch_table k ≠ some 2) :=
  ⟨by decide,
    (deregistered_mid_fire_still_fires 8 (delCallbacks 1) 8 {5, 7, 9} 3 threeRegistered
      threeRegisteredScanned 0 1 [] [1, 2]
      (RegSeq_RegInv distinctFdMem_configured threeRegistered_seq)
      threeRegisteredScanned_run (by decide) (by decide)
      (fun _ => List.mem_singleton.mpr rfl) (delCallbacks_no_add 1 1)).1
      threeRegisteredDelOne threeRegisteredDelOne_run,
    (deregistered_mid_fire_still_fires 8 (delCallbacks 2) 8 {5, 7, 9} 3 threeRegistered
      threeRegisteredScanned 0 2 [] [1, 2]
      (RegSeq_RegInv distinctFdMem_configured threeRegistered_seq)
      threeRegisteredScanned_run (by decide) (by decide)
      (fun _ => List.mem_singleton.mpr rfl) (delCallbacks_no_add 2 2)).1
      threeRegisteredDelTwo threeRegisteredDelTwo_run⟩

/-- C11: in a state with the mutex free in which every registered record has a
non-negative descriptor, let the record `ev` have a valid index and carry the
descriptor `nfds - 1` (the largest registered one when `nfds` is the largest
registered descriptor + 1), and let some slot other than that of `ev` be
occupied.  Then `cnd_event_del` returns, and afterwards `nfds` is the largest
descriptor of the records still in `watch_table`, plus one: some remaining
record has descriptor `nfds - 1` and none has a larger one. -/
theorem cnd_event_del_largest_recomputes_nfds (MAX : Nat) (s : State) (ev : Nat)
    (hm : s.listMutex = false)
    (h0 : 0 ≤ (s.mem (.ev ev)).index) (h1 : (s.mem (.ev ev)).index < MAX)
    (hnonneg : ∀ k b, k < MAX → s.watch_table k = some b → 0 ≤ (s.mem (.ev b)).fd)
    (hmax : (s.mem (.ev ev)).fd + 1 = s.nfds)
    (hother : ∃ k b, k < MAX ∧ (k : Int) ≠ (s.mem (.ev ev)).index ∧
      s.watch_table k = some b) :
    ∃ s1, cnd_event_del MAX s ev = .ok s1 ∧
      (∃ k b, k < MAX ∧ s1.watch_table k = some b ∧ s1.nfds = (s1.mem (.ev b)).fd + 1) ∧
      (∀ k b, k < MAX → s1.watch_table k = some b → (s1.mem (.ev b)).fd + 1 ≤ s1.nfds) := by
  refine ⟨_, cnd_event_del_valid_eq MAX s ev hm h0 h1, ?_⟩
  obtain ⟨i, hi⟩ : ∃ i : Nat, (s.mem (.ev ev)).index = (i : Int) :=
    ⟨(s.mem (.ev ev)).index.toNat, by omega⟩
  have hi1 : i < MAX := by omega
  rw [hi, Int.toNat_ofNat]
  have hfd : ∀ p, ((removeWatch MAX { s with listMutex := true } ev i).mem p).fd =
      (s.mem p).fd := fun p => ((removeWatch_frame MAX _ ev i).2.1 p).1
  have htab : ∀ k, (removeWatch MAX { s with listMutex := true } ev i).watch_table k =
      Function.update s.watch_table i none k := by
    intro k; rw [removeWatch_watch_table]
  have hn := removeWatch_nfds_eq MAX { s with listMutex := true } ev i hmax
  have hup := removeWatch_scan_upper (removeWatch MAX { s with listMutex := true } ev i) MAX 0 0
  simp only [MUTEX_RELEASE]
  constructor
  · rcases removeWatch_scan_attained (removeWatch MAX { s with listMutex := true } ev i)
      MAX 0 0 with hz | ⟨j, a, _, hj, ha, hfa⟩
    · obtain ⟨k, b, hk, hki, hb⟩ := hother
      have hki1 : k ≠ i := by
        intro h; apply hki; rw [hi, h]
      have hb1 : (removeWatch MAX { s with listMutex := true } ev i).watch_table k = some b := by
        rw [htab, Function.update_noteq hki1]; exact hb
      have hle := hup k b (Nat.zero_le _) (by omega) hb1
      have hge := hnonneg k b hk hb
      rw [hfd] at hle
      refine ⟨k, b, hk, hb1, ?_⟩
      rw [hn, hfd, hz]; omega
    · refine ⟨j, a, by omega, ha, ?_⟩
      rw [hn, hfa]
  · intro k b hk hb
    have hle := hup k b (Nat.zero_le _) (by omega) hb
    rw [hn]; omega

/-- Deregistration of record 0 (descriptor 9, `nfds = 10`) in the state
`threeRegistered`, where descriptors 7 and 5 stay registered. -/
theorem cnd_event_del_largest_recomputes_nfds_witness :
    (threeRegistered.listMutex = false ∧ 0 ≤ (threeRegistered.mem (.ev 0)).index ∧
      (threeRegistered.mem (.ev 0)).index < (8 : Nat) ∧
      (threeRegistered.mem (.ev 0)).fd + 1 = threeRegistered.nfds) ∧
    ∃ s1, cnd_event_del 8 threeRegistered 0 = .ok s1 ∧
      (∃ k b, k < 8 ∧ s1.watch_table k = some b ∧ s1.nfds = (s1.mem (.ev b)).fd + 1) ∧
      (∀ k b, k < 8 → s1.watch_table k = some b → (s1.mem (.ev b)).fd + 1 ≤ s1.nfds) :=
  ⟨⟨by decide, by decide, by decide, by decide⟩,
    cnd_event_del_largest_recomputes_nfds 8 threeRegistered 0 (by decide) (by decide)
      (by decide)
      (fun k b hk hb => (by decide : ∀ k, k < 8 → ∀ b, b ∈ threeRegistered.watch_table k →
        0 ≤ (threeRegistered.mem (.ev b)).fd) k hk b hb)
      (by decide) ⟨1, 1, by decide, by decide, by decide⟩⟩

/-- C12, evaluated: with `MAX_FD_EVENTS = 8`, in the state left by
`cnd_event_init` (`nfds = 0`) record 0, which is unregistered and has the
non-negative descriptor 9, is registered (`nfds = 10`) and then deregistered.
Both calls return; afterwards every slot of `watch_table` is empty and
`readFds` is empty, but `nfds` is 1, not 0. -/
theorem nfds_one_after_last_removal :
    (initState distinctFdMem).nfds = 0 ∧
    Unregistered 8 (initState distinctFdMem) 0 ∧
    0 ≤ ((initState distinctFdMem).mem (.ev 0)).fd ∧
    cnd_event_add 8 (initState distinctFdMem) 0 = .ok oneRegistered ∧
    oneRegistered.nfds = 10 ∧
    cnd_event_del 8 oneRegistered 0 = .ok lastRemoved ∧
    (∀ i, i < 8 → lastRemoved.watch_table i = none) ∧
    lastRemoved.readFds = ∅ ∧
    lastRemoved.nfds = 1 :=
  ⟨rfl, by decide, by decide, rfl, by decide, rfl, by decide, by decide, by decide⟩

/-- C13: in an iteration of `cnd_event_loop` in which `select` returns a
negative value, the only thing done depends on `errno`.  With `errno == EINTR`
the loop goes on to its next iteration from the very state `s` the iteration
started in; otherwise `cnd_event_loop` returns at once, in the state `s`.  In
both cases `processReadReadyEvent` and `firePendingEvent` are not run: the
state, and with it `watch_table`, `readFds`, `nfds`, the pending list and the
log of invoked callbacks, is unchanged. -/
theorem cnd_event_loop_select_failure (MAX : Nat) (cb : Callbacks) (fuel : Nat)
    (r : SelectResult) (sel : List SelectResult) (s : State) (hn : r.n < 0) :
    (r.errno = EINTR →
      cnd_event_loop MAX cb fuel (r :: sel) s = cnd_event_loop MAX cb fuel sel s) ∧
    (r.errno ≠ EINTR → cnd_event_loop MAX cb fuel (r :: sel) s = .ok s) := by
  constructor
  · intro he
    rw [cnd_event_loop, if_pos hn, if_pos he]
  · intro he
    rw [cnd_event_loop, if_pos hn, if_neg he]

/-- With records 0, 1, 2 registered: `select` fails twice with `EINTR` and then
with another error (`errno = 9`); `cnd_event_loop` returns in the state it was
called in, with no callback invoked. -/
theorem cnd_event_loop_select_failure_witness :
    ((-1 : Int) < 0) ∧
    ((4 : Int) = EINTR →
      cnd_event_loop 8 busyCallbacks 8
          ({ n := -1, rfds := ∅, errno := 4 } :: [{ n := -1, rfds := {5}, errno := 9 }])
          threeRegistered =
        cnd_event_loop 8 busyCallbacks 8 [{ n := -1, rfds := {5}, errno := 9 }]
          threeRegistered) ∧
    ((4 : Int) ≠ EINTR →
      cnd_event_loop 8 busyCallbacks 8
          ({ n := -1, rfds := ∅, errno := 4 } :: [{ n := -1, rfds := {5}, errno := 9 }])
          threeRegistered = .ok threeRegistered) :=
  ⟨by decide,
    cnd_event_loop_select_failure 8 busyCallbacks 8 { n := -1, rfds := ∅, errno := 4 }
      [{ n := -1, rfds := {5}, errno := 9 }] threeRegistered (by decide)⟩

/-- C14: in every state reached from the state left by `cnd_event_init` (all
records configured) by calls of `cnd_event_add` on records held in no slot, of
`cnd_event_del` and of `processReadReadyEvent`, slot `i` of `watch_table`
holds the record `r` if and only if the index of `r` is `i`, and the index of
every record is `-1` or lies in `[0, MAX_FD_EVENTS)`. -/
theorem slots_and_indices_correspond (MAX : Nat) (mem0 : Nat → cnd_event)
    (hcfg : ∀ a, Configured (mem0 a)) (s : State)
    (h : Reach MAX (fun t ev => Unregistered MAX t ev) (initState mem0) s) :
    (∀ i r, i < MAX → (s.watch_table i = some r ↔ (s.mem (.ev r)).index = (i : Int))) ∧
    (∀ r, (s.mem (.ev r)).index = -1 ∨
      (0 ≤ (s.mem (.ev r)).index ∧ (s.mem (.ev r)).index < MAX)) := by
  have hinv : RegInv MAX s := Reach_RegInv (fun _ _ hp => hp) hcfg h
  exact ⟨fun i r hi => ⟨hinv.slot i r hi, hinv.back r i hi⟩, hinv.range⟩

/-- The correspondence in the state reached by registering records 0, 1, 2,
scanning with descriptors 5, 7, 9 ready (which deregisters the one-shot
record 1) and deregistering record 2, with `MAX_FD_EVENTS = 8`. -/
theorem slots_and_indices_correspond_witness :
    ∃ s, Reach 8 (fun t ev => Unregistered 8 t ev) (initState distinctFdMem) s ∧
      s.watch_table 0 = some 0 ∧ s.watch_table 1 = none ∧ s.watch_table 2 = none ∧
      (∀ i r, i < 8 → (s.watch_table i = some r ↔ (s.mem (.ev r)).index = (i : Int))) ∧
      (∀ r, (s.mem (.ev r)).index = -1 ∨
        (0 ≤ (s.mem (.ev r)).index ∧ (s.mem (.ev r)).index < (8 : Nat))) :=
  have hreach : Reach 8 (fun t ev => Unregistered 8 t ev) (initState distinctFdMem) _ :=
    Reach.del 2
      (Reach.scan {5, 7, 9} 3
        (Reach.add 2 (Reach.add 1 (Reach.add 0 Reach.start (by decide) rfl) (by decide) rfl)
          (by decide) rfl)
        threeRegisteredScanned_run)
      rfl
  ⟨_, hreach, by decide, by decide, by decide,
    slots_and_indices_correspond 8 distinctFdMem distinctFdMem_configured _ hreach⟩

/-- C15 fails when two registered records share a descriptor.  With
`MAX_FD_EVENTS = 8`, records 0 and 1 both carry descriptor 5 and occupy slots
0 and 1; the pending list is empty and the mutex free.  The ready set `{5}` is
a subset of `readFds` and holds one descriptor, so `n = 1`.
`processReadReadyEvent` stops after slot 0 and queues record 0 only: record 1,
in an occupied slot with a ready descriptor, stays unlinked, while the scan of
all slots queues records 0 and 1. -/
theorem early_exit_misses_shared_fd :
    sharedFdRegistered.listMutex = false ∧ QueueEmpty sharedFdRegistered ∧
    sharedFdRegistered.watch_table 0 = some 0 ∧ sharedFdRegistered.watch_table 1 = some 1 ∧
    (sharedFdRegistered.mem (.ev 1)).fd ∈ ({5} : Finset Int) ∧
    ({5} : Finset Int) ⊆ sharedFdRegistered.readFds ∧
    ((({5} : Finset Int).card : Nat) : Int) = 1 ∧
    processReadReadyEvent 8 {5} 1 sharedFdRegistered = .ok sharedFdScanned ∧
    Queue sharedFdScanned [0] ∧
    (sharedFdScanned.mem (.ev 1)).next = none ∧
    scanAllSlots 8 {5} sharedFdRegistered = .ok sharedFdScannedAll ∧
    Queue sharedFdScannedAll [0, 1] :=
  ⟨by decide, by decide, by decide, by decide, by decide, by decide, by decide, rfl,
    by decide, by decide, rfl, by decide⟩

/-- C15, amended: in a state with the mutex free and the pending list empty in
which no record occupies two slots and no two registered records carry the
same descriptor, for every ready set `rfds` and `n` the number of its
descriptors, `processReadReadyEvent` returns the very state that the scan of
all `MAX_FD_EVENTS` slots without early exit returns.  In it the pending list
holds, in ascending slot order, the records of the occupied slots whose
descriptor is ready: a record is in the list exactly when some slot below
`MAX_FD_EVENTS` holds it and its descriptor is in `rfds`. -/
theorem early_exit_scan_eq_full_scan (MAX : Nat) (s : State) (rfds : Finset Int)
    (hm : s.listMutex = false) (hq : QueueEmpty s) (hslots : SlotsDistinct MAX s)
    (hfd : ∀ i j a b, i < MAX → j < MAX → s.watch_table i = some a →
      s.watch_table j = some b → (s.mem (.ev a)).fd = (s.mem (.ev b)).fd → a = b) :
    ∃ s1, processReadReadyEvent MAX rfds rfds.card s = .ok s1 ∧
      scanAllSlots MAX rfds s = .ok s1 ∧
      Queue s1 (((List.range' 0 MAX).filter (slotReady s rfds)).filterMap s.watch_table) ∧
      ∀ r, r ∈ ((List.range' 0 MAX).filter (slotReady s rfds)).filterMap s.watch_table ↔
        ∃ i, i < MAX ∧ s.watch_table i = some r ∧ (s.mem (.ev r)).fd ∈ rfds := by
  have hle : (((List.range' 0 MAX).filter (slotReady s rfds)).length : Int) ≤
      (rfds.card : Int) := by
    exact_mod_cast ready_slots_le_card rfds hslots hfd
  obtain ⟨s1, hrun, hqueue, _⟩ :=
    processReadReadyEvent_spec MAX rfds rfds.card s hm ((Queue_nil_iff s).mpr hq) hslots
  rw [readySlots_eq_filter s rfds MAX 0 rfds.card hle] at hqueue
  refine ⟨s1, hrun, ?_, hqueue, ?_⟩
  · rw [← processReadReadyEvent_eq_scanAllSlots MAX rfds rfds.card s hle]
    exact hrun
  · intro r
    rw [List.mem_filterMap]
    constructor
    · rintro ⟨i, hi, hir⟩
      rw [List.mem_filter, List.mem_range'_1] at hi
      obtain ⟨rev, hrev, hready⟩ := slotReady_true hi.2
      rw [hrev] at hir
      cases hir
      exact ⟨i, by omega, hrev, hready⟩
    · rintro ⟨i, hi, hir, hready⟩
      refine ⟨i, ?_, hir⟩
      rw [List.mem_filter, List.mem_range'_1, slotReady_some hir]
      exact ⟨⟨Nat.zero_le _, by omega⟩, by simpa using hready⟩

/-- The scan of the state `threeRegistered` (descriptors 9, 7, 5 in slots 0, 1,
2) with ready set `{5, 9}` and `n = 2`: records 0 and 2 are queued, as by the
scan of all slots. -/
theorem early_exit_scan_eq_full_scan_witness :
    (threeRegistered.listMutex = false ∧ QueueEmpty threeRegistered ∧
      SlotsDistinct 8 threeRegistered) ∧
    ∃ s1, processReadReadyEvent 8 {5, 9} (({5, 9} : Finset Int).card) threeRegistered = .ok s1 ∧
      scanAllSlots 8 {5, 9} threeRegistered = .ok s1 ∧
      Queue s1 (((List.range' 0 8).filter (slotReady threeRegistered {5, 9})).filterMap
        threeRegistered.watch_table) ∧
      ∀ r, r ∈ ((List.range' 0 8).filter (slotReady threeRegistered {5, 9})).filterMap
          threeRegistered.watch_table ↔
        ∃ i, i < 8 ∧ threeRegistered.watch_table i = some r ∧
          (threeRegistered.mem (.ev r)).fd ∈ ({5, 9} : Finset Int) :=
  ⟨⟨by decide, by decide, by decide⟩,
    early_exit_scan_eq_full_scan 8 threeRegistered {5, 9} (by decide) (by decide) (by decide)
      (fun i j a b hi hj ha hb h =>
        (by decide : ∀ i, i < 8 → ∀ j, j < 8 → ∀ a, a ∈ threeRegistered.watch_table i →
          ∀ b, b ∈ threeRegistered.watch_table j →
          (threeRegistered.mem (.ev a)).fd = (threeRegistered.mem (.ev b)).fd → a = b)
          i hi j hj a ha b hb h)⟩

/-- C16: let the records of a duplicate-free list `L` be appended in order,
with `addToList`, to the empty pending list of a state `s0`; this returns a
state `s`.  Callbacks act on the registry only (they call `cnd_event_add` and
`cnd_event_del`), so none assigns a link of the list.  Whenever
`firePendingEvent` returns from `s`, the invocations it has logged are those
of the records of `L`, once each and in the order of `L`, each with the
descriptor and the parameter of its record, and the sentinel is linked to
itself.  For every record `a` of `L`, with `L1` the records before it, the
callback of `a` was invoked in a state `t` in which exactly the callbacks of
`L1` had been invoked and `a->next` and `a->prev` were `NULL`.
`firePendingEvent` does return when the callbacks of the records of `L` make
no registry call and the fuel exceeds the length of `L`. -/
theorem firePendingEvent_fires_in_queue_order (MAX : Nat) (cb : Callbacks) (fuel : Nat)
    (s0 : State) (L : List Nat) (hq : QueueEmpty s0) (hnd : L.Nodup) :
    ∃ s, addAllToList L s0 = .ok s ∧
      (∀ s2, firePendingEvent MAX cb fuel s = .ok s2 →
        s2.fired = s0.fired ++ L.map (firedOf s0) ∧ QueueEmpty s2 ∧
        ∀ L1 a L2, L = L1 ++ a :: L2 →
          ∃ t t2, t.fired = s0.fired ++ L1.map (firedOf s0) ∧
            (t.mem (.ev a)).next = none ∧ (t.mem (.ev a)).prev = none ∧
            invoke MAX cb t a = .ok t2 ∧
            ∃ fuel2, firePendingEvent_loop MAX cb fuel2 (some (headPtr L2)) t2 = .ok s2) ∧
      ((∀ a, a ∈ L → ∀ st,
          cb (s0.mem (.ev a)).func (s0.mem (.ev a)).fd (s0.mem (.ev a)).param st = []) →
        L.length < fuel → ∃ s2, firePendingEvent MAX cb fuel s = .ok s2) := by
  obtain ⟨s, hall, hqs, hreg⟩ :=
    addAllToList_queue L s0 [] ((Queue_nil_iff s0).mpr hq) hnd (fun _ _ h => by cases h)
  rw [List.nil_append] at hqs
  have hd : DataEq s0 s := hreg.2.2.2.2.2.2
  have hmap : ∀ l : List Nat, l.map (firedOf s) = l.map (firedOf s0) :=
    fun l => List.map_congr_left (fun c _ => firedOf_congr hd c)
  refine ⟨s, hall, ?_, ?_⟩
  · intro s2 hrun
    rw [firePendingEvent_of_queue hqs] at hrun
    obtain ⟨hf, hq2, _⟩ := firePendingEvent_loop_fired MAX cb L fuel s s2 hqs hrun
    refine ⟨by rw [hf, hreg.2.2.2.2.1, hmap], (Queue_nil_iff s2).mp hq2, ?_⟩
    intro L1 a L2 hL
    subst hL
    obtain ⟨t, t2, ht, hnx, hpv, hinv, hrest⟩ :=
      firePendingEvent_loop_at MAX cb L1 a L2 fuel s s2 hqs hrun
    exact ⟨t, t2, by rw [ht, hreg.2.2.2.2.1, hmap], hnx, hpv, hinv, hrest⟩
  · intro hcb hfuel
    have hcb1 : ∀ a, a ∈ L → ∀ st,
        cb (s.mem (.ev a)).func (s.mem (.ev a)).fd (s.mem (.ev a)).param st = [] := by
      intro a ha st
      rw [(hd (.ev a)).1, (hd (.ev a)).2.2.1, (hd (.ev a)).2.2.2]
      exact hcb a ha st
    obtain ⟨s2, hrun, _⟩ := firePendingEvent_idle MAX cb fuel s L hqs hcb1 hfuel
    exact ⟨s2, hrun⟩

/-- Records 2, 0 and 1 (descriptors 5, 9, 7) appended to the empty pending list
of the initial state and fired with callbacks that make no registry call. -/
theorem firePendingEvent_fires_in_queue_order_witness :
    (QueueEmpty (initState distinctFdMem) ∧ [2, 0, 1].Nodup) ∧
    ∃ s, addAllToList [2, 0, 1] (initState distinctFdMem) = .ok s ∧
      (∀ s2, firePendingEvent 8 idleCallbacks 8 s = .ok s2 →
        s2.fired = (initState distinctFdMem).fired ++
          [2, 0, 1].map (firedOf (initState distinctFdMem)) ∧ QueueEmpty s2 ∧
        ∀ L1 a L2, [2, 0, 1] = L1 ++ a :: L2 →
          ∃ t t2, t.fired = (initState distinctFdMem).fired ++
              L1.map (firedOf (initState distinctFdMem)) ∧
            (t.mem (.ev a)).next = none ∧ (t.mem (.ev a)).prev = none ∧
            invoke 8 idleCallbacks t a = .ok t2 ∧
            ∃ fuel2, firePendingEvent_loop 8 idleCallbacks fuel2 (some (headPtr L2)) t2 =
              .ok s2) ∧
      ((∀ a, a ∈ [2, 0, 1] → ∀ st,
          idleCallbacks ((initState distinctFdMem).mem (.ev a)).func
            ((initState distinctFdMem).mem (.ev a)).fd
            ((initState distinctFdMem).mem (.ev a)).param st = []) →
        [2, 0, 1].length < 8 → ∃ s2, firePendingEvent 8 idleCallbacks 8 s = .ok s2) :=
  ⟨⟨by decide, by decide⟩,
    firePendingEvent_fires_in_queue_order 8 idleCallbacks 8 (initState distinctFdMem) [2, 0, 1]
      (by decide) (by decide)⟩

/-- C17: in every state reached from the state left by `cnd_event_init` (all
records configured) by calls of `cnd_event_add` on records held in no slot and
with a non-negative descriptor, of `cnd_event_del` and of
`processReadReadyEvent`, every descriptor in `readFds` lies in `[0, nfds)`,
the range examined by `select(nfds, ...)`, and `nfds` is at least the
descriptor of every registered record plus one. -/
theorem watched_descriptors_below_nfds (MAX : Nat) (mem0 : Nat → cnd_event)
    (hcfg : ∀ a, Configured (mem0 a)) (s : State)
    (h : Reach MAX (fun t ev => Unregistered MAX t ev ∧ 0 ≤ (t.mem (.ev ev)).fd)
      (initState mem0) s) :
    (∀ d, d ∈ s.readFds → 0 ≤ d ∧ d < s.nfds) ∧
    (∀ i a, i < MAX → s.watch_table i = some a → (s.mem (.ev a)).fd + 1 ≤ s.nfds) := by
  obtain ⟨_, hn, ht⟩ := Reach_NfdsTop hcfg h
  refine ⟨?_, hn.bound⟩
  intro d hd
  obtain ⟨i, hi, a, ha, hfa⟩ := hn.sub d hd
  have h1 := hn.bound i a hi ha
  have h2 := ht.nonneg i a hi ha
  omega

/-- The bound in the state reached by registering records 0, 1, 2 (descriptors
9, 7, 5), deregistering record 0 and scanning with descriptor 7 ready (which
deregisters the one-shot record 1), with `MAX_FD_EVENTS = 8`: only descriptor
5 is watched, and `nfds` is 6. -/
theorem watched_descriptors_below_nfds_witness :
    ∃ s, Reach 8 (fun t ev => Unregistered 8 t ev ∧ 0 ≤ (t.mem (.ev ev)).fd)
        (initState distinctFdMem) s ∧
      s.readFds = {5} ∧ s.nfds = 6 ∧
      (∀ d, d ∈ s.readFds → 0 ≤ d ∧ d < s.nfds) ∧
      (∀ i a, i < 8 → s.watch_table i = some a → (s.mem (.ev a)).fd + 1 ≤ s.nfds) :=
  have hreach : Reach 8 (fun t ev => Unregistered 8 t ev ∧ 0 ≤ (t.mem (.ev ev)).fd)
      (initState distinctFdMem) _ :=
    Reach.scan {7} 1
      (Reach.del 0
        (Reach.add 2 (Reach.add 1 (Reach.add 0 Reach.start (by decide) rfl) (by decide) rfl)
          (by decide) rfl)
        threeRegisteredLessZero_run)
      (rfl : processReadReadyEvent 8 {7} 1 threeRegisteredLessZero =
        .ok (stateOf (processReadReadyEvent 8 {7} 1 threeRegisteredLessZero)
          threeRegisteredLessZero))
  ⟨_, hreach, by decide, by decide,
    watched_descriptors_below_nfds 8 distinctFdMem distinctFdMem_configured _ hreach⟩

/-- C18: if every `cnd_event_add` is applied to a record held in no slot whose
descriptor differs from the descriptor of every registered record, then in
every state reached from the state left by `cnd_event_init` (all records
configured) by calls of `cnd_event_add`, `cnd_event_del` and
`processReadReadyEvent`, a descriptor is in `readFds` if and only if some
occupied slot of `watch_table` holds a record with that descriptor. -/
theorem interest_set_exact_through_scans (MAX : Nat) (mem0 : Nat → cnd_event)
    (hcfg : ∀ a, Configured (mem0 a)) (s : State)
    (h : Reach MAX (fun t ev => Unregistered MAX t ev ∧ FreshFd MAX t ev) (initState mem0) s)
    (d : Int) : d ∈ s.readFds ↔ Watched MAX s d :=
  (Reach_FdInv hcfg h).2.iff d

/-- The exactness of the interest set after registering records 0, 1, 2
(descriptors 9, 7, 5) and scanning with descriptors 7 and 9 ready, which
deregisters the one-shot record 1: descriptors 9 and 5 are watched, 7 is not,
with `MAX_FD_EVENTS = 8`. -/
theorem interest_set_exact_through_scans_witness :
    ∃ s, Reach 8 (fun t ev => Unregistered 8 t ev ∧ FreshFd 8 t ev)
        (initState distinctFdMem) s ∧
      s.readFds = {5, 9} ∧ s.watch_table 1 = none ∧
      ((7 : Int) ∈ s.readFds ↔ Watched 8 s 7) ∧ ((9 : Int) ∈ s.readFds ↔ Watched 8 s 9) :=
  have hreach : Reach 8 (fun t ev => Unregistered 8 t ev ∧ FreshFd 8 t ev)
      (initState distinctFdMem) _ :=
    Reach.scan {7, 9} 2
      (Reach.add 2 (Reach.add 1 (Reach.add 0 Reach.start (by decide) rfl) (by decide) rfl)
        (by decide) rfl)
      (rfl : processReadReadyEvent 8 {7, 9} 2 threeRegistered =
        .ok (stateOf (processReadReadyEvent 8 {7, 9} 2 threeRegistered) threeRegistered))
  ⟨_, hreach, by decide, by decide,
    interest_set_exact_through_scans 8 distinctFdMem distinctFdMem_configured _ hreach 7,
    interest_set_exact_through_scans 8 distinctFdMem distinctFdMem_configured _ hreach 9⟩

/-- C19: for every state with the mutex free and an empty slot below
`MAX_FD_EVENTS`, `cnd_event_add` returns; the record is stored in the empty
slot `i` of lowest index (every slot below `i` is occupied before the call),
the index of the record is `i`, and every slot other than `i` (the slots
below `i` among them) holds what it held before. -/
theorem cnd_event_add_takes_lowest_free_slot (MAX : Nat) (s : State) (ev : Nat)
    (hm : s.listMutex = false) (hfree : ∃ j, j < MAX ∧ s.watch_table j = none) :
    ∃ i s1, i < MAX ∧ s.watch_table i = none ∧ (∀ l, l < i → s.watch_table l ≠ none) ∧
      cnd_event_add MAX s ev = .ok s1 ∧ s1.watch_table i = some ev ∧
      (s1.mem (.ev ev)).index = (i : Int) ∧
      (∀ j, j ≠ i → s1.watch_table j = s.watch_table j) := by
  rcases cnd_event_add_cases MAX s ev hm with ⟨i, hi, hnone, hlow, hadd⟩ | ⟨hfull, _⟩
  · refine ⟨i, addAt s ev i, hi, hnone, hlow, hadd, ?_, ?_, ?_⟩
    · simp [addAt]
    · simp [addAt]
    · intro j hj; simp [addAt, Function.update_noteq hj]
  · obtain ⟨j, hj, hnone⟩ := hfree
    exact absurd hnone (hfull j hj)

/-- Registration of record 1 in the state `slotsTwoAndFive` (slots 2 and 5
occupied, `MAX_FD_EVENTS = 8`): the record goes to slot 0. -/
theorem cnd_event_add_takes_lowest_free_slot_witness :
    (slotsTwoAndFive.listMutex = false ∧ ∃ j, j < 8 ∧ slotsTwoAndFive.watch_table j = none) ∧
    ∃ i s1, i < 8 ∧ slotsTwoAndFive.watch_table i = none ∧
      (∀ l, l < i → slotsTwoAndFive.watch_table l ≠ none) ∧
      cnd_event_add 8 slotsTwoAndFive 1 = .ok s1 ∧ s1.watch_table i = some 1 ∧
      (s1.mem (.ev 1)).index = (i : Int) ∧
      (∀ j, j ≠ i → s1.watch_table j = slotsTwoAndFive.watch_table j) :=
  ⟨⟨by decide, 0, by decide, by decide⟩,
    cnd_event_add_takes_lowest_free_slot 8 slotsTwoAndFive 1 (by decide)
      ⟨0, by decide, by decide⟩⟩

/-- C20: for every state with the mutex free and an empty slot below
`MAX_FD_EVENTS`, and every record that is configured, held in no slot and whose
descriptor is not in `readFds`, `cnd_event_add` followed by `cnd_event_del` on
that record returns with `watch_table` and `readFds` as they were before the
`cnd_event_add` and the index of the record `-1`. -/
theorem cnd_event_add_then_del_restores (MAX : Nat) (s : State) (ev : Nat)
    (hm : s.listMutex = false) (hfree : ∃ j, j < MAX ∧ s.watch_table j = none)
    (_hcfg : Configured (s.mem (.ev ev))) (_hun : Unregistered MAX s ev)
    (hfd : (s.mem (.ev ev)).fd ∉ s.readFds) :
    ∃ s1 s2, cnd_event_add MAX s ev = .ok s1 ∧ cnd_event_del MAX s1 ev = .ok s2 ∧
      s2.watch_table = s.watch_table ∧ s2.readFds = s.readFds ∧
      (s2.mem (.ev ev)).index = -1 := by
  rcases cnd_event_add_cases MAX s ev hm with ⟨i, hi, hnone, _, hadd⟩ | ⟨hfull, _⟩
  · have hidx : ((addAt s ev i).mem (.ev ev)).index = (i : Int) := by simp [addAt]
    have hdel := cnd_event_del_valid_eq MAX (addAt s ev i) ev rfl
      (by rw [hidx]; omega) (by rw [hidx]; exact_mod_cast hi)
    refine ⟨_, _, hadd, hdel, ?_, ?_, ?_⟩
    · simp only [MUTEX_RELEASE, removeWatch_watch_table, hidx, Int.toNat_ofNat]
      funext j
      by_cases hj : j = i
      · subst hj; simp [hnone]
      · simp [addAt, Function.update_noteq hj]
    · simp only [MUTEX_RELEASE, removeWatch_readFds]
      simp [addAt, Finset.erase_insert hfd]
    · simp only [MUTEX_RELEASE, removeWatch_mem]
      simp
  · obtain ⟨j, hj, hnone⟩ := hfree
    exact absurd hnone (hfull j hj)

/-- Registration and immediate deregistration of record 2 (descriptor 5) in
the state `twoRegistered` (descriptors 9 and 7 watched, `MAX_FD_EVENTS = 8`). -/
theorem cnd_event_add_then_del_restores_witness :
    (twoRegistered.listMutex = false ∧ (∃ j, j < 8 ∧ twoRegistered.watch_table j = none) ∧
      Configured (twoRegistered.mem (.ev 2)) ∧ Unregistered 8 twoRegistered 2 ∧
      (twoRegistered.mem (.ev 2)).fd ∉ twoRegistered.readFds) ∧
    ∃ s1 s2, cnd_event_add 8 twoRegistered 2 = .ok s1 ∧ cnd_event_del 8 s1 2 = .ok s2 ∧
      s2.watch_table = twoRegistered.watch_table ∧ s2.readFds = twoRegistered.readFds ∧
      (s2.mem (.ev 2)).index = -1 :=
  ⟨⟨by decide, ⟨2, by decide, by decide⟩, by decide, by decide, by decide⟩,
    cnd_event_add_then_del_restores 8 twoRegistered 2 (by decide) ⟨2, by decide, by decide⟩
      (by decide) (by decide) (by decide)⟩

end CndEvent
